import Mathlib

/-!
FixFX artifacts service (`lib/examples/artifacts.go`)

A shallow embedding of the artifacts service: the support-status table, the
time-bound cache, the tag and issue fetchers, the tag processor, the filter /
sort / paginate query pipeline and the entry point `GetArtifacts`, together
with the properties established about them.

Conventions of the embedding:
* Go `string` is `String`; the named string types `SupportStatus` and
  `PlatformType` are `String` as well (any string value can inhabit them).
* Go `int` / `int64` is `Int`; where the code can overflow the arithmetic is
  wrapped to 64 bits explicitly (`wrap64`).
* Go slices are `List`s; a Go `map[string]V` is an association list with
  unique keys (`GoMap`).
* `time.Now()` is an explicit parameter, and so are the outcome of each
  upstream request, `time.Parse` and the order in which a `range` statement
  enumerates a map.
-/

namespace Artifacts

/-! ## Data model -/

abbrev SupportStatus := String
abbrev PlatformType := String

def Recommended : SupportStatus := "recommended"
def Latest : SupportStatus := "latest"
def Active : SupportStatus := "active"
def Deprecated : SupportStatus := "deprecated"
def EOL : SupportStatus := "eol"

def Windows : PlatformType := "windows"
def Linux : PlatformType := "linux"

/-- A tag of the upstream repository: `Name` and `Commit.SHA`. -/
structure GitHubTag where
  Name : String
  SHA : String
  deriving DecidableEq, Repr, Inhabited

structure Artifact where
  Version : String
  Hash : String
  Platform : PlatformType
  Date : String
  SupportStatus : SupportStatus
  URL : String
  Size : Int
  deriving DecidableEq, Repr, Inhabited

structure ArtifactsQuery where
  Platform : String
  Version : String
  Status : SupportStatus
  SortBy : String
  SortOrder : String
  Limit : Int
  Offset : Int
  IncludeEOL : Bool
  deriving DecidableEq, Repr, Inhabited

structure ArtifactEntry where
  Version : String
  Hash : String
  Platform : PlatformType
  Date : String
  SupportStatus : SupportStatus
  URL : String
  Size : Int
  deriving DecidableEq, Repr, Inhabited

/-! ## Support status -/

/-- The `switch` of `determineSupportStatus`: the first case that holds wins. -/
def determineSupportStatus (version : Int) : SupportStatus :=
  if version ≥ 24500 then Recommended
  else if version ≥ 24000 then Latest
  else if version ≥ 23000 then Active
  else if version ≥ 20000 then Deprecated
  else EOL

/-! ## Machine integers -/

/-- Two's-complement wrap of a mathematical integer to Go's 64-bit `int`. -/
def wrap64 (x : Int) : Int :=
  (x + 9223372036854775808) % 18446744073709551616 - 9223372036854775808

def maxInt64 : Int := 9223372036854775807

def minInt64 : Int := -9223372036854775808

/-! ## Go maps -/

/-- A Go `map[string]V`: an association list in which every key occurs at most
once. The order of the list is one possible iteration order. -/
abbrev GoMap (V : Type) := List (String × V)

/-- The lookup `m[k]` with its `ok` flag. -/
def GoMap.get? {V : Type} : GoMap V → String → Option V
  | [], _ => none
  | (k', v) :: m, k => if k' = k then some v else GoMap.get? m k

/-- The assignment `m[k] = v`: overwrite the entry of `k` or add a new one. -/
def GoMap.set {V : Type} : GoMap V → String → V → GoMap V
  | [], k, v => [(k, v)]
  | (k', v') :: m, k, v => if k' = k then (k, v) :: m else (k', v') :: GoMap.set m k v

/-- Go's `delete(m, k)`. -/
def GoMap.delete {V : Type} (m : GoMap V) (k : String) : GoMap V :=
  m.filter (fun p => p.1 ≠ k)

/-- Go's `len(m)`. -/
def GoMap.len {V : Type} (m : GoMap V) : Nat := m.length

/-- The keys of the map, in list order. -/
def GoMap.keys {V : Type} (m : GoMap V) : List String := m.map Prod.fst

/-! ## Time-bound cache -/

structure GitHubIssue where
  Number : Int
  Title : String
  State : String
  URL : String
  Body : String
  Labels : List String
  CreatedAt : String
  UpdatedAt : String
  deriving DecidableEq, Repr, Inhabited

/-- The dynamic value behind the `interface{}` of a cache entry: the service
only ever stores a tag list or an issue list. -/
inductive CacheData where
  | tags (l : List GitHubTag)
  | issues (l : List GitHubIssue)
  deriving DecidableEq, Repr

structure cacheEntry where
  data : CacheData
  timestamp : Int
  deriving DecidableEq, Repr

/-- The mutable part of `ArtifactsService` (the HTTP client is the `upstream`
argument of the fetch operations). -/
structure ArtifactsService where
  githubToken : String
  cache : GoMap cacheEntry
  deriving DecidableEq, Repr

def cacheDuration : Int := 3600000
def issuesCacheDuration : Int := 1800000
def maxRetries : Int := 3
def retryDelay : Int := 1000
def rateLimitDelay : Int := 1000

def NewArtifactsService (githubToken : String) : ArtifactsService :=
  { githubToken := githubToken, cache := [] }

/-- `getCache`, with `now` standing for `time.Now().UnixMilli()`: the cached
value (`none` is Go's `nil`) and the service afterwards. -/
def getCache (s : ArtifactsService) (key : String) (now : Int) :
    Option CacheData × ArtifactsService :=
  match s.cache.get? key with
  | some entry =>
    if wrap64 (now - entry.timestamp) < cacheDuration then (some entry.data, s)
    else (none, { s with cache := s.cache.delete key })
  | none => (none, s)

/-- `setCache`, with `now` standing for `time.Now().UnixMilli()`. The
`duration` argument is accepted and, as in the source, not stored. -/
def setCache (s : ArtifactsService) (key : String) (data : CacheData) (_duration : Int)
    (now : Int) : ArtifactsService :=
  { s with cache := s.cache.set key { data := data, timestamp := now } }

/-! ## Upstream fetcher: tags -/

/-- `FetchGitHubTags`. `upstream` is the outcome of the one request
`fetchFromGitHub(url)`; `now₁` is the clock at the first cache read and `now₂`
the clock after the request (second cache read, or cache write). -/
def FetchGitHubTags (s : ArtifactsService) (useCache : Bool)
    (upstream : Except String (List GitHubTag)) (now₁ now₂ : Int) :
    Except String (List GitHubTag) × ArtifactsService :=
  let first : Option (List GitHubTag) × ArtifactsService :=
    if useCache then
      match getCache s "tags" now₁ with
      | (some (CacheData.tags tags), s₁) => (some tags, s₁)
      | (_, s₁) => (none, s₁)
    else (none, s)
  match first with
  | (some tags, s₁) => (Except.ok tags, s₁)
  | (none, s₁) =>
    match upstream with
    | Except.error err =>
      match getCache s₁ "tags" now₂ with
      | (some (CacheData.tags tags), s₂) => (Except.ok tags, s₂)
      | (_, s₂) => (Except.error ("failed to fetch GitHub tags: " ++ err), s₂)
    | Except.ok tags => (Except.ok tags, setCache s₁ "tags" (CacheData.tags tags) cacheDuration now₂)

/-! ## Go's `sort.Slice`

`ProcessGitHubTags` and `SortArtifacts` sort with `sort.Slice` of Go's
standard library, which is not stable. The functions below follow the
library's `zsortfunc.go` (pattern-defeating quicksort, Go 1.19 and later):
`Less i j` is the caller's closure applied to the current contents of
positions `i` and `j`, `Swap` exchanges two positions. Loops are recursions on
their own trip count; where a loop is driven by a fuel argument the fuel is at
least the length of the range, so that fuel 0 is reached only when the loop
would stop anyway. -/

namespace GoSort

variable {α : Type}

/-- The closure `less(i, j)`: the element order applied to positions `i`, `j`
of the slice as it currently is (indices out of range panic in Go and do not
occur). -/
def Less (less : α → α → Bool) (data : List α) (i j : Nat) : Bool :=
  match data[i]?, data[j]? with
  | some x, some y => less x y
  | _, _ => false

/-- The swapper `swap(i, j)`. -/
def Swap (data : List α) (i j : Nat) : List α :=
  match data[i]?, data[j]? with
  | some x, some y => (data.set i y).set j x
  | _, _ => data

/-- Inner loop of `insertionSort_func`: `for j := i; j > a && less(j, j-1); j--`. -/
def insertionSortInner (less : α → α → Bool) (a : Nat) : List α → Nat → List α
  | data, 0 => data
  | data, j + 1 =>
    if j + 1 > a && Less less data (j + 1) j then
      insertionSortInner less a (Swap data (j + 1) j) j
    else data

/-- Outer loop of `insertionSort_func`: `for i := a + 1; i < b; i++`, with
`n = b - i` iterations left. -/
def insertionSortOuter (less : α → α → Bool) (a : Nat) : List α → Nat → Nat → List α
  | data, _, 0 => data
  | data, i, n + 1 => insertionSortOuter less a (insertionSortInner less a data i) (i + 1) n

def insertionSort_func (less : α → α → Bool) (data : List α) (a b : Nat) : List α :=
  insertionSortOuter less a data (a + 1) (b - (a + 1))

/-- The loop of `siftDown_func` (`root` starts at `lo`); fuel `hi` suffices. -/
def siftDown_func (less : α → α → Bool) (hi first : Nat) : List α → Nat → Nat → List α
  | data, _, 0 => data
  | data, root, fuel + 1 =>
    let child := 2 * root + 1
    if child ≥ hi then data
    else
      let child :=
        if child + 1 < hi && Less less data (first + child) (first + child + 1) then child + 1
        else child
      if !Less less data (first + root) (first + child) then data
      else siftDown_func less hi first (Swap data (first + root) (first + child)) child fuel

/-- First loop of `heapSort_func`: `for i := (hi-1)/2; i >= 0; i--`, with
`n = i + 1`. -/
def heapSortBuild (less : α → α → Bool) (hi first : Nat) : List α → Nat → List α
  | data, 0 => data
  | data, i + 1 => heapSortBuild less hi first (siftDown_func less hi first data i hi) i

/-- Second loop of `heapSort_func`: `for i := hi-1; i >= 0; i--`, with `n = i + 1`. -/
def heapSortPop (less : α → α → Bool) (first : Nat) : List α → Nat → List α
  | data, 0 => data
  | data, i + 1 =>
    heapSortPop less first (siftDown_func less i first (Swap data first (first + i)) 0 i) i

def heapSort_func (less : α → α → Bool) (data : List α) (a b : Nat) : List α :=
  let first := a
  let hi := b - a
  heapSortPop less first (heapSortBuild less hi first data ((hi - 1) / 2 + 1)) hi

inductive sortedHint where
  | unknownHint
  | increasingHint
  | decreasingHint
  deriving DecidableEq, Repr

/-- The scan `for i <= j && less(i, a) { i++ }`, with `n = j + 1 - i`; returns `i`. -/
def scanLessUp (less : α → α → Bool) (data : List α) (a : Nat) : Nat → Nat → Nat
  | i, 0 => i
  | i, n + 1 => if Less less data i a then scanLessUp less data a (i + 1) n else i

/-- The scan `for i <= j && !less(j, a) { j-- }`, with `n = j + 1 - i`; returns `j`. -/
def scanNotLessDown (less : α → α → Bool) (data : List α) (a : Nat) : Nat → Nat → Nat
  | j, 0 => j
  | j, n + 1 => if !Less less data j a then scanNotLessDown less data a (j - 1) n else j

/-- The `for { ... }` loop of `partition_func`; returns the slice and `j`. -/
def partitionLoop (less : α → α → Bool) (a : Nat) : List α → Nat → Nat → Nat → List α × Nat
  | data, _, j, 0 => (data, j)
  | data, i, j, fuel + 1 =>
    let i := scanLessUp less data a i (j + 1 - i)
    let j := scanNotLessDown less data a j (j + 1 - i)
    if i > j then (data, j)
    else partitionLoop less a (Swap data i j) (i + 1) (j - 1) fuel

/-- One quicksort partition: `(data, newpivot, alreadyPartitioned)`. -/
def partition_func (less : α → α → Bool) (data : List α) (a b pivot : Nat) :
    List α × Nat × Bool :=
  let data := Swap data a pivot
  let i := a + 1
  let j := b - 1
  let i := scanLessUp less data a i (j + 1 - i)
  let j := scanNotLessDown less data a j (j + 1 - i)
  if i > j then (Swap data j a, j, true)
  else
    let data := Swap data i j
    let i := i + 1
    let j := j - 1
    let r := partitionLoop less a data i j (j + 1 - i)
    (Swap r.1 r.2 a, r.2, false)

/-- The scan `for i <= j && !less(a, i) { i++ }`, with `n = j + 1 - i`. -/
def scanNotGreaterUp (less : α → α → Bool) (data : List α) (a : Nat) : Nat → Nat → Nat
  | i, 0 => i
  | i, n + 1 => if !Less less data a i then scanNotGreaterUp less data a (i + 1) n else i

/-- The scan `for i <= j && less(a, j) { j-- }`, with `n = j + 1 - i`. -/
def scanGreaterDown (less : α → α → Bool) (data : List α) (a : Nat) : Nat → Nat → Nat
  | j, 0 => j
  | j, n + 1 => if Less less data a j then scanGreaterDown less data a (j - 1) n else j

/-- The loop of `partitionEqual_func`; returns the slice and `i`. -/
def partitionEqualLoop (less : α → α → Bool) (a : Nat) : List α → Nat → Nat → Nat → List α × Nat
  | data, i, _, 0 => (data, i)
  | data, i, j, fuel + 1 =>
    let i := scanNotGreaterUp less data a i (j + 1 - i)
    let j := scanGreaterDown less data a j (j + 1 - i)
    if i > j then (data, i)
    else partitionEqualLoop less a (Swap data i j) (i + 1) (j - 1) fuel

def partitionEqual_func (less : α → α → Bool) (data : List α) (a b pivot : Nat) : List α × Nat :=
  let data := Swap data a pivot
  let i := a + 1
  let j := b - 1
  partitionEqualLoop less a data i j (j + 1 - i)

/-- The scan `for i < b && !less(i, i-1) { i++ }`, with `n = b - i`. -/
def scanOrdered (less : α → α → Bool) (data : List α) : Nat → Nat → Nat
  | i, 0 => i
  | i, n + 1 => if !Less less data i (i - 1) then scanOrdered less data (i + 1) n else i

/-- The loop `for j := i - 1; j >= 1; j-- { if !less(j, j-1) { break }; swap(j, j-1) }`. -/
def shiftLeft (less : α → α → Bool) : List α → Nat → List α
  | data, 0 => data
  | data, j + 1 =>
    if !Less less data (j + 1) j then data
    else shiftLeft less (Swap data (j + 1) j) j

/-- The loop `for j := i + 1; j < b; j++ { if !less(j, j-1) { break }; swap(j, j-1) }`,
with `n = b - j`. -/
def shiftRight (less : α → α → Bool) : List α → Nat → Nat → List α
  | data, _, 0 => data
  | data, j, n + 1 =>
    if !Less less data j (j - 1) then data
    else shiftRight less (Swap data j (j - 1)) (j + 1) n

/-- The `for j := 0; j < maxSteps; j++` loop of `partialInsertionSort_func`,
with `steps = maxSteps - j`. -/
def partialInsertionSortLoop (less : α → α → Bool) (a b : Nat) :
    List α → Nat → Nat → List α × Bool
  | data, _, 0 => (data, false)
  | data, i, steps + 1 =>
    let i := scanOrdered less data i (b - i)
    if i = b then (data, true)
    else if b - a < 50 then (data, false)
    else
      let data := Swap data i (i - 1)
      let data := if i - a ≥ 2 then shiftLeft less data (i - 1) else data
      let data := if b - i ≥ 2 then shiftRight less data (i + 1) (b - (i + 1)) else data
      partialInsertionSortLoop less a b data i steps

def partialInsertionSort_func (less : α → α → Bool) (data : List α) (a b : Nat) : List α × Bool :=
  partialInsertionSortLoop less a b data (a + 1) 5

/-- Go's `bits.Len`. -/
def bitsLen (n : Nat) : Nat := if n = 0 then 0 else Nat.log2 n + 1

/-- The method `(*xorshift).Next` on a 64-bit state. -/
def xorshiftNext (r : Nat) : Nat :=
  let r := r ^^^ ((r <<< 13) % 18446744073709551616)
  let r := r ^^^ (r >>> 7)
  let r := r ^^^ ((r <<< 17) % 18446744073709551616)
  r

def nextPowerOfTwo (length : Nat) : Nat := 1 <<< bitsLen length

/-- The three-step loop of `breakPatterns_func`, with `n = 3 - i`. -/
def breakPatternsLoop (a length modulus idx : Nat) : List α → Nat → Nat → Nat → List α
  | data, _, _, 0 => data
  | data, random, i, n + 1 =>
    let random := xorshiftNext random
    let other := random &&& (modulus - 1)
    let other := if other ≥ length then other - length else other
    breakPatternsLoop a length modulus idx (Swap data (idx - 1 + i) (a + other)) random (i + 1) n

def breakPatterns_func (data : List α) (a b : Nat) : List α :=
  let length := b - a
  if length ≥ 8 then
    let random := length
    let modulus := nextPowerOfTwo length
    let idx := a + (length / 4) * 2 - 1
    breakPatternsLoop a length modulus idx data random 0 3
  else data

/-- Returns `(x, y, swaps)`. -/
def order2_func (less : α → α → Bool) (data : List α) (a b swaps : Nat) : Nat × Nat × Nat :=
  if Less less data b a then (b, a, swaps + 1) else (a, b, swaps)

/-- Returns the index of the median and the updated `swaps`. -/
def median_func (less : α → α → Bool) (data : List α) (a b c swaps : Nat) : Nat × Nat :=
  let r₁ := order2_func less data a b swaps
  let a := r₁.1
  let b := r₁.2.1
  let r₂ := order2_func less data b c r₁.2.2
  let b := r₂.1
  let r₃ := order2_func less data a b r₂.2.2
  (r₃.2.1, r₃.2.2)

def medianAdjacent_func (less : α → α → Bool) (data : List α) (a swaps : Nat) : Nat × Nat :=
  median_func less data (a - 1) a (a + 1) swaps

def choosePivot_func (less : α → α → Bool) (data : List α) (a b : Nat) : Nat × sortedHint :=
  let l := b - a
  let swaps := 0
  let i := a + l / 4 * 1
  let j := a + l / 4 * 2
  let k := a + l / 4 * 3
  let r : Nat × Nat :=
    if l ≥ 8 then
      if l ≥ 50 then
        let ri := medianAdjacent_func less data i swaps
        let rj := medianAdjacent_func less data j ri.2
        let rk := medianAdjacent_func less data k rj.2
        median_func less data ri.1 rj.1 rk.1 rk.2
      else median_func less data i j k swaps
    else (j, swaps)
  if r.2 = 0 then (r.1, sortedHint.increasingHint)
  else if r.2 = 12 then (r.1, sortedHint.decreasingHint)
  else (r.1, sortedHint.unknownHint)

/-- The loop `for i < j { swap(i, j); i++; j-- }`; fuel `b - a` suffices. -/
def reverseRangeLoop : List α → Nat → Nat → Nat → List α
  | data, _, _, 0 => data
  | data, i, j, fuel + 1 =>
    if i < j then reverseRangeLoop (Swap data i j) (i + 1) (j - 1) fuel else data

def reverseRange_func (data : List α) (a b : Nat) : List α :=
  reverseRangeLoop data a (b - 1) (b - a)

/-- The function `pdqsort_func` with its `for` loop; the loop state is
`a`, `b`, `limit`, `wasBalanced`, `wasPartitioned`. Every turn of the loop
shrinks `b - a`, so fuel `b - a` is enough: at fuel 0 the range is empty and
the loop ends in its insertion-sort branch. -/
def pdqsort_func (less : α → α → Bool) :
    Nat → List α → Nat → Nat → Nat → Bool → Bool → List α
  | 0, data, a, b, _, _, _ => insertionSort_func less data a b
  | fuel + 1, data, a, b, limit, wasBalanced, wasPartitioned =>
    let length := b - a
    if length ≤ 12 then insertionSort_func less data a b
    else if limit = 0 then heapSort_func less data a b
    else
      let data := if !wasBalanced then breakPatterns_func data a b else data
      let limit := if !wasBalanced then limit - 1 else limit
      let ph := choosePivot_func less data a b
      let decreasing : Bool := decide (ph.2 = sortedHint.decreasingHint)
      let data := if decreasing then reverseRange_func data a b else data
      let pivot := if decreasing then (b - 1) - (ph.1 - a) else ph.1
      let hint := if decreasing then sortedHint.increasingHint else ph.2
      let tryPartial : Bool :=
        wasBalanced && wasPartitioned && decide (hint = sortedHint.increasingHint)
      let ps := if tryPartial then partialInsertionSort_func less data a b else (data, false)
      if ps.2 then ps.1
      else
        let data := ps.1
        if a > 0 && !Less less data (a - 1) pivot then
          let pe := partitionEqual_func less data a b pivot
          pdqsort_func less fuel pe.1 pe.2 b limit wasBalanced wasPartitioned
        else
          let pt := partition_func less data a b pivot
          let data := pt.1
          let mid := pt.2.1
          let wasPartitioned := pt.2.2
          let leftLen := mid - a
          let rightLen := b - mid
          let balanceThreshold := length / 8
          if leftLen < rightLen then
            let wasBalanced : Bool := decide (leftLen ≥ balanceThreshold)
            let data := pdqsort_func less fuel data a mid limit true true
            pdqsort_func less fuel data (mid + 1) b limit wasBalanced wasPartitioned
          else
            let wasBalanced : Bool := decide (rightLen ≥ balanceThreshold)
            let data := pdqsort_func less fuel data (mid + 1) b limit true true
            pdqsort_func less fuel data a mid limit wasBalanced wasPartitioned

/-- The entry point `sort.Slice(x, less)`. -/
def Slice (less : α → α → Bool) (x : List α) : List α :=
  let length := x.length
  let limit := bitsLen length
  pdqsort_func less length x 0 length limit true true

end GoSort

/-! ## Query pipeline: filter -/

/-- The utility `filterSlice`: append every item the predicate accepts. -/
def filterSlice (slice : List ArtifactEntry) (predicate : ArtifactEntry → Bool) :
    List ArtifactEntry :=
  slice.foldl (fun filtered item => if predicate item then filtered ++ [item] else filtered) []

/-- The platform block of `FilterArtifacts`. -/
def platformStep (query : ArtifactsQuery) (filtered : List ArtifactEntry) : List ArtifactEntry :=
  if query.Platform ≠ "" ∧ query.Platform ≠ "all" then
    filterSlice filtered (fun a => decide (a.Platform = query.Platform))
  else filtered

/-- The version block of `FilterArtifacts`. -/
def versionStep (query : ArtifactsQuery) (filtered : List ArtifactEntry) : List ArtifactEntry :=
  if query.Version ≠ "" then
    filterSlice filtered (fun a => decide (a.Version = query.Version))
  else filtered

/-- The support-status block of `FilterArtifacts`. -/
def statusStep (query : ArtifactsQuery) (filtered : List ArtifactEntry) : List ArtifactEntry :=
  if query.Status ≠ "" then
    filterSlice filtered (fun a => decide (a.SupportStatus = query.Status))
  else filtered

/-- The EOL block of `FilterArtifacts`. -/
def eolStep (query : ArtifactsQuery) (filtered : List ArtifactEntry) : List ArtifactEntry :=
  if query.IncludeEOL = false then
    filterSlice filtered (fun a => decide (a.SupportStatus ≠ EOL))
  else filtered

/-- `FilterArtifacts`: the four blocks in source order. -/
def FilterArtifacts (artifacts : List ArtifactEntry) (query : ArtifactsQuery) :
    List ArtifactEntry :=
  let filtered := artifacts
  let filtered := platformStep query filtered
  let filtered := versionStep query filtered
  let filtered := statusStep query filtered
  let filtered := eolStep query filtered
  filtered

/-- The condition an entry has to meet to pass all four blocks. -/
def passesQuery (query : ArtifactsQuery) (a : ArtifactEntry) : Prop :=
  (query.Platform = "" ∨ query.Platform = "all" ∨ a.Platform = query.Platform) ∧
  (query.Version = "" ∨ a.Version = query.Version) ∧
  (query.Status = "" ∨ a.SupportStatus = query.Status) ∧
  (query.IncludeEOL = true ∨ a.SupportStatus ≠ "eol")

instance (query : ArtifactsQuery) (a : ArtifactEntry) : Decidable (passesQuery query a) := by
  unfold passesQuery
  infer_instance

/-- The query that keeps only the platform field of `query`. -/
def onlyPlatform (query : ArtifactsQuery) : ArtifactsQuery :=
  { query with Version := "", Status := "", IncludeEOL := true }

/-- The query that keeps only the version field of `query`. -/
def onlyVersion (query : ArtifactsQuery) : ArtifactsQuery :=
  { query with Platform := "", Status := "", IncludeEOL := true }

/-- The query that keeps only the status field of `query`. -/
def onlyStatus (query : ArtifactsQuery) : ArtifactsQuery :=
  { query with Platform := "", Version := "", IncludeEOL := true }

/-- The query that keeps only the EOL flag of `query`. -/
def onlyEOL (query : ArtifactsQuery) : ArtifactsQuery :=
  { query with Platform := "", Version := "", Status := "" }

/-- Run a list of filter blocks from left to right. -/
def applySteps (steps : List (List ArtifactEntry → List ArtifactEntry))
    (artifacts : List ArtifactEntry) : List ArtifactEntry :=
  steps.foldl (fun filtered step => step filtered) artifacts

/-! ## Query pipeline: sort -/

/-- The test `ch >= '0' && ch <= '9'`. -/
def isDigit (ch : Char) : Bool := decide ('0' ≤ ch) && decide (ch ≤ '9')

/-- The value of a string of ASCII digits read in base 10. -/
def digitsValue (ds : List Char) : Nat :=
  ds.foldl (fun n ch => 10 * n + (ch.toNat - 48)) 0

/-- Go's `strconv.Atoi` (64-bit `int`): an optional sign, then one or more
ASCII digits; `none` is a non-nil error (syntax, or value out of range). -/
def Atoi (s : List Char) : Option Int :=
  let neg : Bool := decide (s.head? = some '-')
  let ds : List Char := if s.head? = some '+' ∨ s.head? = some '-' then s.tail else s
  if ds = [] ∨ ds.all isDigit = false then none
  else
    let v : Int := if neg then -(digitsValue ds : Int) else (digitsValue ds : Int)
    if v < minInt64 ∨ v > maxInt64 then none else some v

/-- The loop of `parseVersion`: collect characters into `vNum` up to the first
one that is not an ASCII digit. -/
def parseVersionLoop : List Char → List Char → List Char
  | [], vNum => vNum
  | ch :: rest, vNum => if isDigit ch then parseVersionLoop rest (vNum ++ [ch]) else vNum

def parseVersion (version : String) : Int :=
  match Atoi (parseVersionLoop version.data []) with
  | some num => num
  | none => 0

/-- Go's `strings.Compare`. -/
def stringsCompare (a b : String) : Int :=
  if a = b then 0 else if a < b then -1 else 1

/-- The instant a `Date` field stands for in the `date` case: `timeParse` is
`time.Parse(time.RFC3339, ·)` with instants counted from Go's zero `Time`;
on a parse error the code drops the error and keeps the zero `Time`. -/
def dateInstant (timeParse : String → Option Int) (date : String) : Int :=
  match timeParse date with
  | some t => t
  | none => 0

/-- The `switch sortBy` of the comparator: `compareValue` for two entries. -/
def compareValue (timeParse : String → Option Int) (sortBy : String) (x y : ArtifactEntry) : Int :=
  if sortBy = "version" then
    wrap64 (parseVersion x.Version - parseVersion y.Version)
  else if sortBy = "date" then
    let dateA := dateInstant timeParse x.Date
    let dateB := dateInstant timeParse y.Date
    if dateA < dateB then -1 else if dateA > dateB then 1 else 0
  else if sortBy = "size" then
    if x.Size < y.Size then -1 else if x.Size > y.Size then 1 else 0
  else stringsCompare x.Version y.Version

/-- The closure passed to `sort.Slice` in `SortArtifacts`, on the elements at
positions `i` and `j`. -/
def artifactLess (timeParse : String → Option Int) (sortBy sortOrder : String)
    (x y : ArtifactEntry) : Bool :=
  if sortOrder = "asc" then decide (compareValue timeParse sortBy x y < 0)
  else decide (compareValue timeParse sortBy x y > 0)

/-- `SortArtifacts`; `timeParse` stands for `time.Parse(time.RFC3339, ·)`. -/
def SortArtifacts (timeParse : String → Option Int) (artifacts : List ArtifactEntry)
    (sortBy sortOrder : String) : List ArtifactEntry :=
  let sortBy := if sortBy = "" then "version" else sortBy
  let sortOrder := if sortOrder = "" then "desc" else sortOrder
  let sorted := artifacts
  GoSort.Slice (artifactLess timeParse sortBy sortOrder) sorted

/-! ## Query pipeline: paginate -/

/-- `PaginateArtifacts`; `none` is the run-time panic of the slice expression
`artifacts[offset:end]` (raised when `end < offset`; `end ≤ len` holds after
the clamp). `offset + limit` is computed in 64-bit `int` arithmetic. -/
def PaginateArtifacts (artifacts : List ArtifactEntry) (limit offset : Int) :
    Option (List ArtifactEntry) :=
  if offset < 0 ∨ offset ≥ (artifacts.length : Int) then some []
  else
    let end₀ := wrap64 (offset + limit)
    let end₁ := if end₀ > (artifacts.length : Int) then (artifacts.length : Int) else end₀
    if offset ≤ end₁ then some ((artifacts.drop offset.toNat).take (end₁ - offset).toNat)
    else none

/-! ## Auxiliary definitions used in the statements -/

/-- A service whose cache holds one tag list written at time 0. -/
def staleTagsService : ArtifactsService :=
  { githubToken := "", cache := [("tags", { data := CacheData.tags [⟨"v1.0.0.24769", "ad6c"⟩], timestamp := 0 })] }

/-- The predicate each block filters by (constantly true when the block is skipped). -/
def platformPred (query : ArtifactsQuery) (a : ArtifactEntry) : Bool :=
  decide (query.Platform = "" ∨ query.Platform = "all" ∨ a.Platform = query.Platform)

def versionPred (query : ArtifactsQuery) (a : ArtifactEntry) : Bool :=
  decide (query.Version = "" ∨ a.Version = query.Version)

def statusPred (query : ArtifactsQuery) (a : ArtifactEntry) : Bool :=
  decide (query.Status = "" ∨ a.SupportStatus = query.Status)

def eolPred (query : ArtifactsQuery) (a : ArtifactEntry) : Bool :=
  decide (query.IncludeEOL = true ∨ a.SupportStatus ≠ "eol")

/-- Sample entries. -/
def sampleEntry (version platform status : String) : ArtifactEntry :=
  { Version := version, Hash := "h" ++ version, Platform := platform, Date := "2025-01-01T00:00:00Z",
    SupportStatus := status, URL := "", Size := 0 }

def sampleEntries : List ArtifactEntry :=
  [sampleEntry "24769" "windows" "recommended", sampleEntry "24769" "linux" "recommended",
   sampleEntry "19000" "windows" "eol", sampleEntry "23500" "linux" "active"]

def sampleQuery : ArtifactsQuery :=
  { Platform := "linux", Version := "", Status := "", SortBy := "", SortOrder := "", Limit := 0,
    Offset := 0, IncludeEOL := false }

/-- Ten entries with versions 0 to 9. -/
def tenEntries : List ArtifactEntry :=
  (List.range 10).map (fun i => sampleEntry (toString i) "windows" "eol")

/-- A block that is a `List.filter`. -/
def IsFilterStep (step : List ArtifactEntry → List ArtifactEntry) : Prop :=
  ∃ p : ArtifactEntry → Bool, step = List.filter p

/-- Thirteen entries: twelve of version 100 with hashes `h0` to `h11`, then one
of version 200 with hash `h12`. -/
def thirteenEntries : List ArtifactEntry :=
  (List.range 12).map (fun i =>
    ({ Version := "100", Hash := "h" ++ toString i, Platform := "windows", Date := "",
       SupportStatus := "eol", URL := "", Size := 0 } : ArtifactEntry)) ++
  [{ Version := "200", Hash := "h12", Platform := "windows", Date := "",
     SupportStatus := "eol", URL := "", Size := 0 }]

/-! ## Artifact processor -/

structure ArtifactData where
  Windows : GoMap Artifact
  Linux : GoMap Artifact
  deriving DecidableEq, Repr

/-- Match one literal character at the head of the input. -/
def matchChar (c : Char) : List Char → Option (List Char)
  | [] => none
  | c' :: rest => if c' = c then some rest else none

/-- Match `\d+` at the head of the input: the (longest) run of ASCII digits
and what follows it. The run is followed by a non-digit or the end, so no
shorter run can lead to a match of the patterns below. -/
def matchDigits (s : List Char) : Option (List Char × List Char) :=
  if s.takeWhile isDigit = [] then none else some (s.takeWhile isDigit, s.dropWhile isDigit)

/-- Match `v\d+\.\d+\.\d+\.(\d+)$` with the match starting at the head of the
input; the result is the text of the capture group. -/
def matchVersionHere (s : List Char) : Option (List Char) := do
  let s ← matchChar 'v' s
  let (_, s) ← matchDigits s
  let s ← matchChar '.' s
  let (_, s) ← matchDigits s
  let s ← matchChar '.' s
  let (_, s) ← matchDigits s
  let s ← matchChar '.' s
  let (build, s) ← matchDigits s
  if s = [] then some build else none

/-- The call `artifactVersionRegex.MatchString(name)` for the anchored pattern
`^v\d+\.\d+\.\d+\.\d+$`. -/
def artifactVersionRegexMatch (name : String) : Bool :=
  (matchVersionHere name.data).isSome

/-- The call `versionNumberRegex.FindStringSubmatch(name)` for the pattern
`v\d+\.\d+\.\d+\.(\d+)$`, which is not anchored at the start: the leftmost
position where the pattern matches wins; the result is the capture group. -/
def versionNumberRegexFind : List Char → Option (List Char)
  | [] => none
  | c :: rest =>
    match matchVersionHere (c :: rest) with
    | some build => some build
    | none => versionNumberRegexFind rest

def extractVersionNumber (tagName : String) : Int :=
  match versionNumberRegexFind tagName.data with
  | some build =>
    match Atoi build with
    | some num => num
    | none => 0
  | none => 0

/-- The decimal digits of a natural number, most significant first (`fuel`
exceeds the number of digits). -/
def itoaDigits : Nat → Nat → List Char
  | 0, _ => []
  | fuel + 1, n =>
    if n < 10 then [Char.ofNat (48 + n)]
    else itoaDigits fuel (n / 10) ++ [Char.ofNat (48 + n % 10)]

/-- Go's `strconv.Itoa`. -/
def Itoa (n : Int) : String :=
  if n < 0 then String.mk ('-' :: itoaDigits (n.natAbs + 1) n.natAbs)
  else String.mk (itoaDigits (n.toNat + 1) n.toNat)

def estimateSize (_version : String) (platform : String) : Int :=
  if platform = "windows" then 850 * 1024 * 1024 else 400 * 1024 * 1024

/-- The Windows URL template filled by `fmt.Sprintf`. -/
def windowsURL (version hash : String) : String :=
  "https://runtime.fivem.net/artifacts/fivem/build_server_windows/master/" ++ version ++ "-" ++
    hash ++ "/server.zip"

/-- The Linux URL template filled by `fmt.Sprintf`. -/
def linuxURL (version hash : String) : String :=
  "https://runtime.fivem.net/artifacts/fivem/build_proot_linux/master/" ++ version ++ "-" ++
    hash ++ "/fx.tar.xz"

/-- The hardcoded list of `generateFallbackData`: version, hash, platform. -/
def fallbackArtifacts : List (String × String × PlatformType) :=
  [("24769", "ad6c90072e62cdb7ee0dcc943d7ded8a5107d542", Windows),
   ("24769", "ad6c90072e62cdb7ee0dcc943d7ded8a5107d542", Linux),
   ("24574", "779c1fa38ec01b33d79a5e994b7e0c1a0bbcg421", Windows),
   ("24574", "779c1fa38ec01b33d79a5e994b7e0c1a0bbcg421", Linux),
   ("24573", "b85db86b37fdcab942859d3ef31cc4bd43eee8f6", Windows),
   ("24573", "b85db86b37fdcab942859d3ef31cc4bd43eee8f6", Linux)]

/-- One turn of the loop of `generateFallbackData`. -/
def fallbackStep (now : String) (data : ArtifactData) (art : String × String × PlatformType) :
    ArtifactData :=
  let vNum : Int := match Atoi art.1.data with
    | some n => n
    | none => 0
  let artifact : Artifact :=
    { Version := art.1, Hash := art.2.1, Platform := art.2.2, Date := now,
      SupportStatus := determineSupportStatus vNum, URL := "", Size := 0 }
  let windowsArtifact : Artifact :=
    { artifact with URL := windowsURL art.1 art.2.1, Size := estimateSize art.1 "windows" }
  let linuxArtifact : Artifact :=
    { artifact with URL := linuxURL art.1 art.2.1, Size := estimateSize art.1 "linux" }
  if art.2.2 = Windows then
    { Windows := GoMap.set data.Windows art.1 windowsArtifact, Linux := data.Linux }
  else
    { Windows := data.Windows, Linux := GoMap.set data.Linux art.1 linuxArtifact }

/-- `generateFallbackData`; `now` is `time.Now().UTC().Format(time.RFC3339)`. -/
def generateFallbackData (now : String) : ArtifactData :=
  fallbackArtifacts.foldl (fallbackStep now) { Windows := [], Linux := [] }

/-- The body of the loop `for _, tag := range artifactTags` of `ProcessGitHubTags`. -/
def processTag (now : String) (processedData : ArtifactData) (tag : GitHubTag) : ArtifactData :=
  let versionNumber := extractVersionNumber tag.Name
  let version := Itoa versionNumber
  let baseEntry : Artifact :=
    { Version := version, Hash := tag.SHA, Platform := "", Date := now,
      SupportStatus := determineSupportStatus versionNumber, URL := "", Size := 0 }
  let windowsArtifact : Artifact :=
    { baseEntry with Platform := Windows, URL := windowsURL version tag.SHA,
                     Size := estimateSize version "windows" }
  let linuxArtifact : Artifact :=
    { baseEntry with Platform := Linux, URL := linuxURL version tag.SHA,
                     Size := estimateSize version "linux" }
  { Windows := processedData.Windows.set version windowsArtifact,
    Linux := processedData.Linux.set version linuxArtifact }

/-- The closure passed to `sort.Slice` in `ProcessGitHubTags`. -/
def tagLess (x y : GitHubTag) : Bool :=
  decide (extractVersionNumber x.Name > extractVersionNumber y.Name)

/-- The tags that pass the first loop of `ProcessGitHubTags`, in input order. -/
def artifactTagsOf (tags : List GitHubTag) : List GitHubTag :=
  tags.foldl (fun artifactTags tag =>
    if artifactVersionRegexMatch tag.Name then artifactTags ++ [tag] else artifactTags) []

/-- `ProcessGitHubTags`; `now` is `time.Now().UTC().Format(time.RFC3339)` (the
value read in this function, or the one read in `generateFallbackData` when the
fallback is returned). -/
def ProcessGitHubTags (tags : List GitHubTag) (now : String) : ArtifactData :=
  let artifactTags := artifactTagsOf tags
  let artifactTags := GoSort.Slice tagLess artifactTags
  let processedData := artifactTags.foldl (processTag now) { Windows := [], Linux := [] }
  if processedData.Windows.len = 0 then generateFallbackData now else processedData

/-- The tags whose name matches the version pattern, in input order. -/
def matchingTags (tags : List GitHubTag) : List GitHubTag :=
  tags.filter (fun t => artifactVersionRegexMatch t.Name)

/-- The build numbers `extractVersionNumber` reads from the matching tags. -/
def matchingBuilds (tags : List GitHubTag) : List Int :=
  (matchingTags tags).map (fun t => extractVersionNumber t.Name)

/-- The three tags of the end-to-end example. -/
def exampleTags : List GitHubTag :=
  [⟨"v1.2.3.24769", "aaa"⟩, ⟨"v1.2.3.24574", "bbb"⟩, ⟨"notatag", "ccc"⟩]

/-- Two tags that match the pattern and carry the same build number. -/
def sameBuildTags : List GitHubTag :=
  [⟨"v1.0.0.5", "aaa"⟩, ⟨"v2.0.0.5", "bbb"⟩]

namespace GoSort
variable {α : Type}

/-- The sort key of the element at position `k` (0 outside the slice). -/
def keyAt (key : α → Int) (data : List α) (k : Nat) : Int :=
  match data[k]? with
  | some x => key x
  | none => 0

/-- The slice `d₂` arises from `d₁` by exchanges of positions inside `[a, b)`. -/
inductive Swaps (a b : Nat) : List α → List α → Prop where
  | refl (d : List α) : Swaps a b d d
  | step (d d' : List α) (i j : Nat) (hai : a ≤ i) (hib : i < b) (haj : a ≤ j) (hjb : j < b)
      (rest : Swaps a b (Swap d i j) d') : Swaps a b d d'

/-- Positions `a ≤ i < j < b` hold keys in non-decreasing order. -/
def SortedRange (key : α → Int) (data : List α) (a b : Nat) : Prop :=
  ∀ i j, a ≤ i → i < j → j < b → keyAt key data i ≤ keyAt key data j

/-- The element just before position `a`, if any, is not above any element of `[a, b)`. -/
def PrevLE (key : α → Int) (data : List α) (a b : Nat) : Prop :=
  ∀ m, 0 < a → a ≤ m → m < b → keyAt key data (a - 1) ≤ keyAt key data m

end GoSort

namespace GoSort
variable {α : Type}

/-- The invariant of the partition loops: the pivot sits at `a`, everything in
`(a, i)` is below the pivot and everything in `(j, b)` is not below it. -/
def PartInv (key : α → Int) (data : List α) (a b i j : Nat) : Prop :=
  a < i ∧ j < b ∧ i ≤ j + 1 ∧
    (∀ k, a < k → k < i → keyAt key data k < keyAt key data a) ∧
    (∀ k, j < k → k < b → keyAt key data a ≤ keyAt key data k)

/-- The invariant of the loop of `partitionEqual_func`: everything in `(a, i)`
is not above the pivot at `a` and everything in `(j, b)` is above it. -/
def PartEqInv (key : α → Int) (data : List α) (a b i j : Nat) : Prop :=
  a < i ∧ j < b ∧ i ≤ j + 1 ∧
    (∀ k, a < k → k < i → keyAt key data k ≤ keyAt key data a) ∧
    (∀ k, j < k → k < b → keyAt key data a < keyAt key data k)

end GoSort

namespace GoSort
variable {α : Type}

/-- The heap order on the nodes of `data[first : first + hi]` whose parent has
index at least `lo`: no node is above its parent. -/
def HeapFrom (key : α → Int) (data : List α) (first lo hi : Nat) : Prop :=
  ∀ c, 0 < c → c < hi → lo ≤ (c - 1) / 2 →
    keyAt key data (first + c) ≤ keyAt key data (first + (c - 1) / 2)

/-- The invariant of `siftDown_func`: the heap order holds except below
`root`, and the children of `root` are not above the parent of `root`. -/
def SiftInv (key : α → Int) (data : List α) (first lo hi root : Nat) : Prop :=
  (∀ c, 0 < c → c < hi → lo ≤ (c - 1) / 2 → (c - 1) / 2 ≠ root →
    keyAt key data (first + c) ≤ keyAt key data (first + (c - 1) / 2)) ∧
  (∀ c, 0 < c → c < hi → (c - 1) / 2 = root → 0 < root → lo ≤ (root - 1) / 2 →
    keyAt key data (first + c) ≤ keyAt key data (first + (root - 1) / 2))

end GoSort

/-- The integer value of the leading run of ASCII digits of a version string
(0 when the string does not start with a digit), as an unbounded number. -/
def leadingDigitRunValue (version : String) : Nat :=
  digitsValue (version.data.takeWhile isDigit)

/-- The comparator `SortArtifacts` hands to `sort.Slice` for given arguments,
after the defaults for an empty `sortBy` and an empty `sortOrder`. -/
def effectiveLess (timeParse : String → Option Int) (sortBy sortOrder : String) :
    ArtifactEntry → ArtifactEntry → Bool :=
  artifactLess timeParse (if sortBy = "" then "version" else sortBy)
    (if sortOrder = "" then "desc" else sortOrder)

/-- Stability of a sort with element order `less`: for every element `e`, the
elements that `less` orders neither before nor after `e` occur in the output in
the same order as in the input. -/
def StableFor {α : Type} (less : α → α → Bool) (input output : List α) : Prop :=
  ∀ e, output.filter (fun x => !less e x && !less x e)
    = input.filter (fun x => !less e x && !less x e)

/-- Elements that `less` leaves unordered with a common element are unordered
with each other (as for every order that compares a key). -/
def TiesTransitive {α : Type} (less : α → α → Bool) : Prop :=
  ∀ e x y, less e x = false → less x e = false → less e y = false → less y e = false →
    less y x = false

/-- Two entries: a version whose digit run exceeds 64 bits, and version 5. -/
def overflowEntries : List ArtifactEntry :=
  [sampleEntry "99999999999999999999" "windows" "eol", sampleEntry "5" "windows" "eol"]

/-- Entries with versions 100, 50, 200. -/
def exampleVersions : List ArtifactEntry :=
  [sampleEntry "100" "windows" "eol", sampleEntry "50" "windows" "eol",
   sampleEntry "200" "windows" "eol"]

/-- What the fallback holds in its Windows map, for the timestamp `now`. -/
def fallbackWindows (now : String) : GoMap Artifact :=
  [("24769", { Version := "24769", Hash := "ad6c90072e62cdb7ee0dcc943d7ded8a5107d542",
               Platform := "windows", Date := now, SupportStatus := "recommended",
               URL := "https://runtime.fivem.net/artifacts/fivem/build_server_windows/master/24769-ad6c90072e62cdb7ee0dcc943d7ded8a5107d542/server.zip",
               Size := 891289600 }),
   ("24574", { Version := "24574", Hash := "779c1fa38ec01b33d79a5e994b7e0c1a0bbcg421",
               Platform := "windows", Date := now, SupportStatus := "recommended",
               URL := "https://runtime.fivem.net/artifacts/fivem/build_server_windows/master/24574-779c1fa38ec01b33d79a5e994b7e0c1a0bbcg421/server.zip",
               Size := 891289600 }),
   ("24573", { Version := "24573", Hash := "b85db86b37fdcab942859d3ef31cc4bd43eee8f6",
               Platform := "windows", Date := now, SupportStatus := "recommended",
               URL := "https://runtime.fivem.net/artifacts/fivem/build_server_windows/master/24573-b85db86b37fdcab942859d3ef31cc4bd43eee8f6/server.zip",
               Size := 891289600 })]

/-- What the fallback holds in its Linux map, for the timestamp `now`. -/
def fallbackLinux (now : String) : GoMap Artifact :=
  [("24769", { Version := "24769", Hash := "ad6c90072e62cdb7ee0dcc943d7ded8a5107d542",
               Platform := "linux", Date := now, SupportStatus := "recommended",
               URL := "https://runtime.fivem.net/artifacts/fivem/build_proot_linux/master/24769-ad6c90072e62cdb7ee0dcc943d7ded8a5107d542/fx.tar.xz",
               Size := 419430400 }),
   ("24574", { Version := "24574", Hash := "779c1fa38ec01b33d79a5e994b7e0c1a0bbcg421",
               Platform := "linux", Date := now, SupportStatus := "recommended",
               URL := "https://runtime.fivem.net/artifacts/fivem/build_proot_linux/master/24574-779c1fa38ec01b33d79a5e994b7e0c1a0bbcg421/fx.tar.xz",
               Size := 419430400 }),
   ("24573", { Version := "24573", Hash := "b85db86b37fdcab942859d3ef31cc4bd43eee8f6",
               Platform := "linux", Date := now, SupportStatus := "recommended",
               URL := "https://runtime.fivem.net/artifacts/fivem/build_proot_linux/master/24573-b85db86b37fdcab942859d3ef31cc4bd43eee8f6/fx.tar.xz",
               Size := 419430400 })]

/-- A Windows artifact is derived from its own fields: URL from the template,
the constant size, the status from its version read by `strconv.Atoi`. -/
def WindowsDerived (art : Artifact) : Prop :=
  art.URL = "https://runtime.fivem.net/artifacts/fivem/build_server_windows/master/" ++
      art.Version ++ "-" ++ art.Hash ++ "/server.zip" ∧
    art.Size = 850 * 1024 * 1024 ∧
    ∃ n : Int, Atoi art.Version.data = some n ∧ art.SupportStatus = determineSupportStatus n

/-- A Linux artifact is derived from its own fields. -/
def LinuxDerived (art : Artifact) : Prop :=
  art.URL = "https://runtime.fivem.net/artifacts/fivem/build_proot_linux/master/" ++
      art.Version ++ "-" ++ art.Hash ++ "/fx.tar.xz" ∧
    art.Size = 400 * 1024 * 1024 ∧
    ∃ n : Int, Atoi art.Version.data = some n ∧ art.SupportStatus = determineSupportStatus n

/-- The Windows and the Linux entry stored under one key belong together. -/
def PairOK (pw pl : String × Artifact) : Prop :=
  pw.1 = pl.1 ∧ pw.2.Version = pw.1 ∧ pl.2.Version = pl.1 ∧
    pw.2.Platform = "windows" ∧ pl.2.Platform = "linux" ∧
    pw.2.Hash = pl.2.Hash ∧ pw.2.Date = pl.2.Date ∧ pw.2.SupportStatus = pl.2.SupportStatus

/-! ## Upstream fetcher: issues -/

/-- How the request loop of `FetchGitHubIssues` is left: by the `return` of
the error branch for page 1 (before the cache is consulted), or by running
out of the `for` statement (a `break`, or `page > maxPages`) with the issues
accumulated so far. -/
inductive IssuesLoopEnd where
  | failedFirst (err : String)
  | finished (allIssues : List GitHubIssue)
  deriving DecidableEq, Repr

def perPage : Nat := 100
def maxPages : Nat := 10

/-- The loop `for page <= maxPages` of `FetchGitHubIssues`. `upstream page` is
the outcome of `fetchJSONFromGitHub` for that page; `requested` records the
pages requested so far, in order. The first argument counts the turns that
remain (`maxPages - page + 1`), so it reaches 0 exactly when `page > maxPages`. -/
def issuesLoop (upstream : Nat → Except String (List GitHubIssue)) :
    Nat → Nat → List GitHubIssue → List Nat → IssuesLoopEnd × List Nat
  | 0, _, allIssues, requested => (IssuesLoopEnd.finished allIssues, requested)
  | turns + 1, page, allIssues, requested =>
    if page ≤ maxPages then
      match upstream page with
      | Except.error err =>
        if page = 1 ∧ allIssues.length = 0 then (IssuesLoopEnd.failedFirst err, requested ++ [page])
        else (IssuesLoopEnd.finished allIssues, requested ++ [page])
      | Except.ok pageIssues =>
        if pageIssues.length = 0 then (IssuesLoopEnd.finished allIssues, requested ++ [page])
        else if pageIssues.length < perPage then
          (IssuesLoopEnd.finished (allIssues ++ pageIssues), requested ++ [page])
        else issuesLoop upstream turns (page + 1) (allIssues ++ pageIssues) (requested ++ [page])
    else (IssuesLoopEnd.finished allIssues, requested)

/-- `FetchGitHubIssues` together with the list of pages it requested.
`upstream` maps a page number to the outcome of its request; `now₁` is the
clock at the first cache read and `now₂` the clock after the requests (second
cache read, or cache write). -/
def FetchGitHubIssuesRun (s : ArtifactsService) (useCache : Bool)
    (upstream : Nat → Except String (List GitHubIssue)) (now₁ now₂ : Int) :
    Except String (List GitHubIssue) × ArtifactsService × List Nat :=
  let first : Option (List GitHubIssue) × ArtifactsService :=
    if useCache then
      match getCache s "issues" now₁ with
      | (some (CacheData.issues issues), s₁) => (some issues, s₁)
      | (_, s₁) => (none, s₁)
    else (none, s)
  match first with
  | (some issues, s₁) => (Except.ok issues, s₁, [])
  | (none, s₁) =>
    match issuesLoop upstream maxPages 1 [] [] with
    | (IssuesLoopEnd.failedFirst err, requested) =>
      match getCache s₁ "issues" now₂ with
      | (some (CacheData.issues issues), s₂) => (Except.ok issues, s₂, requested)
      | (_, s₂) => (Except.error ("failed to fetch GitHub issues: " ++ err), s₂, requested)
    | (IssuesLoopEnd.finished allIssues, requested) =>
      (Except.ok allIssues,
        setCache s₁ "issues" (CacheData.issues allIssues) issuesCacheDuration now₂, requested)

/-- `FetchGitHubIssues`: the returned pair and the service afterwards. -/
def FetchGitHubIssues (s : ArtifactsService) (useCache : Bool)
    (upstream : Nat → Except String (List GitHubIssue)) (now₁ now₂ : Int) :
    Except String (List GitHubIssue) × ArtifactsService :=
  ((FetchGitHubIssuesRun s useCache upstream now₁ now₂).1,
    (FetchGitHubIssuesRun s useCache upstream now₁ now₂).2.1)

/-- The items of a page (none when its request fails). -/
def pageItems (upstream : Nat → Except String (List GitHubIssue)) (page : Nat) : List GitHubIssue :=
  match upstream page with
  | Except.ok pageIssues => pageIssues
  | Except.error _ => []

/-- The items of the given pages, concatenated in the order of the list. -/
def pagesConcat (upstream : Nat → Except String (List GitHubIssue)) : List Nat → List GitHubIssue
  | [] => []
  | page :: rest => pageItems upstream page ++ pagesConcat upstream rest

/-- An issue with the given number. -/
def sampleIssue (n : Int) : GitHubIssue :=
  { Number := n, Title := "", State := "open", URL := "", Body := "", Labels := [],
    CreatedAt := "", UpdatedAt := "" }

/-- A service whose cache holds one issue list written at time 0. -/
def staleIssuesService : ArtifactsService :=
  { githubToken := "", cache := [("issues", { data := CacheData.issues [sampleIssue 1], timestamp := 0 })] }

/-- An upstream with `full` pages of 100 issues followed by a page of 40. -/
def samplePages (full : Nat) (page : Nat) : Except String (List GitHubIssue) :=
  if page ≤ full then Except.ok (List.replicate 100 (sampleIssue page))
  else Except.ok (List.replicate 40 (sampleIssue page))

/-! ## Query entry point -/

/-- What a call of `GetArtifacts` does: return a list with a nil error, return
an error, or panic at the slice expression of `PaginateArtifacts`. -/
inductive GetOutcome where
  | ok (entries : List ArtifactEntry)
  | error (err : String)
  | panic
  deriving DecidableEq, Repr

/-- The entry appended for a pair of the Windows map. -/
def windowsEntry (version : String) (artifact : Artifact) : ArtifactEntry :=
  { Version := version, Hash := artifact.Hash, Platform := Windows, Date := artifact.Date,
    SupportStatus := artifact.SupportStatus, URL := artifact.URL, Size := artifact.Size }

/-- The entry appended for a pair of the Linux map. -/
def linuxEntry (version : String) (artifact : Artifact) : ArtifactEntry :=
  { Version := version, Hash := artifact.Hash, Platform := Linux, Date := artifact.Date,
    SupportStatus := artifact.SupportStatus, URL := artifact.URL, Size := artifact.Size }

/-- The two `range` loops that flatten the maps; `windowsOrder` and
`linuxOrder` are the orders in which the two `range` statements enumerate the
pairs of the Windows map and of the Linux map. -/
def flattenArtifacts (windowsOrder linuxOrder : List (String × Artifact)) : List ArtifactEntry :=
  let artifacts : List ArtifactEntry :=
    windowsOrder.foldl (fun artifacts p => artifacts ++ [windowsEntry p.1 p.2]) []
  linuxOrder.foldl (fun artifacts p => artifacts ++ [linuxEntry p.1 p.2]) artifacts

/-- The part of `GetArtifacts` after flattening: filter, sort, default limit,
paginate; `none` is the panic of `PaginateArtifacts`. -/
def queryArtifacts (timeParse : String → Option Int) (artifacts : List ArtifactEntry)
    (query : ArtifactsQuery) : Option (List ArtifactEntry) :=
  let filtered := FilterArtifacts artifacts query
  let sorted := SortArtifacts timeParse filtered query.SortBy query.SortOrder
  let query : ArtifactsQuery := if query.Limit = 0 then { query with Limit := 50 } else query
  PaginateArtifacts sorted query.Limit query.Offset

/-- `GetArtifacts`. `rangeWindows` and `rangeLinux` give the order in which a
`range` statement enumerates a map (some arrangement of its pairs);
`upstream`, `now₁`, `now₂` are the arguments of `FetchGitHubTags`, `now` the
timestamp read by `ProcessGitHubTags`. -/
def GetArtifacts (timeParse : String → Option Int)
    (rangeWindows rangeLinux : GoMap Artifact → List (String × Artifact))
    (s : ArtifactsService) (upstream : Except String (List GitHubTag)) (now₁ now₂ : Int)
    (now : String) (query : ArtifactsQuery) : GetOutcome × ArtifactsService :=
  match FetchGitHubTags s true upstream now₁ now₂ with
  | (Except.error err, s₁) => (GetOutcome.error err, s₁)
  | (Except.ok tags, s₁) =>
    let processedData := ProcessGitHubTags tags now
    let artifacts :=
      flattenArtifacts (rangeWindows processedData.Windows) (rangeLinux processedData.Linux)
    match queryArtifacts timeParse artifacts query with
    | some paginated => (GetOutcome.ok paginated, s₁)
    | none => (GetOutcome.panic, s₁)

/-! ## RFC 3339 timestamps -/

/-- Read exactly `n` ASCII digits at the head of the input. -/
def readDigits (n : Nat) (s : List Char) : Option (Nat × List Char) :=
  if (s.take n).length = n ∧ (s.take n).all isDigit = true then
    some (digitsValue (s.take n), s.drop n)
  else none

def isLeapYear (year : Nat) : Bool :=
  decide (year % 4 = 0 ∧ (year % 100 ≠ 0 ∨ year % 400 = 0))

def daysIn (year month : Nat) : Nat :=
  if month = 2 then (if isLeapYear year then 29 else 28)
  else if month = 4 ∨ month = 6 ∨ month = 9 ∨ month = 11 then 30
  else 31

/-- Days from 0001-01-01 to the first day of the given month (proleptic
Gregorian calendar; negative for dates of year 0). -/
def daysBefore (year month : Nat) : Int :=
  let p : Int := (year : Int) - 1
  365 * p + p / 4 - p / 100 + p / 400 +
    (((List.range (month - 1)).map (fun i => daysIn year (i + 1))).sum : Nat)

/-- The optional fraction of a second, in nanoseconds (digits beyond the
ninth are dropped), and what follows it. -/
def readFraction (s : List Char) : Option (Nat × List Char) :=
  match s with
  | '.' :: rest =>
    let ds := rest.takeWhile isDigit
    if ds = [] then none
    else some (digitsValue ((ds ++ List.replicate 9 '0').take 9), rest.dropWhile isDigit)
  | _ => some (0, s)

/-- The zone designator at the end of the timestamp: `Z`, or a signed
`hh:mm`; the result is the offset from UTC in seconds. -/
def readZone (s : List Char) : Option Int :=
  match s with
  | ['Z'] => some 0
  | sign :: rest =>
    if sign = '+' ∨ sign = '-' then do
      let (hh, rest) ← readDigits 2 rest
      let rest ← matchChar ':' rest
      let (mm, rest) ← readDigits 2 rest
      if rest = [] ∧ hh ≤ 23 ∧ mm ≤ 59 then
        some ((if sign = '-' then -1 else 1) * ((hh : Int) * 3600 + (mm : Int) * 60))
      else none
    else none
  | [] => none

/-- The `YYYY-MM-DD` part: days after 0001-01-01, and what follows. -/
def readDate (s : List Char) : Option (Int × List Char) := do
  let (year, s) ← readDigits 4 s
  let s ← matchChar '-' s
  let (month, s) ← readDigits 2 s
  let s ← matchChar '-' s
  let (day, s) ← readDigits 2 s
  if 1 ≤ month ∧ month ≤ 12 ∧ 1 ≤ day ∧ day ≤ daysIn year month then
    some (daysBefore year month + ((day : Int) - 1), s)
  else none

/-- The `hh:mm:ss` part: seconds after midnight, and what follows. -/
def readClock (s : List Char) : Option (Int × List Char) := do
  let (hour, s) ← readDigits 2 s
  let s ← matchChar ':' s
  let (minute, s) ← readDigits 2 s
  let s ← matchChar ':' s
  let (second, s) ← readDigits 2 s
  if hour ≤ 23 ∧ minute ≤ 59 ∧ second ≤ 59 then
    some ((hour : Int) * 3600 + (minute : Int) * 60 + (second : Int), s)
  else none

/-- A reading of `time.Parse(time.RFC3339, ·)`: timestamps of the form
`YYYY-MM-DDThh:mm:ss[.frac](Z|±hh:mm)` with every field in range; the result
is the instant in nanoseconds after Go's zero `Time`, 0001-01-01T00:00:00Z. -/
def parseRFC3339 (value : String) : Option Int := do
  let (days, s) ← readDate value.data
  let s ← matchChar 'T' s
  let (seconds, s) ← readClock s
  let (nanos, s) ← readFraction s
  let offset ← readZone s
  some ((days * 86400 + seconds - offset) * 1000000000 + (nanos : Int))

/-! ## Auxiliary definitions for the entry point and the sort order -/

/-- A query without filters and with the default sort, for a given page. -/
def pageQuery (limit offset : Int) : ArtifactsQuery :=
  { Platform := "", Version := "", Status := "", SortBy := "", SortOrder := "", Limit := limit,
    Offset := offset, IncludeEOL := false }

/-- The limit `GetArtifacts` passes to `PaginateArtifacts`. -/
def effectiveLimit (query : ArtifactsQuery) : Int :=
  if query.Limit = 0 then 50 else query.Limit

/-- An entry whose `Date` is not a timestamp. -/
def undatedEntry : ArtifactEntry :=
  { Version := "1", Hash := "h1", Platform := "windows", Date := "not-a-date",
    SupportStatus := "eol", URL := "", Size := 0 }

/-- An entry dated 2025-01-01T00:00:00Z. -/
def datedEntry : ArtifactEntry :=
  { Version := "2", Hash := "h2", Platform := "windows", Date := "2025-01-01T00:00:00Z",
    SupportStatus := "eol", URL := "", Size := 0 }

/-- An element order that is irreflexive, transitive and whose relation
"not before" is transitive (a strict weak order). -/
def StrictWeak {α : Type} (less : α → α → Bool) : Prop :=
  (∀ x, less x x = false) ∧
  (∀ x y z, less x y = true → less y z = true → less x z = true) ∧
  (∀ x y z, less x y = false → less y z = false → less x z = false)

/-- The number of elements of `l` that `less` orders before `x`. -/
def rankIn {α : Type} (less : α → α → Bool) (l : List α) (x : α) : Int :=
  (l.countP (fun z => less z x) : Int)

/-- A query without filters that sorts by date. -/
def dateQuery : ArtifactsQuery :=
  { Platform := "", Version := "", Status := "", SortBy := "date", SortOrder := "", Limit := 0,
    Offset := 0, IncludeEOL := false }

/-- A query for the Windows entries with the default sort. -/
def windowsQuery : ArtifactsQuery :=
  { Platform := "windows", Version := "", Status := "", SortBy := "", SortOrder := "", Limit := 0,
    Offset := 0, IncludeEOL := false }

/-! ## Theorems -/

/-- C1: `determineSupportStatus` is defined on every integer and follows the
threshold table: `recommended` from 24500 up, `latest` on [24000, 24500),
`active` on [23000, 24000), `deprecated` on [20000, 23000) and `eol` below
20000 (zero and the negatives included); the boundary values 24500, 24499,
20000 and 19999 map to recommended, latest, deprecated and eol. -/
theorem determineSupportStatus_table (version : Int) :
    (24500 ≤ version → determineSupportStatus version = "recommended") ∧
    (24000 ≤ version → version < 24500 → determineSupportStatus version = "latest") ∧
    (23000 ≤ version → version < 24000 → determineSupportStatus version = "active") ∧
    (20000 ≤ version → version < 23000 → determineSupportStatus version = "deprecated") ∧
    (version < 20000 → determineSupportStatus version = "eol") ∧
    determineSupportStatus 24500 = "recommended" ∧
    determineSupportStatus 24499 = "latest" ∧
    determineSupportStatus 20000 = "deprecated" ∧
    determineSupportStatus 19999 = "eol" ∧
    determineSupportStatus 0 = "eol" ∧
    determineSupportStatus (-1) = "eol" := by
  refine ⟨?_, ?_, ?_, ?_, ?_, ?_, ?_, ?_, ?_, ?_, ?_⟩
  · intro h
    simp [determineSupportStatus, h, Recommended]
  · intro h1 h2
    have : ¬ (24500 ≤ version) := by omega
    simp [determineSupportStatus, this, h1, Latest]
  · intro h1 h2
    have a : ¬ (24500 ≤ version) := by omega
    have b : ¬ (24000 ≤ version) := by omega
    simp [determineSupportStatus, a, b, h1, Active]
  · intro h1 h2
    have a : ¬ (24500 ≤ version) := by omega
    have b : ¬ (24000 ≤ version) := by omega
    have c : ¬ (23000 ≤ version) := by omega
    simp [determineSupportStatus, a, b, c, h1, Deprecated]
  · intro h
    have a : ¬ (24500 ≤ version) := by omega
    have b : ¬ (24000 ≤ version) := by omega
    have c : ¬ (23000 ≤ version) := by omega
    have d : ¬ (20000 ≤ version) := by omega
    simp [determineSupportStatus, a, b, c, d, EOL]
  all_goals simp [determineSupportStatus, Recommended, Latest, Deprecated, EOL]

/-! ### Cache and tag fetch -/

/-- C3: with a `"tags"` entry written at time 0 in the cache and the upstream
request failing at time 3600000 (the entry is exactly one TTL old),
`FetchGitHubTags` returns the wrapped upstream error for both values of
`useCache`, and the entry is gone from the cache afterwards: the stale entry
is not served. -/
theorem FetchGitHubTags_stale_entry_not_served :
    staleTagsService.cache.get? "tags" =
        some { data := CacheData.tags [⟨"v1.0.0.24769", "ad6c"⟩], timestamp := 0 } ∧
      (FetchGitHubTags staleTagsService false (Except.error "boom") 3600000 3600000).1 =
        Except.error "failed to fetch GitHub tags: boom" ∧
      (FetchGitHubTags staleTagsService true (Except.error "boom") 3600000 3600000).1 =
        Except.error "failed to fetch GitHub tags: boom" ∧
      (FetchGitHubTags staleTagsService false (Except.error "boom") 3600000 3600000).2.cache = [] ∧
      (FetchGitHubTags staleTagsService true (Except.error "boom") 3600000 3600000).2.cache = [] := by
  refine ⟨rfl, ?_, ?_, ?_, ?_⟩ <;> rfl

/-- C4: an issue list stored at time 0 with the issue TTL 1800000 is still
returned by `getCache` at time 1800000 (= T + TTL) and at time 3599999, and is
absent only from time 3600000 on: the TTL passed to `setCache` has no effect,
the read checks the tag TTL. -/
theorem getCache_ignores_issue_ttl :
    (getCache (setCache (NewArtifactsService "") "issues" (CacheData.issues []) issuesCacheDuration 0)
        "issues" 1800000).1 = some (CacheData.issues []) ∧
    (getCache (setCache (NewArtifactsService "") "issues" (CacheData.issues []) issuesCacheDuration 0)
        "issues" 3599999).1 = some (CacheData.issues []) ∧
    (getCache (setCache (NewArtifactsService "") "issues" (CacheData.issues []) issuesCacheDuration 0)
        "issues" 3600000).1 = none := by
  refine ⟨?_, ?_, ?_⟩ <;> decide

/-! ### Filtering -/

theorem filterSlice_loop (predicate : ArtifactEntry → Bool) (slice acc : List ArtifactEntry) :
    slice.foldl (fun filtered item => if predicate item then filtered ++ [item] else filtered) acc
      = acc ++ slice.filter predicate := by
  induction slice generalizing acc with
  | nil => simp
  | cons x xs ih =>
    simp only [List.foldl_cons, List.filter_cons]
    rw [ih]
    cases predicate x <;> simp

theorem filterSlice_eq_filter (slice : List ArtifactEntry) (predicate : ArtifactEntry → Bool) :
    filterSlice slice predicate = slice.filter predicate := by
  unfold filterSlice
  rw [filterSlice_loop]
  simp

theorem platformStep_eq (query : ArtifactsQuery) (l : List ArtifactEntry) :
    platformStep query l = l.filter (platformPred query) := by
  unfold platformStep platformPred
  by_cases h1 : query.Platform = ""
  · simp [h1]
  · by_cases h2 : query.Platform = "all"
    · simp [h2]
    · simp [h1, h2, filterSlice_eq_filter]

theorem versionStep_eq (query : ArtifactsQuery) (l : List ArtifactEntry) :
    versionStep query l = l.filter (versionPred query) := by
  unfold versionStep versionPred
  by_cases h1 : query.Version = ""
  · simp [h1]
  · simp [h1, filterSlice_eq_filter]

theorem statusStep_eq (query : ArtifactsQuery) (l : List ArtifactEntry) :
    statusStep query l = l.filter (statusPred query) := by
  unfold statusStep statusPred
  by_cases h1 : query.Status = ""
  · simp [h1]
  · simp [h1, filterSlice_eq_filter]

theorem eolStep_eq (query : ArtifactsQuery) (l : List ArtifactEntry) :
    eolStep query l = l.filter (eolPred query) := by
  unfold eolStep eolPred
  cases h : query.IncludeEOL
  · simp [filterSlice_eq_filter, EOL]
  · simp

theorem FilterArtifacts_eq_filter (artifacts : List ArtifactEntry) (query : ArtifactsQuery) :
    FilterArtifacts artifacts query
      = artifacts.filter (fun a => decide (passesQuery query a)) := by
  unfold FilterArtifacts
  simp only [platformStep_eq, versionStep_eq, statusStep_eq, eolStep_eq, List.filter_filter]
  congr 1
  funext a
  simp only [platformPred, versionPred, statusPred, eolPred, passesQuery, Bool.decide_and,
    Bool.and_comm, Bool.and_assoc, Bool.and_left_comm]

/-- C8: `FilterArtifacts` returns exactly the entries of the input that meet
all four conditions (platform empty, `all` or equal to the entry's platform;
version empty or equal; status empty or equal; `IncludeEOL` set or the entry
not `eol`), in input order and with their multiplicity. -/
theorem FilterArtifacts_spec (artifacts : List ArtifactEntry) (query : ArtifactsQuery) :
    FilterArtifacts artifacts query
      = artifacts.filter (fun a => decide (
          (query.Platform = "" ∨ query.Platform = "all" ∨ a.Platform = query.Platform) ∧
          (query.Version = "" ∨ a.Version = query.Version) ∧
          (query.Status = "" ∨ a.SupportStatus = query.Status) ∧
          (query.IncludeEOL = true ∨ a.SupportStatus ≠ "eol"))) := by
  rw [FilterArtifacts_eq_filter]
  congr 1

/-- C9: with the platform filter empty or `all`, the version and status filters
empty and `IncludeEOL` set, `FilterArtifacts` returns its input unchanged. -/
theorem FilterArtifacts_cleared (artifacts : List ArtifactEntry) (query : ArtifactsQuery)
    (hP : query.Platform = "" ∨ query.Platform = "all") (hV : query.Version = "")
    (hS : query.Status = "") (hE : query.IncludeEOL = true) :
    FilterArtifacts artifacts query = artifacts ∧
      (FilterArtifacts artifacts query).length = artifacts.length := by
  have h : FilterArtifacts artifacts query = artifacts := by
    rw [FilterArtifacts_eq_filter]
    apply List.filter_eq_self.mpr
    intro a _
    have : passesQuery query a := by
      refine ⟨?_, Or.inl hV, Or.inl hS, Or.inl hE⟩
      rcases hP with h | h
      · exact Or.inl h
      · exact Or.inr (Or.inl h)
    simpa using this
  exact ⟨h, by rw [h]⟩

theorem FilterArtifacts_cleared_witness :
    FilterArtifacts sampleEntries { sampleQuery with Platform := "all", IncludeEOL := true }
        = sampleEntries ∧
      (FilterArtifacts sampleEntries { sampleQuery with Platform := "all", IncludeEOL := true }).length
        = sampleEntries.length :=
  FilterArtifacts_cleared sampleEntries { sampleQuery with Platform := "all", IncludeEOL := true }
    (Or.inr rfl) rfl rfl rfl

theorem applySteps_perm {steps₁ steps₂ : List (List ArtifactEntry → List ArtifactEntry)}
    (hperm : steps₁.Perm steps₂) (hf : ∀ f ∈ steps₁, IsFilterStep f) (l : List ArtifactEntry) :
    applySteps steps₁ l = applySteps steps₂ l := by
  induction hperm generalizing l with
  | nil => rfl
  | cons f _ ih =>
    simp only [applySteps, List.foldl_cons]
    exact ih (fun g hg => hf g (List.mem_cons_of_mem _ hg)) _
  | swap f g t =>
    obtain ⟨p, rfl⟩ := hf g (by simp)
    obtain ⟨q, rfl⟩ := hf f (by simp)
    simp only [applySteps, List.foldl_cons, List.filter_filter]
    congr 2
    funext a
    exact Bool.and_comm _ _
  | trans h₁ _ ih₁ ih₂ =>
    rw [ih₁ hf, ih₂ (fun g hg => hf g (h₁.mem_iff.mpr hg))]

theorem filter_inter_filter (l : List ArtifactEntry) (p q : ArtifactEntry → Bool) :
    l.filter p ∩ l.filter q = l.filter (fun a => p a && q a) := by
  show (l.filter p).filter (fun a => List.elem a (l.filter q)) = _
  rw [List.filter_filter]
  apply List.filter_congr
  intro a ha
  simp only [List.elem_eq_mem, List.mem_filter, ha, true_and, Bool.decide_eq_true, Bool.and_comm]

/-- C10: the four blocks of `FilterArtifacts` commute. Running the platform,
version, status and EOL blocks in any of their 24 orders gives the result of
`FilterArtifacts`, and that result is the intersection of the four results of
filtering by one field of the query alone. -/
theorem FilterArtifacts_steps_commute (artifacts : List ArtifactEntry) (query : ArtifactsQuery) :
    ([platformStep query, versionStep query, statusStep query, eolStep query].permutations.length = 24) ∧
    (∀ order ∈ [platformStep query, versionStep query, statusStep query, eolStep query].permutations,
      applySteps order artifacts = FilterArtifacts artifacts query) ∧
    FilterArtifacts artifacts query =
      ((FilterArtifacts artifacts (onlyPlatform query) ∩ FilterArtifacts artifacts (onlyVersion query))
        ∩ FilterArtifacts artifacts (onlyStatus query)) ∩ FilterArtifacts artifacts (onlyEOL query) := by
  refine ⟨by simp [List.length_permutations, Nat.factorial], ?_, ?_⟩
  · intro order horder
    have hperm := List.mem_permutations.mp horder
    have hfil : ∀ f ∈ order, IsFilterStep f := by
      intro f hf
      have hmem := hperm.mem_iff.mp hf
      simp only [List.mem_cons, List.mem_singleton, List.not_mem_nil, or_false] at hmem
      rcases hmem with rfl | rfl | rfl | rfl
      · exact ⟨platformPred query, funext (platformStep_eq query)⟩
      · exact ⟨versionPred query, funext (versionStep_eq query)⟩
      · exact ⟨statusPred query, funext (statusStep_eq query)⟩
      · exact ⟨eolPred query, funext (eolStep_eq query)⟩
    rw [applySteps_perm hperm hfil]
    rfl
  · have e1 : FilterArtifacts artifacts (onlyPlatform query)
        = artifacts.filter (platformPred query) := by
      rw [FilterArtifacts_eq_filter]
      apply List.filter_congr
      intro a _
      simp [passesQuery, onlyPlatform, platformPred]
    have e2 : FilterArtifacts artifacts (onlyVersion query)
        = artifacts.filter (versionPred query) := by
      rw [FilterArtifacts_eq_filter]
      apply List.filter_congr
      intro a _
      simp [passesQuery, onlyVersion, versionPred]
    have e3 : FilterArtifacts artifacts (onlyStatus query)
        = artifacts.filter (statusPred query) := by
      rw [FilterArtifacts_eq_filter]
      apply List.filter_congr
      intro a _
      simp [passesQuery, onlyStatus, statusPred]
    have e4 : FilterArtifacts artifacts (onlyEOL query)
        = artifacts.filter (eolPred query) := by
      rw [FilterArtifacts_eq_filter]
      apply List.filter_congr
      intro a _
      simp [passesQuery, onlyEOL, eolPred]
    rw [e1, e2, e3, e4, filter_inter_filter, filter_inter_filter, filter_inter_filter,
      FilterArtifacts_eq_filter]
    apply List.filter_congr
    intro a _
    simp only [platformPred, versionPred, statusPred, eolPred, passesQuery, Bool.decide_and,
      Bool.and_assoc]

/-! ### Pagination -/

theorem wrap64_of_inRange (x : Int) (h₁ : -9223372036854775808 ≤ x) (h₂ : x ≤ 9223372036854775807) :
    wrap64 x = x := by
  unfold wrap64
  omega

/-- Supporting fact for C7: when `offset + limit` does not exceed the largest
64-bit integer, `PaginateArtifacts` returns the segment from `offset` to
`min (offset + limit) n`; outside `0 ≤ offset < n` it returns the empty list. -/
theorem PaginateArtifacts_segment (artifacts : List ArtifactEntry) (limit offset : Int)
    (hlimit : 0 ≤ limit) (hsum : offset + limit ≤ 9223372036854775807) :
    PaginateArtifacts artifacts limit offset =
      if offset < 0 ∨ offset ≥ (artifacts.length : Int) then some []
      else some ((artifacts.drop offset.toNat).take
        ((min (offset + limit) (artifacts.length : Int)) - offset).toNat) := by
  unfold PaginateArtifacts
  by_cases h : offset < 0 ∨ offset ≥ (artifacts.length : Int)
  · simp [h]
  · simp only [h, if_false]
    have h0 : 0 ≤ offset := by omega
    rw [wrap64_of_inRange (offset + limit) (by omega) hsum]
    by_cases hgt : offset + limit > (artifacts.length : Int)
    · have hmin : min (offset + limit) (artifacts.length : Int) = (artifacts.length : Int) := by
        omega
      have hle : offset ≤ (artifacts.length : Int) := by omega
      simp [hgt, hmin, hle]
    · have hmin : min (offset + limit) (artifacts.length : Int) = offset + limit := by omega
      simp [hgt, hmin, hlimit]

/-- C7: on a list of two entries, `limit` equal to the largest 64-bit integer
and `offset = 1`, the sum `offset + limit` wraps to a negative `end`, the clamp
to the length does not fire and the slice expression panics (`none`), where
the specified result is the segment from index 1 to 2. The specification's
examples (ten entries: limit 3 offset 7, offset 10, offset -1) evaluate as
stated. -/
theorem PaginateArtifacts_huge_limit_panics :
    (0 : Int) ≤ 9223372036854775807 ∧
    PaginateArtifacts (tenEntries.take 2) 9223372036854775807 1 = none ∧
    (tenEntries.take 2).drop 1 = [sampleEntry "1" "windows" "eol"] ∧
    PaginateArtifacts tenEntries 3 7 = some ((tenEntries.drop 7).take 3) ∧
    PaginateArtifacts tenEntries 3 10 = some [] ∧
    PaginateArtifacts tenEntries 3 (-1) = some [] := by
  refine ⟨by decide, ?_, ?_, ?_, ?_, ?_⟩ <;> decide

/-! ### `sort.Slice` returns a permutation -/

namespace GoSort
variable {α : Type}

theorem cons_set_perm (h y : α) : ∀ (t : List α) (j : Nat), t[j]? = some y →
    (y :: t.set j h).Perm (h :: t)
  | [], j, hy => by simp at hy
  | z :: t, 0, hy => by
    simp at hy
    subst hy
    simpa using List.Perm.swap h z t
  | z :: t, j + 1, hy => by
    simp at hy
    have ih := cons_set_perm h y t j hy
    simp only [List.set_cons_succ]
    exact ((List.Perm.swap z y _).trans (ih.cons z)).trans (List.Perm.swap h z t)

theorem Swap_perm : ∀ (data : List α) (i j : Nat), (Swap data i j).Perm data
  | [], i, j => by simp [Swap]
  | h :: t, 0, 0 => by simp [Swap]
  | h :: t, 0, j + 1 => by
    unfold Swap
    cases hj : t[j]? with
    | none => simp [hj]
    | some y => simpa [hj] using cons_set_perm h y t j hj
  | h :: t, i + 1, 0 => by
    unfold Swap
    cases hi : t[i]? with
    | none => simp [hi]
    | some x => simpa [hi] using cons_set_perm h x t i hi
  | h :: t, i + 1, j + 1 => by
    have ih := Swap_perm t i j
    unfold Swap at ih ⊢
    cases hi : t[i]? with
    | none => simp [hi]
    | some x =>
      cases hj : t[j]? with
      | none => simp [hi, hj]
      | some y =>
        simp only [hi, hj] at ih
        simpa [hi, hj] using ih

theorem length_Swap (data : List α) (i j : Nat) : (Swap data i j).length = data.length :=
  (Swap_perm data i j).length_eq

theorem getElem?_Swap (data : List α) (i j k : Nat) (hi : i < data.length) (hj : j < data.length) :
    (Swap data i j)[k]? = if k = j then data[i]? else if k = i then data[j]? else data[k]? := by
  unfold Swap
  rw [List.getElem?_eq_getElem hi, List.getElem?_eq_getElem hj]
  simp only [List.getElem?_set]
  by_cases hkj : k = j
  · subst hkj
    simp [hj]
  · by_cases hki : k = i
    · subst hki
      simp [hkj, hi, Ne.symm hkj]
    · simp [hkj, hki, Ne.symm hkj, Ne.symm hki]

theorem getElem?_Swap_of_ne (data : List α) (i j k : Nat) (hki : k ≠ i) (hkj : k ≠ j) :
    (Swap data i j)[k]? = data[k]? := by
  unfold Swap
  cases hi : data[i]? with
  | none => simp
  | some x =>
    cases hj : data[j]? with
    | none => simp
    | some y => simp [List.getElem?_set, Ne.symm hki, Ne.symm hkj]


theorem insertionSortInner_perm (less : α → α → Bool) (a : Nat) :
    ∀ (j : Nat) (data : List α), (insertionSortInner less a data j).Perm data
  | 0, data => by simp [insertionSortInner]
  | j + 1, data => by
    unfold insertionSortInner
    split
    · exact (insertionSortInner_perm less a j _).trans (Swap_perm _ _ _)
    · exact List.Perm.refl _

theorem insertionSortOuter_perm (less : α → α → Bool) (a : Nat) :
    ∀ (n i : Nat) (data : List α), (insertionSortOuter less a data i n).Perm data
  | 0, i, data => by simp [insertionSortOuter]
  | n + 1, i, data => by
    unfold insertionSortOuter
    exact (insertionSortOuter_perm less a n _ _).trans (insertionSortInner_perm less a _ _)

theorem insertionSort_func_perm (less : α → α → Bool) (data : List α) (a b : Nat) :
    (insertionSort_func less data a b).Perm data :=
  insertionSortOuter_perm less a _ _ _

theorem siftDown_func_perm (less : α → α → Bool) (hi first : Nat) :
    ∀ (fuel root : Nat) (data : List α), (siftDown_func less hi first data root fuel).Perm data
  | 0, root, data => by simp [siftDown_func]
  | fuel + 1, root, data => by
    unfold siftDown_func
    simp only
    repeat' split
    all_goals first
      | exact List.Perm.refl _
      | exact (siftDown_func_perm less hi first fuel _ _).trans (Swap_perm _ _ _)

theorem heapSortBuild_perm (less : α → α → Bool) (hi first : Nat) :
    ∀ (n : Nat) (data : List α), (heapSortBuild less hi first data n).Perm data
  | 0, data => by simp [heapSortBuild]
  | n + 1, data => by
    unfold heapSortBuild
    exact (heapSortBuild_perm less hi first n _).trans (siftDown_func_perm less hi first _ _ _)

theorem heapSortPop_perm (less : α → α → Bool) (first : Nat) :
    ∀ (n : Nat) (data : List α), (heapSortPop less first data n).Perm data
  | 0, data => by simp [heapSortPop]
  | n + 1, data => by
    unfold heapSortPop
    exact ((heapSortPop_perm less first n _).trans (siftDown_func_perm less _ first _ _ _)).trans
      (Swap_perm _ _ _)

theorem heapSort_func_perm (less : α → α → Bool) (data : List α) (a b : Nat) :
    (heapSort_func less data a b).Perm data :=
  (heapSortPop_perm less _ _ _).trans (heapSortBuild_perm less _ _ _ _)

theorem partitionLoop_perm (less : α → α → Bool) (a : Nat) :
    ∀ (fuel i j : Nat) (data : List α), (partitionLoop less a data i j fuel).1.Perm data
  | 0, i, j, data => by simp [partitionLoop]
  | fuel + 1, i, j, data => by
    unfold partitionLoop
    simp only
    split
    · exact List.Perm.refl _
    · exact (partitionLoop_perm less a fuel _ _ _).trans (Swap_perm _ _ _)

theorem partition_func_perm (less : α → α → Bool) (data : List α) (a b pivot : Nat) :
    (partition_func less data a b pivot).1.Perm data := by
  unfold partition_func
  simp only
  split
  · exact (Swap_perm _ _ _).trans (Swap_perm _ _ _)
  · exact ((Swap_perm _ _ _).trans (partitionLoop_perm less a _ _ _ _)).trans
      ((Swap_perm _ _ _).trans (Swap_perm _ _ _))

theorem partitionEqualLoop_perm (less : α → α → Bool) (a : Nat) :
    ∀ (fuel i j : Nat) (data : List α), (partitionEqualLoop less a data i j fuel).1.Perm data
  | 0, i, j, data => by simp [partitionEqualLoop]
  | fuel + 1, i, j, data => by
    unfold partitionEqualLoop
    simp only
    split
    · exact List.Perm.refl _
    · exact (partitionEqualLoop_perm less a fuel _ _ _).trans (Swap_perm _ _ _)

theorem partitionEqual_func_perm (less : α → α → Bool) (data : List α) (a b pivot : Nat) :
    (partitionEqual_func less data a b pivot).1.Perm data :=
  (partitionEqualLoop_perm less a _ _ _ _).trans (Swap_perm _ _ _)

theorem shiftLeft_perm (less : α → α → Bool) :
    ∀ (j : Nat) (data : List α), (shiftLeft less data j).Perm data
  | 0, data => by simp [shiftLeft]
  | j + 1, data => by
    unfold shiftLeft
    split
    · exact List.Perm.refl _
    · exact (shiftLeft_perm less j _).trans (Swap_perm _ _ _)

theorem shiftRight_perm (less : α → α → Bool) :
    ∀ (n j : Nat) (data : List α), (shiftRight less data j n).Perm data
  | 0, j, data => by simp [shiftRight]
  | n + 1, j, data => by
    unfold shiftRight
    split
    · exact List.Perm.refl _
    · exact (shiftRight_perm less n _ _).trans (Swap_perm _ _ _)

theorem partialInsertionSortLoop_perm (less : α → α → Bool) (a b : Nat) :
    ∀ (steps i : Nat) (data : List α), (partialInsertionSortLoop less a b data i steps).1.Perm data
  | 0, i, data => by simp [partialInsertionSortLoop]
  | steps + 1, i, data => by
    unfold partialInsertionSortLoop
    simp only
    split
    · exact List.Perm.refl _
    · split
      · exact List.Perm.refl _
      · refine (partialInsertionSortLoop_perm less a b steps _ _).trans ?_
        have h1 : ∀ d : List α, (if b - scanOrdered less data i (b - i) ≥ 2 then
            shiftRight less d (scanOrdered less data i (b - i) + 1)
              (b - (scanOrdered less data i (b - i) + 1)) else d).Perm d := by
          intro d
          split
          · exact shiftRight_perm less _ _ _
          · exact List.Perm.refl _
        have h2 : ∀ d : List α, (if scanOrdered less data i (b - i) - a ≥ 2 then
            shiftLeft less d (scanOrdered less data i (b - i) - 1) else d).Perm d := by
          intro d
          split
          · exact shiftLeft_perm less _ _
          · exact List.Perm.refl _
        exact ((h1 _).trans (h2 _)).trans (Swap_perm _ _ _)

theorem partialInsertionSort_func_perm (less : α → α → Bool) (data : List α) (a b : Nat) :
    (partialInsertionSort_func less data a b).1.Perm data :=
  partialInsertionSortLoop_perm less a b _ _ _

theorem breakPatternsLoop_perm (a length modulus idx : Nat) :
    ∀ (n random i : Nat) (data : List α),
      (breakPatternsLoop a length modulus idx data random i n).Perm data
  | 0, random, i, data => by simp [breakPatternsLoop]
  | n + 1, random, i, data => by
    unfold breakPatternsLoop
    exact (breakPatternsLoop_perm a length modulus idx n _ _ _).trans (Swap_perm _ _ _)

theorem breakPatterns_func_perm (data : List α) (a b : Nat) :
    (breakPatterns_func data a b).Perm data := by
  unfold breakPatterns_func
  simp only
  split
  · exact breakPatternsLoop_perm _ _ _ _ _ _ _ _
  · exact List.Perm.refl _

theorem reverseRangeLoop_perm :
    ∀ (fuel i j : Nat) (data : List α), (reverseRangeLoop data i j fuel).Perm data
  | 0, i, j, data => by simp [reverseRangeLoop]
  | fuel + 1, i, j, data => by
    unfold reverseRangeLoop
    split
    · exact (reverseRangeLoop_perm fuel _ _ _).trans (Swap_perm _ _ _)
    · exact List.Perm.refl _

theorem reverseRange_func_perm (data : List α) (a b : Nat) :
    (reverseRange_func data a b).Perm data :=
  reverseRangeLoop_perm _ _ _ _

theorem pdqsort_func_perm (less : α → α → Bool) :
    ∀ (fuel : Nat) (data : List α) (a b limit : Nat) (wasBalanced wasPartitioned : Bool),
      (pdqsort_func less fuel data a b limit wasBalanced wasPartitioned).Perm data
  | 0, data, a, b, limit, wb, wp => by
    unfold pdqsort_func
    exact insertionSort_func_perm less data a b
  | fuel + 1, data, a, b, limit, wb, wp => by
    unfold pdqsort_func
    simp only
    have hbp : (if (!wb) = true then breakPatterns_func data a b else data).Perm data := by
      split
      · exact breakPatterns_func_perm _ _ _
      · exact List.Perm.refl _
    generalize (if (!wb) = true then breakPatterns_func data a b else data) = d1 at hbp ⊢
    generalize (if (!wb) = true then limit - 1 else limit) = limit1
    generalize choosePivot_func less d1 a b = ph
    have hrev : (if decide (ph.2 = sortedHint.decreasingHint) = true then reverseRange_func d1 a b
        else d1).Perm data := by
      split
      · exact (reverseRange_func_perm _ _ _).trans hbp
      · exact hbp
    generalize (if decide (ph.2 = sortedHint.decreasingHint) = true then reverseRange_func d1 a b
        else d1) = d2 at hrev ⊢
    generalize (if decide (ph.2 = sortedHint.decreasingHint) = true then b - 1 - (ph.1 - a)
        else ph.1) = pivot
    generalize (if decide (ph.2 = sortedHint.decreasingHint) = true then sortedHint.increasingHint
        else ph.2) = hint
    have hps : (if (wb && wp && decide (hint = sortedHint.increasingHint)) = true then
        partialInsertionSort_func less d2 a b else (d2, false)).1.Perm data := by
      split
      · exact (partialInsertionSort_func_perm _ _ _ _).trans hrev
      · exact hrev
    generalize (if (wb && wp && decide (hint = sortedHint.increasingHint)) = true then
        partialInsertionSort_func less d2 a b else (d2, false)) = ps at hps ⊢
    split
    · exact insertionSort_func_perm less data a b
    · split
      · exact heapSort_func_perm less data a b
      · split
        · exact hps
        · split
          · exact (pdqsort_func_perm less fuel _ _ _ _ _ _).trans
              ((partitionEqual_func_perm less _ _ _ _).trans hps)
          · split
            · exact (pdqsort_func_perm less fuel _ _ _ _ _ _).trans
                ((pdqsort_func_perm less fuel _ _ _ _ _ _).trans
                  ((partition_func_perm less _ _ _ _).trans hps))
            · exact (pdqsort_func_perm less fuel _ _ _ _ _ _).trans
                ((pdqsort_func_perm less fuel _ _ _ _ _ _).trans
                  ((partition_func_perm less _ _ _ _).trans hps))

theorem Slice_perm (less : α → α → Bool) (x : List α) : (Slice less x).Perm x :=
  pdqsort_func_perm less _ _ _ _ _ _ _

end GoSort

/-! ### Tag processing -/

theorem foldl_append_filter {β : Type} (p : β → Bool) (l acc : List β) :
    l.foldl (fun out item => if p item then out ++ [item] else out) acc = acc ++ l.filter p := by
  induction l generalizing acc with
  | nil => simp
  | cons x xs ih =>
    simp only [List.foldl_cons, List.filter_cons]
    rw [ih]
    cases p x <;> simp

theorem artifactTagsOf_eq_filter (tags : List GitHubTag) :
    artifactTagsOf tags = tags.filter (fun t => artifactVersionRegexMatch t.Name) := by
  unfold artifactTagsOf
  have h := foldl_append_filter (fun t : GitHubTag => artifactVersionRegexMatch t.Name) tags []
  simpa using h

theorem GoMap.keys_set {V : Type} (m : GoMap V) (k : String) (v : V) :
    (GoMap.set m k v).keys = if k ∈ m.keys then m.keys else m.keys ++ [k] := by
  induction m with
  | nil => simp [GoMap.set, GoMap.keys]
  | cons p m ih =>
    obtain ⟨k', v'⟩ := p
    unfold GoMap.set
    by_cases h : k' = k
    · subst h
      simp [GoMap.keys]
    · have h' : ¬ k = k' := fun e => h e.symm
      simp only [GoMap.keys] at ih
      simp only [h, if_false, GoMap.keys, List.map_cons, List.mem_cons, h', false_or, ih]
      split <;> simp

/-- The keys a map has after the keys `ks` were assigned in turn. -/
theorem keys_foldl_processTag (now : String) (tags : List GitHubTag) (init : ArtifactData) :
    (tags.foldl (processTag now) init).Windows.keys
        = (tags.map (fun t => Itoa (extractVersionNumber t.Name))).foldl
            (fun ks k => if k ∈ ks then ks else ks ++ [k]) init.Windows.keys ∧
    (tags.foldl (processTag now) init).Linux.keys
        = (tags.map (fun t => Itoa (extractVersionNumber t.Name))).foldl
            (fun ks k => if k ∈ ks then ks else ks ++ [k]) init.Linux.keys := by
  induction tags generalizing init with
  | nil => simp
  | cons t ts ih =>
    simp only [List.foldl_cons, List.map_cons]
    have h := ih (processTag now init t)
    rw [h.1, h.2]
    simp only [processTag, GoMap.keys_set]
    trivial

theorem foldl_addKey (l ks : List String) (hks : ks.Nodup) :
    (l.foldl (fun ks k => if k ∈ ks then ks else ks ++ [k]) ks).Nodup ∧
    ∀ k, k ∈ l.foldl (fun ks k => if k ∈ ks then ks else ks ++ [k]) ks ↔ k ∈ ks ∨ k ∈ l := by
  induction l generalizing ks with
  | nil => simp [hks]
  | cons x xs ih =>
    simp only [List.foldl_cons]
    by_cases hx : x ∈ ks
    · simp only [hx, if_true]
      refine ⟨(ih ks hks).1, fun k => ?_⟩
      rw [(ih ks hks).2 k]
      simp only [List.mem_cons]
      constructor
      · rintro (h | h)
        · exact Or.inl h
        · exact Or.inr (Or.inr h)
      · rintro (h | h | h)
        · exact Or.inl h
        · exact Or.inl (h ▸ hx)
        · exact Or.inr h
    · simp only [hx, if_false]
      have hnd : (ks ++ [x]).Nodup := by
        rw [List.nodup_append]
        refine ⟨hks, List.nodup_singleton x, ?_⟩
        intro a ha hb
        simp only [List.mem_singleton] at hb
        exact hx (hb ▸ ha)
      refine ⟨(ih _ hnd).1, fun k => ?_⟩
      rw [(ih _ hnd).2 k]
      simp only [List.mem_append, List.mem_singleton, List.mem_cons]
      tauto

theorem digitsValue_append (xs : List Char) (c : Char) :
    digitsValue (xs ++ [c]) = 10 * digitsValue xs + (c.toNat - 48) := by
  simp [digitsValue, List.foldl_append]

theorem toNat_ofNat_digit (d : Nat) (h : d < 10) : (Char.ofNat (48 + d)).toNat - 48 = d := by
  interval_cases d <;> rfl

theorem digitsValue_itoaDigits : ∀ (fuel n : Nat), n < 10 ^ fuel →
    digitsValue (itoaDigits fuel n) = n
  | 0, n, h => by
    simp at h
    simp [itoaDigits, digitsValue, h]
  | fuel + 1, n, h => by
    unfold itoaDigits
    by_cases h10 : n < 10
    · simp only [h10, if_true]
      simp only [digitsValue, List.foldl_cons, List.foldl_nil]
      rw [toNat_ofNat_digit n h10]
      omega
    · simp only [h10, if_false]
      rw [digitsValue_append, toNat_ofNat_digit _ (Nat.mod_lt n (by decide))]
      have hlt : n / 10 < 10 ^ fuel := by
        rw [Nat.div_lt_iff_lt_mul (by decide)]
        rw [pow_succ] at h
        exact h
      rw [digitsValue_itoaDigits fuel (n / 10) hlt]
      omega

theorem lt_ten_pow_succ (n : Nat) : n < 10 ^ (n + 1) :=
  calc n < 2 ^ n := Nat.lt_two_pow n
    _ ≤ 10 ^ n := Nat.pow_le_pow_left (by decide) n
    _ ≤ 10 ^ (n + 1) := Nat.pow_le_pow_right (by decide) (Nat.le_succ n)

theorem Itoa_injOn (m n : Int) (hm : 0 ≤ m) (hn : 0 ≤ n) (h : Itoa m = Itoa n) : m = n := by
  unfold Itoa at h
  have hm' : ¬ m < 0 := by omega
  have hn' : ¬ n < 0 := by omega
  simp only [hm', hn', if_false] at h
  have h := congrArg String.data h
  simp only at h
  have h1 := digitsValue_itoaDigits (m.toNat + 1) m.toNat (lt_ten_pow_succ _)
  have h2 := digitsValue_itoaDigits (n.toNat + 1) n.toNat (lt_ten_pow_succ _)
  rw [h] at h1
  have : m.toNat = n.toNat := by rw [← h1, h2]
  omega

theorem matchDigits_digits (s run rest : List Char) (h : matchDigits s = some (run, rest)) :
    ∀ c ∈ run, isDigit c = true := by
  unfold matchDigits at h
  split at h
  · simp at h
  · simp only [Option.some.injEq, Prod.mk.injEq] at h
    intro c hc
    rw [← h.1] at hc
    exact List.mem_takeWhile_imp hc

theorem matchVersionHere_digits (s build : List Char) (h : matchVersionHere s = some build) :
    ∀ c ∈ build, isDigit c = true := by
  unfold matchVersionHere at h
  simp only [Option.bind_eq_bind, Option.bind_eq_some] at h
  obtain ⟨_, _, ⟨_, _⟩, _, _, _, ⟨_, _⟩, _, _, _, ⟨_, _⟩, _, _, _, ⟨run, rest⟩, h8, h9⟩ := h
  simp only at h9
  split at h9
  · simp only [Option.some.injEq] at h9
    subst h9
    exact matchDigits_digits _ _ _ h8
  · simp at h9

theorem versionNumberRegexFind_digits : ∀ (s build : List Char),
    versionNumberRegexFind s = some build → ∀ c ∈ build, isDigit c = true
  | [], build, h => by simp [versionNumberRegexFind] at h
  | c :: rest, build, h => by
    unfold versionNumberRegexFind at h
    split at h
    · rename_i b hb
      simp only [Option.some.injEq] at h
      subst h
      exact matchVersionHere_digits _ _ hb
    · exact versionNumberRegexFind_digits rest build h

theorem Atoi_nonneg_of_digits (s : List Char) (hs : ∀ c ∈ s, isDigit c = true) (num : Int)
    (h : Atoi s = some num) : 0 ≤ num := by
  unfold Atoi at h
  have hd : ¬ isDigit '-' = true := by decide
  have hp : ¬ isDigit '+' = true := by decide
  have hneg : ¬ s.head? = some '-' := fun e => hd (hs '-' (List.mem_of_mem_head? e))
  have hpos : ¬ s.head? = some '+' := fun e => hp (hs '+' (List.mem_of_mem_head? e))
  simp only [hneg, hpos, or_self, if_false, decide_False, Bool.false_eq_true] at h
  split at h
  · simp at h
  · split at h
    · simp at h
    · simp only [Option.some.injEq] at h
      omega

theorem extractVersionNumber_nonneg (tagName : String) : 0 ≤ extractVersionNumber tagName := by
  unfold extractVersionNumber
  split
  · rename_i build hb
    split
    · rename_i num hnum
      exact Atoi_nonneg_of_digits build (versionNumberRegexFind_digits _ _ hb) num hnum
    · exact le_refl 0
  · exact le_refl 0

/-- Both maps of the processed data, before the fallback test, have as keys the
version strings of the matching tags, each once. -/
theorem processed_keys (now : String) (l : List GitHubTag) :
    let pd := l.foldl (processTag now) { Windows := [], Linux := [] }
    (pd.Windows.keys.Nodup ∧
      ∀ k, k ∈ pd.Windows.keys ↔ k ∈ l.map (fun t => Itoa (extractVersionNumber t.Name))) ∧
    (pd.Linux.keys.Nodup ∧
      ∀ k, k ∈ pd.Linux.keys ↔ k ∈ l.map (fun t => Itoa (extractVersionNumber t.Name))) := by
  intro pd
  have hk := keys_foldl_processTag now l { Windows := [], Linux := [] }
  have ha := foldl_addKey (l.map (fun t => Itoa (extractVersionNumber t.Name))) [] List.nodup_nil
  refine ⟨⟨?_, ?_⟩, ⟨?_, ?_⟩⟩
  · show (l.foldl (processTag now) _).Windows.keys.Nodup
    rw [hk.1]
    exact ha.1
  · intro k
    show k ∈ (l.foldl (processTag now) _).Windows.keys ↔ _
    rw [hk.1]
    simpa [GoMap.keys] using ha.2 k
  · show (l.foldl (processTag now) _).Linux.keys.Nodup
    rw [hk.2]
    exact ha.1
  · intro k
    show k ∈ (l.foldl (processTag now) _).Linux.keys ↔ _
    rw [hk.2]
    simpa [GoMap.keys] using ha.2 k

theorem length_of_nodup_of_mem_iff (ks : List String) (builds : List Int)
    (hb : ∀ b ∈ builds, 0 ≤ b) (hnd : ks.Nodup)
    (hmem : ∀ k, k ∈ ks ↔ k ∈ builds.map Itoa) : ks.length = builds.dedup.length := by
  have h1 : ks.Perm (builds.map Itoa).dedup :=
    (List.perm_ext_iff_of_nodup hnd (List.nodup_dedup _)).mpr
      (fun k => by rw [hmem k, List.mem_dedup])
  have himg : (builds.map Itoa).toFinset = builds.toFinset.image Itoa := by
    ext k
    simp
  rw [h1.length_eq, ← List.card_toFinset, ← List.card_toFinset, himg]
  apply Finset.card_image_of_injOn
  intro x hx y hy hxy
  simp only [List.coe_toFinset, Set.mem_setOf_eq] at hx hy
  exact Itoa_injOn x y (hb x hx) (hb y hy) hxy

/-- C2 (as amended): when at least one tag matches the version pattern, the
Windows map and the Linux map of `ProcessGitHubTags` each hold exactly one
entry per distinct build number read from the matching tags: their keys are
the decimal build numbers of the matching tags, each once, tags that do not
match contribute no key, and the number of entries equals the number of
matching tags whenever the build numbers are pairwise distinct (it is never
larger). -/
theorem ProcessGitHubTags_entries (tags : List GitHubTag) (now : String)
    (h : matchingTags tags ≠ []) :
    (ProcessGitHubTags tags now).Windows.len = (matchingBuilds tags).dedup.length ∧
    (ProcessGitHubTags tags now).Linux.len = (matchingBuilds tags).dedup.length ∧
    (ProcessGitHubTags tags now).Windows.keys.Nodup ∧
    (ProcessGitHubTags tags now).Linux.keys.Nodup ∧
    (∀ k, k ∈ (ProcessGitHubTags tags now).Windows.keys ↔
      ∃ t ∈ tags, artifactVersionRegexMatch t.Name = true ∧
        k = Itoa (extractVersionNumber t.Name)) ∧
    (∀ k, k ∈ (ProcessGitHubTags tags now).Linux.keys ↔
      ∃ t ∈ tags, artifactVersionRegexMatch t.Name = true ∧
        k = Itoa (extractVersionNumber t.Name)) ∧
    (matchingBuilds tags).dedup.length ≤ (matchingTags tags).length ∧
    ((matchingBuilds tags).Nodup →
      (ProcessGitHubTags tags now).Windows.len = (matchingTags tags).length ∧
      (ProcessGitHubTags tags now).Linux.len = (matchingTags tags).length) := by
  have hperm : (GoSort.Slice tagLess (artifactTagsOf tags)).Perm (matchingTags tags) := by
    rw [artifactTagsOf_eq_filter]
    exact GoSort.Slice_perm _ _
  have hkeys := processed_keys now (GoSort.Slice tagLess (artifactTagsOf tags))
  simp only at hkeys
  obtain ⟨⟨hwn, hwm⟩, ⟨hln, hlm⟩⟩ := hkeys
  have hmemL : ∀ k, k ∈ (GoSort.Slice tagLess (artifactTagsOf tags)).map
        (fun t => Itoa (extractVersionNumber t.Name)) ↔ k ∈ (matchingBuilds tags).map Itoa := by
    intro k
    rw [(hperm.map _).mem_iff]
    simp [matchingBuilds]
  have hnonneg : ∀ b ∈ matchingBuilds tags, 0 ≤ b := by
    intro b hb
    simp only [matchingBuilds, List.mem_map] at hb
    obtain ⟨t, _, rfl⟩ := hb
    exact extractVersionNumber_nonneg _
  have hwlen := length_of_nodup_of_mem_iff _ _ hnonneg hwn (fun k => (hwm k).trans (hmemL k))
  have hllen := length_of_nodup_of_mem_iff _ _ hnonneg hln (fun k => (hlm k).trans (hmemL k))
  have hpos : 0 < (matchingBuilds tags).dedup.length := by
    rcases hm : matchingTags tags with _ | ⟨t, ts⟩
    · exact absurd hm h
    · apply List.length_pos_of_mem (a := extractVersionNumber t.Name)
      rw [List.mem_dedup]
      simp [matchingBuilds, hm]
  have hres : ProcessGitHubTags tags now
      = (GoSort.Slice tagLess (artifactTagsOf tags)).foldl (processTag now)
          { Windows := [], Linux := [] } := by
    unfold ProcessGitHubTags
    simp only
    rw [if_neg]
    simp only [GoMap.len, GoMap.keys, List.length_map] at hwlen ⊢
    omega
  rw [hres]
  have hdl : (matchingBuilds tags).dedup.length ≤ (matchingTags tags).length := by
    have := (List.dedup_sublist (matchingBuilds tags)).length_le
    simpa [matchingBuilds] using this
  have hmem' : ∀ k, k ∈ (matchingBuilds tags).map Itoa ↔
      ∃ t ∈ tags, artifactVersionRegexMatch t.Name = true ∧
        k = Itoa (extractVersionNumber t.Name) := by
    intro k
    simp only [matchingBuilds, matchingTags, List.map_map, List.mem_map, List.mem_filter,
      Function.comp]
    constructor
    · rintro ⟨t, ⟨ht, hm⟩, rfl⟩
      exact ⟨t, ht, hm, rfl⟩
    · rintro ⟨t, ht, hm, rfl⟩
      exact ⟨t, ⟨ht, hm⟩, rfl⟩
  simp only [GoMap.len, GoMap.keys, List.length_map] at hwlen hllen ⊢
  refine ⟨hwlen, hllen, hwn, hln, ?_, ?_, hdl, ?_⟩
  · intro k
    exact ((hwm k).trans (hmemL k)).trans (hmem' k)
  · intro k
    exact ((hlm k).trans (hmemL k)).trans (hmem' k)
  · intro hnd
    rw [hwlen, hllen, hnd.dedup]
    simp [matchingBuilds]

theorem ProcessGitHubTags_entries_witness :
    (ProcessGitHubTags exampleTags "2025-01-01T00:00:00Z").Windows.len
        = (matchingBuilds exampleTags).dedup.length ∧
    (matchingBuilds exampleTags).dedup.length = 2 ∧
    (ProcessGitHubTags exampleTags "2025-01-01T00:00:00Z").Linux.len = 2 ∧
    (ProcessGitHubTags exampleTags "2025-01-01T00:00:00Z").Windows.keys = ["24769", "24574"] ∧
    (ProcessGitHubTags exampleTags "2025-01-01T00:00:00Z").Linux.keys = ["24769", "24574"] :=
  ⟨(ProcessGitHubTags_entries exampleTags "2025-01-01T00:00:00Z" (by decide)).1,
    by decide, by decide, by decide, by decide⟩

/-- C2 (counterexample): the tags `v1.0.0.5` and `v2.0.0.5` both match the
version pattern, yet the Windows map and the Linux map hold one entry each,
not two: both tags are stored under the key `5`. -/
theorem ProcessGitHubTags_same_build_collapses :
    (matchingTags sameBuildTags).length = 2 ∧
    (ProcessGitHubTags sameBuildTags "2025-01-01T00:00:00Z").Windows.len = 1 ∧
    (ProcessGitHubTags sameBuildTags "2025-01-01T00:00:00Z").Linux.len = 1 ∧
    (ProcessGitHubTags sameBuildTags "2025-01-01T00:00:00Z").Windows.keys = ["5"] := by
  decide

/-! ### `sort.Slice` sorts: exchanges inside a range -/

namespace GoSort
variable {α : Type}

theorem keyAt_congr (key : α → Int) {d d' : List α} {k k' : Nat} (h : d'[k]? = d[k']?) :
    keyAt key d' k = keyAt key d k' := by
  unfold keyAt
  rw [h]

theorem Less_eq_keyAt (less : α → α → Bool) (key : α → Int)
    (hless : ∀ x y, less x y = decide (key x < key y)) (data : List α) (i j : Nat)
    (hi : i < data.length) (hj : j < data.length) :
    Less less data i j = decide (keyAt key data i < keyAt key data j) := by
  unfold Less keyAt
  rw [List.getElem?_eq_getElem hi, List.getElem?_eq_getElem hj]
  exact hless _ _

theorem keyAt_Swap (key : α → Int) (data : List α) (i j k : Nat) (hi : i < data.length)
    (hj : j < data.length) :
    keyAt key (Swap data i j) k
      = if k = j then keyAt key data i else if k = i then keyAt key data j else keyAt key data k := by
  unfold keyAt
  rw [getElem?_Swap data i j k hi hj]
  by_cases hkj : k = j
  · simp only [hkj, if_true]
  · by_cases hki : k = i
    · subst hki
      simp only [hkj, if_true, if_false]
    · simp only [hkj, hki, if_false]

theorem getElem?_Swap_cases (data : List α) (i j k : Nat) :
    (Swap data i j)[k]? = data[k]? ∨ ((Swap data i j)[k]? = data[i]? ∧ k = j) ∨
      ((Swap data i j)[k]? = data[j]? ∧ k = i) := by
  by_cases hi : i < data.length
  · by_cases hj : j < data.length
    · rw [getElem?_Swap data i j k hi hj]
      by_cases hkj : k = j
      · simp [hkj]
      · by_cases hki : k = i
        · subst hki
          simp [hkj]
        · simp [hkj, hki]
    · left
      unfold Swap
      rw [List.getElem?_eq_none (Nat.le_of_not_lt hj)]
      cases data[i]? <;> rfl
  · left
    unfold Swap
    rw [List.getElem?_eq_none (Nat.le_of_not_lt hi)]

theorem Swaps.trans {a b : Nat} {d₁ d₂ d₃ : List α} (h₁ : Swaps a b d₁ d₂) (h₂ : Swaps a b d₂ d₃) :
    Swaps a b d₁ d₃ := by
  induction h₁ with
  | refl d => exact h₂
  | step d d' i j hai hib haj hjb _ ih => exact Swaps.step d _ i j hai hib haj hjb (ih h₂)

theorem Swaps.mono {a b a' b' : Nat} {d₁ d₂ : List α} (h : Swaps a b d₁ d₂) (ha : a' ≤ a)
    (hb : b ≤ b') : Swaps a' b' d₁ d₂ := by
  induction h with
  | refl d => exact Swaps.refl d
  | step d d' i j hai hib haj hjb _ ih =>
    exact Swaps.step d d' i j (by omega) (by omega) (by omega) (by omega) ih

theorem Swaps.swap {a b : Nat} (d : List α) (i j : Nat) (hai : a ≤ i) (hib : i < b) (haj : a ≤ j)
    (hjb : j < b) : Swaps a b d (Swap d i j) :=
  Swaps.step d _ i j hai hib haj hjb (Swaps.refl _)

theorem Swaps.perm {a b : Nat} {d₁ d₂ : List α} (h : Swaps a b d₁ d₂) : d₂.Perm d₁ := by
  induction h with
  | refl d => exact List.Perm.refl d
  | step d d' i j _ _ _ _ _ ih => exact ih.trans (Swap_perm d i j)

theorem Swaps.length_eq {a b : Nat} {d₁ d₂ : List α} (h : Swaps a b d₁ d₂) :
    d₂.length = d₁.length :=
  h.perm.length_eq

theorem Swaps.frame {a b : Nat} {d₁ d₂ : List α} (h : Swaps a b d₁ d₂) (k : Nat)
    (hk : k < a ∨ b ≤ k) : d₂[k]? = d₁[k]? := by
  induction h with
  | refl d => rfl
  | step d d' i j hai hib haj hjb _ ih =>
    rw [ih]
    exact getElem?_Swap_of_ne d i j k (by omega) (by omega)

theorem Swaps.content {a b : Nat} {d₁ d₂ : List α} (h : Swaps a b d₁ d₂) (k : Nat)
    (hak : a ≤ k) (hkb : k < b) : ∃ k', a ≤ k' ∧ k' < b ∧ d₂[k]? = d₁[k']? := by
  induction h generalizing k with
  | refl d => exact ⟨k, hak, hkb, rfl⟩
  | step d d' i j hai hib haj hjb _ ih =>
    obtain ⟨k', hak', hkb', hk'⟩ := ih k hak hkb
    rcases getElem?_Swap_cases d i j k' with h | ⟨h, _⟩ | ⟨h, _⟩
    · exact ⟨k', hak', hkb', hk'.trans h⟩
    · exact ⟨i, hai, hib, hk'.trans h⟩
    · exact ⟨j, haj, hjb, hk'.trans h⟩

theorem Swaps.keyAt_frame {a b : Nat} {d₁ d₂ : List α} (h : Swaps a b d₁ d₂) (key : α → Int)
    (k : Nat) (hk : k < a ∨ b ≤ k) : keyAt key d₂ k = keyAt key d₁ k :=
  keyAt_congr key (h.frame k hk)

theorem Swaps.keyAt_content {a b : Nat} {d₁ d₂ : List α} (h : Swaps a b d₁ d₂) (key : α → Int)
    (k : Nat) (hak : a ≤ k) (hkb : k < b) :
    ∃ k', a ≤ k' ∧ k' < b ∧ keyAt key d₂ k = keyAt key d₁ k' := by
  obtain ⟨k', h1, h2, h3⟩ := h.content k hak hkb
  exact ⟨k', h1, h2, keyAt_congr key h3⟩

theorem Swaps.prevLE {a b : Nat} {d₁ d₂ : List α} (h : Swaps a b d₁ d₂) (key : α → Int)
    (hp : PrevLE key d₁ a b) : PrevLE key d₂ a b := by
  intro m ha ham hmb
  obtain ⟨m', h1, h2, h3⟩ := h.keyAt_content key m ham hmb
  rw [h3, h.keyAt_frame key (a - 1) (by omega)]
  exact hp m' ha h1 h2

/-- Lower bounds on a range survive exchanges inside the range. -/
theorem Swaps.lower {a b : Nat} {d₁ d₂ : List α} (h : Swaps a b d₁ d₂) (key : α → Int) (lo : Int)
    (hlo : ∀ k, a ≤ k → k < b → lo ≤ keyAt key d₁ k) :
    ∀ k, a ≤ k → k < b → lo ≤ keyAt key d₂ k := by
  intro k hak hkb
  obtain ⟨k', h1, h2, h3⟩ := h.keyAt_content key k hak hkb
  rw [h3]
  exact hlo k' h1 h2

/-- Upper bounds on a range survive exchanges inside the range. -/
theorem Swaps.upper {a b : Nat} {d₁ d₂ : List α} (h : Swaps a b d₁ d₂) (key : α → Int) (up : Int)
    (hup : ∀ k, a ≤ k → k < b → keyAt key d₁ k ≤ up) :
    ∀ k, a ≤ k → k < b → keyAt key d₂ k ≤ up := by
  intro k hak hkb
  obtain ⟨k', h1, h2, h3⟩ := h.keyAt_content key k hak hkb
  rw [h3]
  exact hup k' h1 h2

end GoSort

/-! ### `sort.Slice` sorts: insertion sort -/

namespace GoSort
variable {α : Type}

theorem insertionSortInner_spec (less : α → α → Bool) (key : α → Int)
    (hless : ∀ x y, less x y = decide (key x < key y)) (a i : Nat) :
    ∀ (j : Nat) (data : List α), a ≤ j → j ≤ i → i < data.length →
      (∀ p q, a ≤ p → p < q → q ≤ i → p ≠ j → q ≠ j → keyAt key data p ≤ keyAt key data q) →
      (∀ q, j < q → q ≤ i → keyAt key data j ≤ keyAt key data q) →
      Swaps a (i + 1) data (insertionSortInner less a data j) ∧
        SortedRange key (insertionSortInner less a data j) a (i + 1)
  | 0, data, haj, _, _, h1, h2 => by
    unfold insertionSortInner
    refine ⟨Swaps.refl _, ?_⟩
    intro p q hap hpq hq
    by_cases hp0 : p = 0
    · subst hp0
      exact h2 q hpq (by omega)
    · exact h1 p q hap hpq (by omega) hp0 (by omega)
  | j + 1, data, haj, hji, hi, h1, h2 => by
    unfold insertionSortInner
    have hL := Less_eq_keyAt less key hless data (j + 1) j (by omega) (by omega)
    by_cases hc : j + 1 > a ∧ keyAt key data (j + 1) < keyAt key data j
    · have hcond : (decide (j + 1 > a) && Less less data (j + 1) j) = true := by
        rw [hL]
        simp [hc.1, hc.2]
      rw [if_pos hcond]
      have hK := keyAt_Swap key data (j + 1) j
      have hlen : i < (Swap data (j + 1) j).length := by rw [length_Swap]; exact hi
      have ih := insertionSortInner_spec less key hless a i j (Swap data (j + 1) j) (by omega)
        (by omega) hlen
        (by
          intro p q hap hpq hq hpj hqj
          rw [hK p (by omega) (by omega), hK q (by omega) (by omega)]
          simp only [hpj, hqj, if_false]
          by_cases hp : p = j + 1
          · have hq' : q ≠ j + 1 := by omega
            simp only [hp, hq', if_true, if_false]
            exact h1 j q (by omega) (by omega) hq (by omega) hq'
          · by_cases hq' : q = j + 1
            · simp only [hp, hq', if_true, if_false]
              exact h1 p j hap (by omega) (by omega) hp (by omega)
            · simp only [hp, hq', if_false]
              exact h1 p q hap hpq hq hp hq')
        (by
          intro q hjq hq
          rw [hK j (by omega) (by omega), hK q (by omega) (by omega)]
          have hqj : q ≠ j := by omega
          simp only [hqj, if_true, if_false]
          by_cases hq' : q = j + 1
          · simp only [hq', if_true]
            omega
          · simp only [hq', if_false]
            exact h2 q (by omega) hq)
      exact ⟨Swaps.step data _ (j + 1) j (by omega) (by omega) (by omega) (by omega) ih.1, ih.2⟩
    · have hcond : ¬ (decide (j + 1 > a) && Less less data (j + 1) j) = true := by
        rw [hL]
        simp only [Bool.and_eq_true, decide_eq_true_eq]
        exact hc
      rw [if_neg hcond]
      refine ⟨Swaps.refl _, ?_⟩
      intro p q hap hpq hq
      by_cases hp : p = j + 1
      · subst hp
        exact h2 q hpq (by omega)
      · by_cases hq' : q = j + 1
        · subst hq'
          have hgt : j + 1 > a := by omega
          have hle : keyAt key data j ≤ keyAt key data (j + 1) := by
            by_contra hlt
            exact hc ⟨hgt, by omega⟩
          by_cases hpj : p = j
          · subst hpj
            exact hle
          · have := h1 p j hap (by omega) (by omega) hp (by omega)
            omega
        · exact h1 p q hap hpq (by omega) hp hq'

theorem insertionSortOuter_spec (less : α → α → Bool) (key : α → Int)
    (hless : ∀ x y, less x y = decide (key x < key y)) (a : Nat) :
    ∀ (n i : Nat) (data : List α), a < i → i + n ≤ data.length → SortedRange key data a i →
      Swaps a (i + n) data (insertionSortOuter less a data i n) ∧
        SortedRange key (insertionSortOuter less a data i n) a (i + n)
  | 0, i, data, _, _, hs => by
    unfold insertionSortOuter
    exact ⟨Swaps.refl _, hs⟩
  | n + 1, i, data, hai, hlen, hs => by
    unfold insertionSortOuter
    have hin := insertionSortInner_spec less key hless a i i data (by omega) (le_refl i)
      (by omega)
      (by
        intro p q hap hpq hq hpi hqi
        exact hs p q hap hpq (by omega))
      (by
        intro q h1 h2
        omega)
    have hlen' : i + 1 + n ≤ (insertionSortInner less a data i).length := by
      rw [hin.1.length_eq]
      omega
    have ih := insertionSortOuter_spec less key hless a n (i + 1)
      (insertionSortInner less a data i) (by omega) hlen' hin.2
    have e : i + (n + 1) = i + 1 + n := by omega
    rw [e]
    exact ⟨(hin.1.mono (le_refl a) (by omega)).trans ih.1, ih.2⟩

theorem insertionSort_func_spec (less : α → α → Bool) (key : α → Int)
    (hless : ∀ x y, less x y = decide (key x < key y)) (data : List α) (a b : Nat)
    (hb : b ≤ data.length) :
    Swaps a b data (insertionSort_func less data a b) ∧
      SortedRange key (insertionSort_func less data a b) a b := by
  unfold insertionSort_func
  by_cases hab : a + 1 ≤ b
  · have h := insertionSortOuter_spec less key hless a (b - (a + 1)) (a + 1) data (by omega)
      (by omega) (by intro p q h1 h2 h3; omega)
    have e : a + 1 + (b - (a + 1)) = b := by omega
    rw [e] at h
    exact h
  · have e : b - (a + 1) = 0 := by omega
    rw [e]
    unfold insertionSortOuter
    exact ⟨Swaps.refl _, by intro p q h1 h2 h3; omega⟩

end GoSort

/-! ### `sort.Slice` sorts: partition -/

namespace GoSort
variable {α : Type}

theorem scanLessUp_spec (less : α → α → Bool) (key : α → Int)
    (hless : ∀ x y, less x y = decide (key x < key y)) (data : List α) (a : Nat)
    (ha : a < data.length) :
    ∀ (n i : Nat), i + n ≤ data.length →
      i ≤ scanLessUp less data a i n ∧ scanLessUp less data a i n ≤ i + n ∧
      (∀ k, i ≤ k → k < scanLessUp less data a i n → keyAt key data k < keyAt key data a) ∧
      (scanLessUp less data a i n < i + n →
        keyAt key data a ≤ keyAt key data (scanLessUp less data a i n))
  | 0, i, _ => by
    unfold scanLessUp
    exact ⟨le_refl i, le_refl _, fun k h1 h2 => by omega, fun h => by omega⟩
  | n + 1, i, hlen => by
    unfold scanLessUp
    have hL := Less_eq_keyAt less key hless data i a (by omega) ha
    by_cases hc : keyAt key data i < keyAt key data a
    · have hcond : Less less data i a = true := by rw [hL]; simp [hc]
      rw [if_pos hcond]
      obtain ⟨h1, h2, h3, h4⟩ := scanLessUp_spec less key hless data a ha n (i + 1) (by omega)
      refine ⟨by omega, by omega, ?_, fun h => h4 (by omega)⟩
      intro k hik hk
      by_cases hki : k = i
      · subst hki
        exact hc
      · exact h3 k (by omega) hk
    · have hcond : ¬ Less less data i a = true := by rw [hL]; simp [hc]
      rw [if_neg hcond]
      exact ⟨le_refl i, by omega, fun k h1 h2 => by omega, fun _ => by omega⟩

theorem scanNotLessDown_spec (less : α → α → Bool) (key : α → Int)
    (hless : ∀ x y, less x y = decide (key x < key y)) (data : List α) (a : Nat)
    (ha : a < data.length) :
    ∀ (n j : Nat), n ≤ j → j < data.length →
      scanNotLessDown less data a j n ≤ j ∧ j ≤ scanNotLessDown less data a j n + n ∧
      (∀ k, scanNotLessDown less data a j n < k → k ≤ j →
        keyAt key data a ≤ keyAt key data k) ∧
      (j < scanNotLessDown less data a j n + n →
        keyAt key data (scanNotLessDown less data a j n) < keyAt key data a)
  | 0, j, _, _ => by
    unfold scanNotLessDown
    exact ⟨le_refl j, le_refl _, fun k h1 h2 => by omega, fun h => by omega⟩
  | n + 1, j, hnj, hlen => by
    unfold scanNotLessDown
    have hL := Less_eq_keyAt less key hless data j a hlen ha
    by_cases hc : keyAt key data j < keyAt key data a
    · have hcond : ¬ (!Less less data j a) = true := by rw [hL]; simp [hc]
      rw [if_neg hcond]
      exact ⟨le_refl j, by omega, fun k h1 h2 => by omega, fun _ => hc⟩
    · have hcond : (!Less less data j a) = true := by rw [hL]; simp [hc]
      rw [if_pos hcond]
      obtain ⟨h1, h2, h3, h4⟩ :=
        scanNotLessDown_spec less key hless data a ha n (j - 1) (by omega) (by omega)
      refine ⟨by omega, by omega, ?_, fun h => h4 (by omega)⟩
      intro k hk hkj
      by_cases hkj' : k = j
      · subst hkj'
        omega
      · exact h3 k hk (by omega)

/-- One turn of a partition loop: either the scans cross and the range is
partitioned around `j`, or two elements are exchanged and the invariant holds
for the narrower window. -/
theorem partition_turn (less : α → α → Bool) (key : α → Int)
    (hless : ∀ x y, less x y = decide (key x < key y)) (data : List α) (a b i j : Nat)
    (hb : b ≤ data.length) (hinv : PartInv key data a b i j) :
    (scanLessUp less data a i (j + 1 - i) >
        scanNotLessDown less data a j (j + 1 - scanLessUp less data a i (j + 1 - i)) →
      a ≤ scanNotLessDown less data a j (j + 1 - scanLessUp less data a i (j + 1 - i)) ∧
      scanNotLessDown less data a j (j + 1 - scanLessUp less data a i (j + 1 - i)) < b ∧
      (∀ k, a < k →
        k ≤ scanNotLessDown less data a j (j + 1 - scanLessUp less data a i (j + 1 - i)) →
        keyAt key data k < keyAt key data a) ∧
      (∀ k, scanNotLessDown less data a j (j + 1 - scanLessUp less data a i (j + 1 - i)) < k →
        k < b → keyAt key data a ≤ keyAt key data k)) ∧
    (¬ scanLessUp less data a i (j + 1 - i) >
        scanNotLessDown less data a j (j + 1 - scanLessUp less data a i (j + 1 - i)) →
      i ≤ scanLessUp less data a i (j + 1 - i) ∧
      scanLessUp less data a i (j + 1 - i) <
        scanNotLessDown less data a j (j + 1 - scanLessUp less data a i (j + 1 - i)) ∧
      scanNotLessDown less data a j (j + 1 - scanLessUp less data a i (j + 1 - i)) ≤ j ∧
      PartInv key
        (Swap data (scanLessUp less data a i (j + 1 - i))
          (scanNotLessDown less data a j (j + 1 - scanLessUp less data a i (j + 1 - i))))
        a b (scanLessUp less data a i (j + 1 - i) + 1)
        (scanNotLessDown less data a j (j + 1 - scanLessUp less data a i (j + 1 - i)) - 1)) := by
  obtain ⟨hai, hjb, hij, hlo, hhi⟩ := hinv
  have ha : a < data.length := by omega
  obtain ⟨u1, u2, u3, u4⟩ := scanLessUp_spec less key hless data a ha (j + 1 - i) i (by omega)
  generalize scanLessUp less data a i (j + 1 - i) = i' at u1 u2 u3 u4 ⊢
  obtain ⟨v1, v2, v3, v4⟩ :=
    scanNotLessDown_spec less key hless data a ha (j + 1 - i') j (by omega) (by omega)
  generalize scanNotLessDown less data a j (j + 1 - i') = j' at v1 v2 v3 v4 ⊢
  constructor
  · intro hgt
    refine ⟨by omega, by omega, ?_, ?_⟩
    · intro k hak hk
      by_cases hki : k < i
      · exact hlo k hak hki
      · exact u3 k (by omega) (by omega)
    · intro k hk hkb
      by_cases hkj : k ≤ j
      · exact v3 k hk hkj
      · exact hhi k (by omega) hkb
  · intro hle
    have hi'j' : i' ≤ j' := by omega
    have hKi : keyAt key data a ≤ keyAt key data i' := u4 (by omega)
    have hKj : keyAt key data j' < keyAt key data a := v4 (by omega)
    have hne : i' ≠ j' := by
      intro e
      rw [e] at hKi
      omega
    have hK := keyAt_Swap key data i' j'
    refine ⟨u1, by omega, v1, by omega, by omega, by omega, ?_, ?_⟩
    · intro k hak hk
      rw [hK k (by omega) (by omega), hK a (by omega) (by omega)]
      have e1 : a ≠ j' := by omega
      have e2 : a ≠ i' := by omega
      have e3 : k ≠ j' := by omega
      simp only [e1, e2, e3, if_false]
      by_cases hki' : k = i'
      · simp only [hki', if_true]
        exact hKj
      · simp only [hki', if_false]
        by_cases hki : k < i
        · exact hlo k hak hki
        · exact u3 k (by omega) (by omega)
    · intro k hk hkb
      rw [hK k (by omega) (by omega), hK a (by omega) (by omega)]
      have e1 : a ≠ j' := by omega
      have e2 : a ≠ i' := by omega
      simp only [e1, e2, if_false]
      by_cases hkj' : k = j'
      · simp only [hkj', if_true]
        exact hKi
      · have e3 : k ≠ i' := by omega
        simp only [hkj', e3, if_false]
        by_cases hkj : k ≤ j
        · exact v3 k (by omega) hkj
        · exact hhi k (by omega) hkb

theorem partitionLoop_spec (less : α → α → Bool) (key : α → Int)
    (hless : ∀ x y, less x y = decide (key x < key y)) (a b : Nat) :
    ∀ (fuel : Nat) (data : List α) (i j : Nat), b ≤ data.length → j + 1 - i ≤ fuel →
      PartInv key data a b i j →
      Swaps (a + 1) b data (partitionLoop less a data i j fuel).1 ∧
      a ≤ (partitionLoop less a data i j fuel).2 ∧
      (partitionLoop less a data i j fuel).2 < b ∧
      (∀ k, a < k → k ≤ (partitionLoop less a data i j fuel).2 →
        keyAt key (partitionLoop less a data i j fuel).1 k
          < keyAt key (partitionLoop less a data i j fuel).1 a) ∧
      (∀ k, (partitionLoop less a data i j fuel).2 < k → k < b →
        keyAt key (partitionLoop less a data i j fuel).1 a
          ≤ keyAt key (partitionLoop less a data i j fuel).1 k)
  | 0, data, i, j, hb, hfuel, hinv => by
    unfold partitionLoop
    obtain ⟨hai, hjb, hij, hlo, hhi⟩ := hinv
    exact ⟨Swaps.refl _, by omega, hjb, fun k h1 h2 => hlo k h1 (by omega), hhi⟩
  | fuel + 1, data, i, j, hb, hfuel, hinv => by
    unfold partitionLoop
    simp only
    obtain ⟨t1, t2⟩ := partition_turn less key hless data a b i j hb hinv
    have hai := hinv.1
    generalize scanLessUp less data a i (j + 1 - i) = i' at t1 t2 ⊢
    generalize scanNotLessDown less data a j (j + 1 - i') = j' at t1 t2 ⊢
    by_cases hgt : i' > j'
    · rw [if_pos hgt]
      obtain ⟨h1, h2, h3, h4⟩ := t1 hgt
      exact ⟨Swaps.refl _, h1, h2, h3, h4⟩
    · rw [if_neg hgt]
      obtain ⟨h1, h2, h3, h4⟩ := t2 hgt
      have hlen : b ≤ (Swap data i' j').length := by rw [length_Swap]; exact hb
      obtain ⟨r1, r2, r3, r4, r5⟩ := partitionLoop_spec less key hless a b fuel (Swap data i' j')
        (i' + 1) (j' - 1) hlen (by omega) h4
      have hj'b := hinv.2.1
      exact ⟨Swaps.step data _ i' j' (by omega) (by omega) (by omega) (by omega) r1, r2, r3, r4, r5⟩

end GoSort

namespace GoSort
variable {α : Type}

/-- The closing exchange `swap(j, a)` of `partition_func` puts the pivot between
the two parts. -/
theorem partition_finish (key : α → Int) (d : List α) (a b m : Nat) (hb : b ≤ d.length)
    (ham : a ≤ m) (hmb : m < b)
    (hlo : ∀ k, a < k → k ≤ m → keyAt key d k < keyAt key d a)
    (hhi : ∀ k, m < k → k < b → keyAt key d a ≤ keyAt key d k) :
    (∀ k, a ≤ k → k < m → keyAt key (Swap d m a) k < keyAt key (Swap d m a) m) ∧
    (∀ k, m < k → k < b → keyAt key (Swap d m a) m ≤ keyAt key (Swap d m a) k) := by
  have hK := fun k => keyAt_Swap key d m a k (by omega) (by omega)
  constructor
  · intro k hak hkm
    rw [hK k, hK m]
    have e1 : m ≠ a := by omega
    have e2 : k ≠ m := by omega
    simp only [e1, e2, if_true, if_false]
    by_cases hka : k = a
    · simp only [hka, if_true]
      exact hlo m (by omega) (le_refl m)
    · simp only [hka, if_false]
      exact hlo k (by omega) (by omega)
  · intro k hmk hkb
    rw [hK k, hK m]
    have e1 : k ≠ a := by omega
    have e2 : k ≠ m := by omega
    simp only [e1, e2, if_true, if_false]
    by_cases hma : m = a
    · subst hma
      simp only [if_true]
      exact hhi k hmk hkb
    · simp only [hma, if_false]
      exact hhi k hmk hkb

theorem partition_func_spec (less : α → α → Bool) (key : α → Int)
    (hless : ∀ x y, less x y = decide (key x < key y)) (data : List α) (a b pivot : Nat)
    (hb : b ≤ data.length) (hap : a ≤ pivot) (hpb : pivot < b) :
    Swaps a b data (partition_func less data a b pivot).1 ∧
    a ≤ (partition_func less data a b pivot).2.1 ∧
    (partition_func less data a b pivot).2.1 < b ∧
    (∀ k, a ≤ k → k < (partition_func less data a b pivot).2.1 →
      keyAt key (partition_func less data a b pivot).1 k
        < keyAt key (partition_func less data a b pivot).1 (partition_func less data a b pivot).2.1) ∧
    (∀ k, (partition_func less data a b pivot).2.1 < k → k < b →
      keyAt key (partition_func less data a b pivot).1 (partition_func less data a b pivot).2.1
        ≤ keyAt key (partition_func less data a b pivot).1 k) := by
  unfold partition_func
  simp only
  have hs0 : Swaps a b data (Swap data a pivot) :=
    Swaps.swap data a pivot (le_refl a) (by omega) hap hpb
  have hlen0 : b ≤ (Swap data a pivot).length := by rw [length_Swap]; exact hb
  generalize Swap data a pivot = d0 at hs0 hlen0 ⊢
  have hinv : PartInv key d0 a b (a + 1) (b - 1) :=
    ⟨by omega, by omega, by omega, fun k h1 h2 => by omega, fun k h1 h2 => by omega⟩
  obtain ⟨t1, t2⟩ := partition_turn less key hless d0 a b (a + 1) (b - 1) hlen0 hinv
  generalize scanLessUp less d0 a (a + 1) (b - 1 + 1 - (a + 1)) = i' at t1 t2 ⊢
  generalize scanNotLessDown less d0 a (b - 1) (b - 1 + 1 - i') = j' at t1 t2 ⊢
  by_cases hgt : i' > j'
  · rw [if_pos hgt]
    simp only
    obtain ⟨h1, h2, h3, h4⟩ := t1 hgt
    obtain ⟨f1, f2⟩ := partition_finish key d0 a b j' hlen0 h1 h2 h3 h4
    exact ⟨hs0.trans (Swaps.swap d0 j' a h1 h2 (le_refl a) (by omega)), h1, h2, f1, f2⟩
  · rw [if_neg hgt]
    simp only
    obtain ⟨h1, h2, h3, h4⟩ := t2 hgt
    have hlen1 : b ≤ (Swap d0 i' j').length := by rw [length_Swap]; exact hlen0
    obtain ⟨r1, r2, r3, r4, r5⟩ := partitionLoop_spec less key hless a b
      (j' - 1 + 1 - (i' + 1)) (Swap d0 i' j') (i' + 1) (j' - 1) hlen1 (le_refl _) h4
    have hs1 : Swaps a b d0 (Swap d0 i' j') :=
      Swaps.swap d0 i' j' (by omega) (by omega) (by omega) (by omega)
    generalize partitionLoop less a (Swap d0 i' j') (i' + 1) (j' - 1) (j' - 1 + 1 - (i' + 1)) = r
      at r1 r2 r3 r4 r5 ⊢
    have hlen2 : b ≤ r.1.length := by rw [r1.length_eq]; exact hlen1
    obtain ⟨f1, f2⟩ := partition_finish key r.1 a b r.2 hlen2 r2 r3 r4 r5
    exact ⟨(hs0.trans hs1).trans ((r1.mono (by omega) (le_refl b)).trans
      (Swaps.swap r.1 r.2 a r2 r3 (le_refl a) (by omega))), r2, r3, f1, f2⟩

end GoSort

/-! ### `sort.Slice` sorts: partition of equal elements -/

namespace GoSort
variable {α : Type}

theorem scanNotGreaterUp_spec (less : α → α → Bool) (key : α → Int)
    (hless : ∀ x y, less x y = decide (key x < key y)) (data : List α) (a : Nat)
    (ha : a < data.length) :
    ∀ (n i : Nat), i + n ≤ data.length →
      i ≤ scanNotGreaterUp less data a i n ∧ scanNotGreaterUp less data a i n ≤ i + n ∧
      (∀ k, i ≤ k → k < scanNotGreaterUp less data a i n →
        keyAt key data k ≤ keyAt key data a) ∧
      (scanNotGreaterUp less data a i n < i + n →
        keyAt key data a < keyAt key data (scanNotGreaterUp less data a i n))
  | 0, i, _ => by
    unfold scanNotGreaterUp
    exact ⟨le_refl i, le_refl _, fun k h1 h2 => by omega, fun h => by omega⟩
  | n + 1, i, hlen => by
    unfold scanNotGreaterUp
    have hL := Less_eq_keyAt less key hless data a i ha (by omega)
    by_cases hc : keyAt key data a < keyAt key data i
    · have hcond : ¬ (!Less less data a i) = true := by rw [hL]; simp [hc]
      rw [if_neg hcond]
      exact ⟨le_refl i, by omega, fun k h1 h2 => by omega, fun _ => hc⟩
    · have hcond : (!Less less data a i) = true := by rw [hL]; simp [hc]
      rw [if_pos hcond]
      obtain ⟨h1, h2, h3, h4⟩ :=
        scanNotGreaterUp_spec less key hless data a ha n (i + 1) (by omega)
      refine ⟨by omega, by omega, ?_, fun h => h4 (by omega)⟩
      intro k hik hk
      by_cases hki : k = i
      · subst hki
        omega
      · exact h3 k (by omega) hk

theorem scanGreaterDown_spec (less : α → α → Bool) (key : α → Int)
    (hless : ∀ x y, less x y = decide (key x < key y)) (data : List α) (a : Nat)
    (ha : a < data.length) :
    ∀ (n j : Nat), n ≤ j → j < data.length →
      scanGreaterDown less data a j n ≤ j ∧ j ≤ scanGreaterDown less data a j n + n ∧
      (∀ k, scanGreaterDown less data a j n < k → k ≤ j →
        keyAt key data a < keyAt key data k) ∧
      (j < scanGreaterDown less data a j n + n →
        keyAt key data (scanGreaterDown less data a j n) ≤ keyAt key data a)
  | 0, j, _, _ => by
    unfold scanGreaterDown
    exact ⟨le_refl j, le_refl _, fun k h1 h2 => by omega, fun h => by omega⟩
  | n + 1, j, hnj, hlen => by
    unfold scanGreaterDown
    have hL := Less_eq_keyAt less key hless data a j ha hlen
    by_cases hc : keyAt key data a < keyAt key data j
    · have hcond : Less less data a j = true := by rw [hL]; simp [hc]
      rw [if_pos hcond]
      obtain ⟨h1, h2, h3, h4⟩ :=
        scanGreaterDown_spec less key hless data a ha n (j - 1) (by omega) (by omega)
      refine ⟨by omega, by omega, ?_, fun h => h4 (by omega)⟩
      intro k hk hkj
      by_cases hkj' : k = j
      · subst hkj'
        exact hc
      · exact h3 k hk (by omega)
    · have hcond : ¬ Less less data a j = true := by rw [hL]; simp [hc]
      rw [if_neg hcond]
      exact ⟨le_refl j, by omega, fun k h1 h2 => by omega, fun _ => by omega⟩

theorem partitionEqual_turn (less : α → α → Bool) (key : α → Int)
    (hless : ∀ x y, less x y = decide (key x < key y)) (data : List α) (a b i j : Nat)
    (hb : b ≤ data.length) (hinv : PartEqInv key data a b i j) :
    (scanNotGreaterUp less data a i (j + 1 - i) >
        scanGreaterDown less data a j (j + 1 - scanNotGreaterUp less data a i (j + 1 - i)) →
      a < scanNotGreaterUp less data a i (j + 1 - i) ∧
      scanNotGreaterUp less data a i (j + 1 - i) ≤ b ∧
      (∀ k, a < k → k < scanNotGreaterUp less data a i (j + 1 - i) →
        keyAt key data k ≤ keyAt key data a) ∧
      (∀ k, scanNotGreaterUp less data a i (j + 1 - i) ≤ k → k < b →
        keyAt key data a < keyAt key data k)) ∧
    (¬ scanNotGreaterUp less data a i (j + 1 - i) >
        scanGreaterDown less data a j (j + 1 - scanNotGreaterUp less data a i (j + 1 - i)) →
      i ≤ scanNotGreaterUp less data a i (j + 1 - i) ∧
      scanNotGreaterUp less data a i (j + 1 - i) <
        scanGreaterDown less data a j (j + 1 - scanNotGreaterUp less data a i (j + 1 - i)) ∧
      scanGreaterDown less data a j (j + 1 - scanNotGreaterUp less data a i (j + 1 - i)) ≤ j ∧
      PartEqInv key
        (Swap data (scanNotGreaterUp less data a i (j + 1 - i))
          (scanGreaterDown less data a j (j + 1 - scanNotGreaterUp less data a i (j + 1 - i))))
        a b (scanNotGreaterUp less data a i (j + 1 - i) + 1)
        (scanGreaterDown less data a j (j + 1 - scanNotGreaterUp less data a i (j + 1 - i)) - 1)) := by
  obtain ⟨hai, hjb, hij, hlo, hhi⟩ := hinv
  have ha : a < data.length := by omega
  obtain ⟨u1, u2, u3, u4⟩ :=
    scanNotGreaterUp_spec less key hless data a ha (j + 1 - i) i (by omega)
  generalize scanNotGreaterUp less data a i (j + 1 - i) = i' at u1 u2 u3 u4 ⊢
  obtain ⟨v1, v2, v3, v4⟩ :=
    scanGreaterDown_spec less key hless data a ha (j + 1 - i') j (by omega) (by omega)
  generalize scanGreaterDown less data a j (j + 1 - i') = j' at v1 v2 v3 v4 ⊢
  constructor
  · intro hgt
    refine ⟨by omega, by omega, ?_, ?_⟩
    · intro k hak hk
      by_cases hki : k < i
      · exact hlo k hak hki
      · exact u3 k (by omega) (by omega)
    · intro k hk hkb
      by_cases hkj : k ≤ j
      · exact v3 k (by omega) hkj
      · exact hhi k (by omega) hkb
  · intro hle
    have hi'j' : i' ≤ j' := by omega
    have hKi : keyAt key data a < keyAt key data i' := u4 (by omega)
    have hKj : keyAt key data j' ≤ keyAt key data a := v4 (by omega)
    have hne : i' ≠ j' := by
      intro e
      rw [e] at hKi
      omega
    have hK := keyAt_Swap key data i' j'
    refine ⟨u1, by omega, v1, by omega, by omega, by omega, ?_, ?_⟩
    · intro k hak hk
      rw [hK k (by omega) (by omega), hK a (by omega) (by omega)]
      have e1 : a ≠ j' := by omega
      have e2 : a ≠ i' := by omega
      have e3 : k ≠ j' := by omega
      simp only [e1, e2, e3, if_false]
      by_cases hki' : k = i'
      · simp only [hki', if_true]
        exact hKj
      · simp only [hki', if_false]
        by_cases hki : k < i
        · exact hlo k hak hki
        · exact u3 k (by omega) (by omega)
    · intro k hk hkb
      rw [hK k (by omega) (by omega), hK a (by omega) (by omega)]
      have e1 : a ≠ j' := by omega
      have e2 : a ≠ i' := by omega
      simp only [e1, e2, if_false]
      by_cases hkj' : k = j'
      · simp only [hkj', if_true]
        exact hKi
      · have e3 : k ≠ i' := by omega
        simp only [hkj', e3, if_false]
        by_cases hkj : k ≤ j
        · exact v3 k (by omega) hkj
        · exact hhi k (by omega) hkb

theorem partitionEqualLoop_spec (less : α → α → Bool) (key : α → Int)
    (hless : ∀ x y, less x y = decide (key x < key y)) (a b : Nat) :
    ∀ (fuel : Nat) (data : List α) (i j : Nat), b ≤ data.length → j + 1 - i ≤ fuel →
      PartEqInv key data a b i j →
      Swaps (a + 1) b data (partitionEqualLoop less a data i j fuel).1 ∧
      a < (partitionEqualLoop less a data i j fuel).2 ∧
      (partitionEqualLoop less a data i j fuel).2 ≤ b ∧
      (∀ k, a < k → k < (partitionEqualLoop less a data i j fuel).2 →
        keyAt key (partitionEqualLoop less a data i j fuel).1 k
          ≤ keyAt key (partitionEqualLoop less a data i j fuel).1 a) ∧
      (∀ k, (partitionEqualLoop less a data i j fuel).2 ≤ k → k < b →
        keyAt key (partitionEqualLoop less a data i j fuel).1 a
          < keyAt key (partitionEqualLoop less a data i j fuel).1 k)
  | 0, data, i, j, hb, hfuel, hinv => by
    unfold partitionEqualLoop
    obtain ⟨hai, hjb, hij, hlo, hhi⟩ := hinv
    exact ⟨Swaps.refl _, hai, by omega, hlo, fun k h1 h2 => hhi k (by omega) h2⟩
  | fuel + 1, data, i, j, hb, hfuel, hinv => by
    unfold partitionEqualLoop
    simp only
    obtain ⟨t1, t2⟩ := partitionEqual_turn less key hless data a b i j hb hinv
    have hai := hinv.1
    have hjb := hinv.2.1
    generalize scanNotGreaterUp less data a i (j + 1 - i) = i' at t1 t2 ⊢
    generalize scanGreaterDown less data a j (j + 1 - i') = j' at t1 t2 ⊢
    by_cases hgt : i' > j'
    · rw [if_pos hgt]
      obtain ⟨h1, h2, h3, h4⟩ := t1 hgt
      exact ⟨Swaps.refl _, h1, h2, h3, h4⟩
    · rw [if_neg hgt]
      obtain ⟨h1, h2, h3, h4⟩ := t2 hgt
      have hlen : b ≤ (Swap data i' j').length := by rw [length_Swap]; exact hb
      obtain ⟨r1, r2, r3, r4, r5⟩ := partitionEqualLoop_spec less key hless a b fuel
        (Swap data i' j') (i' + 1) (j' - 1) hlen (by omega) h4
      exact ⟨Swaps.step data _ i' j' (by omega) (by omega) (by omega) (by omega) r1, r2, r3, r4, r5⟩

theorem partitionEqual_func_spec (less : α → α → Bool) (key : α → Int)
    (hless : ∀ x y, less x y = decide (key x < key y)) (data : List α) (a b pivot : Nat)
    (hb : b ≤ data.length) (hap : a ≤ pivot) (hpb : pivot < b) :
    Swaps a b data (partitionEqual_func less data a b pivot).1 ∧
    a < (partitionEqual_func less data a b pivot).2 ∧
    (partitionEqual_func less data a b pivot).2 ≤ b ∧
    (∀ k, a ≤ k → k < (partitionEqual_func less data a b pivot).2 →
      keyAt key (partitionEqual_func less data a b pivot).1 k ≤ keyAt key data pivot) ∧
    (∀ k, (partitionEqual_func less data a b pivot).2 ≤ k → k < b →
      keyAt key data pivot < keyAt key (partitionEqual_func less data a b pivot).1 k) := by
  unfold partitionEqual_func
  simp only
  have hs0 : Swaps a b data (Swap data a pivot) :=
    Swaps.swap data a pivot (le_refl a) (by omega) hap hpb
  have hlen0 : b ≤ (Swap data a pivot).length := by rw [length_Swap]; exact hb
  have hKa : keyAt key (Swap data a pivot) a = keyAt key data pivot := by
    rw [keyAt_Swap key data a pivot a (by omega) (by omega)]
    by_cases e : a = pivot
    · simp [e]
    · simp [e]
  generalize Swap data a pivot = d0 at hs0 hlen0 hKa ⊢
  have hinv : PartEqInv key d0 a b (a + 1) (b - 1) :=
    ⟨by omega, by omega, by omega, fun k h1 h2 => by omega, fun k h1 h2 => by omega⟩
  obtain ⟨r1, r2, r3, r4, r5⟩ := partitionEqualLoop_spec less key hless a b
    (b - 1 + 1 - (a + 1)) d0 (a + 1) (b - 1) hlen0 (le_refl _) hinv
  generalize partitionEqualLoop less a d0 (a + 1) (b - 1) (b - 1 + 1 - (a + 1)) = r
    at r1 r2 r3 r4 r5 ⊢
  have hra : keyAt key r.1 a = keyAt key data pivot := by
    rw [r1.keyAt_frame key a (by omega)]
    exact hKa
  rw [hra] at r4 r5
  refine ⟨hs0.trans (r1.mono (by omega) (le_refl b)), r2, r3, ?_, r5⟩
  intro k hak hk
  by_cases hka : k = a
  · subst hka
    omega
  · exact r4 k (by omega) hk

end GoSort

/-! ### `sort.Slice` sorts: pivot choice, pattern breaking, reversal -/

namespace GoSort
variable {α : Type}

theorem reverseRangeLoop_swaps (a b : Nat) :
    ∀ (fuel : Nat) (data : List α) (i j : Nat), a ≤ i → (i < j → j < b) →
      Swaps a b data (reverseRangeLoop data i j fuel)
  | 0, data, i, j, _, _ => by
    unfold reverseRangeLoop
    exact Swaps.refl _
  | fuel + 1, data, i, j, hai, hjb => by
    unfold reverseRangeLoop
    by_cases hij : i < j
    · rw [if_pos hij]
      have hj := hjb hij
      exact Swaps.step data _ i j hai (by omega) (by omega) hj
        (reverseRangeLoop_swaps a b fuel _ (i + 1) (j - 1) (by omega) (fun _ => by omega))
    · rw [if_neg hij]
      exact Swaps.refl _

theorem reverseRange_func_swaps (data : List α) (a b : Nat) :
    Swaps a b data (reverseRange_func data a b) :=
  reverseRangeLoop_swaps a b _ data a (b - 1) (le_refl a) (fun h => by omega)

theorem two_pow_bitsLen_le (n : Nat) (hn : n ≠ 0) : 2 ^ bitsLen n ≤ 2 * n := by
  unfold bitsLen
  rw [if_neg hn, pow_succ]
  have := Nat.log2_self_le hn
  omega

theorem breakPatternsLoop_swaps (a b length modulus idx : Nat) (hlen : a + length = b)
    (hpos : 0 < length) (hmod : modulus ≤ 2 * length) (hmod0 : 0 < modulus)
    (hidx1 : a + 1 ≤ idx) (hidx2 : idx + 1 < b) :
    ∀ (n random i : Nat) (data : List α), i + n ≤ 3 →
      Swaps a b data (breakPatternsLoop a length modulus idx data random i n)
  | 0, random, i, data, _ => by
    unfold breakPatternsLoop
    exact Swaps.refl _
  | n + 1, random, i, data, hin => by
    unfold breakPatternsLoop
    simp only
    have hand : xorshiftNext random &&& (modulus - 1) ≤ modulus - 1 := Nat.and_le_right
    have hother : (if xorshiftNext random &&& (modulus - 1) ≥ length then
        (xorshiftNext random &&& (modulus - 1)) - length
        else xorshiftNext random &&& (modulus - 1)) < length := by
      split <;> omega
    exact Swaps.step data _ _ _ (by omega) (by omega) (by omega) (by omega)
      (breakPatternsLoop_swaps a b length modulus idx hlen hpos hmod hmod0 hidx1 hidx2 n _ (i + 1)
        _ (by omega))

theorem breakPatterns_func_swaps (data : List α) (a b : Nat) :
    Swaps a b data (breakPatterns_func data a b) := by
  unfold breakPatterns_func
  simp only
  by_cases h8 : b - a ≥ 8
  · rw [if_pos h8]
    have hmod : nextPowerOfTwo (b - a) ≤ 2 * (b - a) := by
      unfold nextPowerOfTwo
      rw [Nat.one_shiftLeft]
      exact two_pow_bitsLen_le _ (by omega)
    have hmod0 : 0 < nextPowerOfTwo (b - a) := by
      unfold nextPowerOfTwo
      rw [Nat.one_shiftLeft]
      exact Nat.pos_pow_of_pos _ (by decide)
    exact breakPatternsLoop_swaps a b (b - a) _ _ (by omega) (by omega) hmod hmod0 (by omega)
      (by omega) 3 _ 0 data (by omega)
  · rw [if_neg h8]
    exact Swaps.refl _

theorem order2_func_fst (less : α → α → Bool) (data : List α) (a b swaps : Nat) :
    ((order2_func less data a b swaps).1 = a ∧ (order2_func less data a b swaps).2.1 = b) ∨
    ((order2_func less data a b swaps).1 = b ∧ (order2_func less data a b swaps).2.1 = a) := by
  unfold order2_func
  split
  · right
    exact ⟨rfl, rfl⟩
  · left
    exact ⟨rfl, rfl⟩

theorem median_func_mem (less : α → α → Bool) (data : List α) (a b c swaps : Nat) :
    (median_func less data a b c swaps).1 = a ∨ (median_func less data a b c swaps).1 = b ∨
      (median_func less data a b c swaps).1 = c := by
  unfold median_func
  simp only
  have h1 := order2_func_fst less data a b swaps
  generalize order2_func less data a b swaps = r1 at h1 ⊢
  have h2 := order2_func_fst less data r1.2.1 c r1.2.2
  generalize order2_func less data r1.2.1 c r1.2.2 = r2 at h2 ⊢
  have h3 := order2_func_fst less data r1.1 r2.1 r2.2.2
  generalize order2_func less data r1.1 r2.1 r2.2.2 = r3 at h3 ⊢
  rcases h1 with ⟨e1, e2⟩ | ⟨e1, e2⟩ <;> rcases h2 with ⟨e3, e4⟩ | ⟨e3, e4⟩ <;>
    rcases h3 with ⟨e5, e6⟩ | ⟨e5, e6⟩ <;> simp_all

theorem choosePivot_func_range (less : α → α → Bool) (data : List α) (a b : Nat)
    (hl : 8 ≤ b - a) :
    a ≤ (choosePivot_func less data a b).1 ∧ (choosePivot_func less data a b).1 < b := by
  unfold choosePivot_func
  simp only
  have hr : ∀ r : Nat × Nat, (a ≤ (if r.2 = 0 then (r.1, sortedHint.increasingHint)
      else if r.2 = 12 then (r.1, sortedHint.decreasingHint)
      else (r.1, sortedHint.unknownHint)).1 ∧
      (if r.2 = 0 then (r.1, sortedHint.increasingHint)
      else if r.2 = 12 then (r.1, sortedHint.decreasingHint)
      else (r.1, sortedHint.unknownHint)).1 < b) ↔ (a ≤ r.1 ∧ r.1 < b) := by
    intro r
    split
    · rfl
    · split <;> rfl
  rw [hr]
  rw [if_pos hl]
  by_cases h50 : b - a ≥ 50
  · rw [if_pos h50]
    simp only [medianAdjacent_func]
    have m1 := median_func_mem less data (a + (b - a) / 4 * 1 - 1) (a + (b - a) / 4 * 1)
      (a + (b - a) / 4 * 1 + 1) 0
    generalize median_func less data (a + (b - a) / 4 * 1 - 1) (a + (b - a) / 4 * 1)
      (a + (b - a) / 4 * 1 + 1) 0 = ri at m1 ⊢
    have m2 := median_func_mem less data (a + (b - a) / 4 * 2 - 1) (a + (b - a) / 4 * 2)
      (a + (b - a) / 4 * 2 + 1) ri.2
    generalize median_func less data (a + (b - a) / 4 * 2 - 1) (a + (b - a) / 4 * 2)
      (a + (b - a) / 4 * 2 + 1) ri.2 = rj at m2 ⊢
    have m3 := median_func_mem less data (a + (b - a) / 4 * 3 - 1) (a + (b - a) / 4 * 3)
      (a + (b - a) / 4 * 3 + 1) rj.2
    generalize median_func less data (a + (b - a) / 4 * 3 - 1) (a + (b - a) / 4 * 3)
      (a + (b - a) / 4 * 3 + 1) rj.2 = rk at m3 ⊢
    have m4 := median_func_mem less data ri.1 rj.1 rk.1 rk.2
    generalize median_func less data ri.1 rj.1 rk.1 rk.2 = r at m4 ⊢
    omega
  · rw [if_neg h50]
    have m := median_func_mem less data (a + (b - a) / 4 * 1) (a + (b - a) / 4 * 2)
      (a + (b - a) / 4 * 3) 0
    generalize median_func less data (a + (b - a) / 4 * 1) (a + (b - a) / 4 * 2)
      (a + (b - a) / 4 * 3) 0 = r at m ⊢
    omega

end GoSort

/-! ### `sort.Slice` sorts: partial insertion sort -/

namespace GoSort
variable {α : Type}

theorem SortedRange.congr (key : α → Int) {d d' : List α} {a b : Nat}
    (h : SortedRange key d a b) (he : ∀ k, a ≤ k → k < b → keyAt key d' k = keyAt key d k) :
    SortedRange key d' a b := by
  intro p q hap hpq hqb
  rw [he p hap (by omega), he q (by omega) hqb]
  exact h p q hap hpq hqb

theorem scanOrdered_spec (less : α → α → Bool) (key : α → Int)
    (hless : ∀ x y, less x y = decide (key x < key y)) (data : List α) (a : Nat) :
    ∀ (n i : Nat), a < i → i + n ≤ data.length → SortedRange key data a i →
      i ≤ scanOrdered less data i n ∧ scanOrdered less data i n ≤ i + n ∧
      SortedRange key data a (scanOrdered less data i n) ∧
      (scanOrdered less data i n < i + n →
        keyAt key data (scanOrdered less data i n)
          < keyAt key data (scanOrdered less data i n - 1))
  | 0, i, _, _, hs => by
    unfold scanOrdered
    exact ⟨le_refl i, le_refl _, hs, fun h => by omega⟩
  | n + 1, i, hai, hlen, hs => by
    unfold scanOrdered
    have hL := Less_eq_keyAt less key hless data i (i - 1) (by omega) (by omega)
    by_cases hc : keyAt key data i < keyAt key data (i - 1)
    · have hcond : ¬ (!Less less data i (i - 1)) = true := by rw [hL]; simp [hc]
      rw [if_neg hcond]
      exact ⟨le_refl i, by omega, hs, fun _ => hc⟩
    · have hcond : (!Less less data i (i - 1)) = true := by rw [hL]; simp [hc]
      rw [if_pos hcond]
      have hs' : SortedRange key data a (i + 1) := by
        intro p q hap hpq hq
        by_cases hqi : q = i
        · subst hqi
          by_cases hp : p = q - 1
          · subst hp
            omega
          · have := hs p (q - 1) hap (by omega) (by omega)
            omega
        · exact hs p q hap hpq (by omega)
      obtain ⟨h1, h2, h3, h4⟩ :=
        scanOrdered_spec less key hless data a n (i + 1) (by omega) (by omega) hs'
      exact ⟨by omega, by omega, h3, fun h => h4 (by omega)⟩

theorem shiftLeft_eq_inner (less : α → α → Bool) (key : α → Int)
    (hless : ∀ x y, less x y = decide (key x < key y)) (a b : Nat) :
    ∀ (j : Nat) (data : List α), b ≤ data.length → PrevLE key data a b → a ≤ j → j < b →
      shiftLeft less data j = insertionSortInner less a data j
  | 0, data, _, _, _, _ => by
    unfold shiftLeft insertionSortInner
    rfl
  | j + 1, data, hb, hp, haj, hjb => by
    unfold shiftLeft insertionSortInner
    have hL := Less_eq_keyAt less key hless data (j + 1) j (by omega) (by omega)
    by_cases hc : keyAt key data (j + 1) < keyAt key data j
    · have hgt : j + 1 > a := by
        by_contra hle
        have e : a = j + 1 := by omega
        have := hp (j + 1) (by omega) (by omega) hjb
        rw [e] at this
        simp only [Nat.add_sub_cancel] at this
        omega
      have hc1 : ¬ (!Less less data (j + 1) j) = true := by rw [hL]; simp [hc]
      have hc2 : (decide (j + 1 > a) && Less less data (j + 1) j) = true := by
        rw [hL]; simp [hc, hgt]
      rw [if_neg hc1, if_pos hc2]
      have hsw : Swaps a b data (Swap data (j + 1) j) :=
        Swaps.swap data (j + 1) j (by omega) hjb (by omega) (by omega)
      exact shiftLeft_eq_inner less key hless a b j _ (by rw [length_Swap]; exact hb)
        (hsw.prevLE key hp) (by omega) (by omega)
    · have hc1 : (!Less less data (j + 1) j) = true := by rw [hL]; simp [hc]
      have hc2 : ¬ (decide (j + 1 > a) && Less less data (j + 1) j) = true := by
        rw [hL]; simp [hc]
      rw [if_pos hc1, if_neg hc2]

theorem shiftRight_swaps (less : α → α → Bool) (lo b : Nat) :
    ∀ (n j : Nat) (data : List α), lo < j → j + n ≤ b →
      Swaps lo b data (shiftRight less data j n)
  | 0, j, data, _, _ => by
    unfold shiftRight
    exact Swaps.refl _
  | n + 1, j, data, hlo, hjb => by
    unfold shiftRight
    split
    · exact Swaps.refl _
    · exact Swaps.step data _ j (j - 1) (by omega) (by omega) (by omega) (by omega)
        (shiftRight_swaps less lo b n (j + 1) _ (by omega) (by omega))

theorem partialInsertionSortLoop_spec (less : α → α → Bool) (key : α → Int)
    (hless : ∀ x y, less x y = decide (key x < key y)) (a b : Nat) :
    ∀ (steps : Nat) (data : List α) (i : Nat), a < i → i ≤ b → b ≤ data.length →
      PrevLE key data a b → SortedRange key data a i →
      Swaps a b data (partialInsertionSortLoop less a b data i steps).1 ∧
      ((partialInsertionSortLoop less a b data i steps).2 = true →
        SortedRange key (partialInsertionSortLoop less a b data i steps).1 a b)
  | 0, data, i, _, _, _, _, _ => by
    unfold partialInsertionSortLoop
    exact ⟨Swaps.refl _, fun h => by simp at h⟩
  | steps + 1, data, i, hai, hib, hb, hp, hs => by
    unfold partialInsertionSortLoop
    simp only
    obtain ⟨s1, s2, s3, s4⟩ :=
      scanOrdered_spec less key hless data a (b - i) i hai (by omega) hs
    generalize scanOrdered less data i (b - i) = i' at s1 s2 s3 s4 ⊢
    by_cases hi'b : i' = b
    · rw [if_pos hi'b]
      subst hi'b
      exact ⟨Swaps.refl _, fun _ => s3⟩
    · rw [if_neg hi'b]
      by_cases h50 : b - a < 50
      · rw [if_pos h50]
        exact ⟨Swaps.refl _, fun h => by simp at h⟩
      · rw [if_neg h50]
        have hsw1 : Swaps a b data (Swap data i' (i' - 1)) :=
          Swaps.swap data i' (i' - 1) (by omega) (by omega) (by omega) (by omega)
        have hs1 : SortedRange key (Swap data i' (i' - 1)) a (i' - 1) := by
          apply SortedRange.congr key (fun p q h1 h2 h3 => s3 p q h1 h2 (by omega))
          intro k _ hk
          rw [keyAt_Swap key data i' (i' - 1) k (by omega) (by omega)]
          have e1 : k ≠ i' - 1 := by omega
          have e2 : k ≠ i' := by omega
          simp only [e1, e2, if_false]
        have hlen1 : b ≤ (Swap data i' (i' - 1)).length := by rw [length_Swap]; exact hb
        generalize Swap data i' (i' - 1) = d1 at hsw1 hs1 hlen1 ⊢
        have hp1 : PrevLE key d1 a b := hsw1.prevLE key hp
        have h2 : Swaps a b d1 (if i' - a ≥ 2 then shiftLeft less d1 (i' - 1) else d1) ∧
            SortedRange key (if i' - a ≥ 2 then shiftLeft less d1 (i' - 1) else d1) a i' := by
          by_cases hge : i' - a ≥ 2
          · rw [if_pos hge]
            rw [shiftLeft_eq_inner less key hless a b (i' - 1) d1 hlen1 hp1 (by omega) (by omega)]
            have hin := insertionSortInner_spec less key hless a (i' - 1) (i' - 1) d1 (by omega)
              (le_refl _) (by omega)
              (fun p q h1 h2 h3 h4 h5 => hs1 p q h1 h2 (by omega))
              (fun q h1 h2 => by omega)
            have e : i' - 1 + 1 = i' := by omega
            rw [e] at hin
            exact ⟨hin.1.mono (le_refl a) (by omega), hin.2⟩
          · rw [if_neg hge]
            exact ⟨Swaps.refl _, fun p q h1 h2 h3 => by omega⟩
        generalize (if i' - a ≥ 2 then shiftLeft less d1 (i' - 1) else d1) = d2 at h2 ⊢
        have hlen2 : b ≤ d2.length := by rw [h2.1.length_eq]; exact hlen1
        have h3 : Swaps i' b d2
            (if b - i' ≥ 2 then shiftRight less d2 (i' + 1) (b - (i' + 1)) else d2) := by
          by_cases hge : b - i' ≥ 2
          · rw [if_pos hge]
            exact shiftRight_swaps less i' b _ (i' + 1) d2 (by omega) (by omega)
          · rw [if_neg hge]
            exact Swaps.refl _
        generalize (if b - i' ≥ 2 then shiftRight less d2 (i' + 1) (b - (i' + 1)) else d2) = d3
          at h3 ⊢
        have hlen3 : b ≤ d3.length := by rw [h3.length_eq]; exact hlen2
        have hsw3 : Swaps a b data d3 :=
          (hsw1.trans h2.1).trans (h3.mono (by omega) (le_refl b))
        have hs3 : SortedRange key d3 a i' :=
          SortedRange.congr key h2.2 (fun k _ hk => h3.keyAt_frame key k (Or.inl hk))
        obtain ⟨r1, r2⟩ := partialInsertionSortLoop_spec less key hless a b steps d3 i' (by omega)
          (by omega) hlen3 (hsw3.prevLE key hp) hs3
        exact ⟨hsw3.trans r1, r2⟩

theorem partialInsertionSort_func_spec (less : α → α → Bool) (key : α → Int)
    (hless : ∀ x y, less x y = decide (key x < key y)) (data : List α) (a b : Nat)
    (hab : a < b) (hb : b ≤ data.length) (hp : PrevLE key data a b) :
    Swaps a b data (partialInsertionSort_func less data a b).1 ∧
    ((partialInsertionSort_func less data a b).2 = true →
      SortedRange key (partialInsertionSort_func less data a b).1 a b) :=
  partialInsertionSortLoop_spec less key hless a b 5 data (a + 1) (by omega) (by omega) hb hp
    (fun p q h1 h2 h3 => by omega)

end GoSort

/-! ### `sort.Slice` sorts: heap sort -/

namespace GoSort
variable {α : Type}

theorem siftDown_func_spec (less : α → α → Bool) (key : α → Int)
    (hless : ∀ x y, less x y = decide (key x < key y)) (hi first lo : Nat) :
    ∀ (fuel : Nat) (data : List α) (root : Nat), first + hi ≤ data.length → hi ≤ root + fuel →
      lo ≤ root → SiftInv key data first lo hi root →
      Swaps first (first + hi) data (siftDown_func less hi first data root fuel) ∧
        HeapFrom key (siftDown_func less hi first data root fuel) first lo hi
  | 0, data, root, _, hfuel, _, hinv => by
    unfold siftDown_func
    refine ⟨Swaps.refl _, ?_⟩
    intro c hc0 hch hlo
    exact hinv.1 c hc0 hch hlo (by omega)
  | fuel + 1, data, root, hlen, hfuel, hlo, hinv => by
    unfold siftDown_func
    simp only
    by_cases hch : 2 * root + 1 ≥ hi
    · rw [if_pos hch]
      refine ⟨Swaps.refl _, ?_⟩
      intro c hc0 hc hl
      exact hinv.1 c hc0 hc hl (by omega)
    · rw [if_neg hch]
      have hL1 := Less_eq_keyAt less key hless data (first + (2 * root + 1))
        (first + (2 * root + 1) + 1)
      -- the larger child
      have hm : ∃ m, (if (decide (2 * root + 1 + 1 < hi) &&
            Less less data (first + (2 * root + 1)) (first + (2 * root + 1) + 1)) = true
            then 2 * root + 1 + 1 else 2 * root + 1) = m ∧
          (m = 2 * root + 1 ∨ m = 2 * root + 2) ∧ m < hi ∧
          (∀ c, 0 < c → c < hi → (c - 1) / 2 = root →
            keyAt key data (first + c) ≤ keyAt key data (first + m)) := by
        by_cases h2 : 2 * root + 1 + 1 < hi
        · have hL := hL1 (by omega) (by omega)
          by_cases hk : keyAt key data (first + (2 * root + 1))
              < keyAt key data (first + (2 * root + 1) + 1)
          · refine ⟨2 * root + 1 + 1, ?_, Or.inr rfl, h2, ?_⟩
            · rw [hL]
              simp [h2, hk]
            · intro c hc0 hc hpar
              have : c = 2 * root + 1 ∨ c = 2 * root + 2 := by omega
              rcases this with e | e
              · subst e
                have e' : first + (2 * root + 1 + 1) = first + (2 * root + 1) + 1 := by omega
                rw [e']
                omega
              · subst e
                exact le_refl _
          · refine ⟨2 * root + 1, ?_, Or.inl rfl, by omega, ?_⟩
            · rw [hL]
              simp [hk]
            · intro c hc0 hc hpar
              have : c = 2 * root + 1 ∨ c = 2 * root + 2 := by omega
              rcases this with e | e
              · subst e
                exact le_refl _
              · subst e
                have e' : first + (2 * root + 2) = first + (2 * root + 1) + 1 := by omega
                rw [e']
                omega
        · refine ⟨2 * root + 1, ?_, Or.inl rfl, by omega, ?_⟩
          · simp [h2]
          · intro c hc0 hc hpar
            have : c = 2 * root + 1 := by omega
            subst this
            exact le_refl _
      obtain ⟨m, hmeq, hmc, hmhi, hmax⟩ := hm
      rw [hmeq]
      have hL2 := Less_eq_keyAt less key hless data (first + root) (first + m) (by omega)
        (by omega)
      by_cases hk : keyAt key data (first + root) < keyAt key data (first + m)
      · have hcond : ¬ (!Less less data (first + root) (first + m)) = true := by
          rw [hL2]; simp [hk]
        rw [if_neg hcond]
        have hK := keyAt_Swap key data (first + root) (first + m)
        have hlen' : first + hi ≤ (Swap data (first + root) (first + m)).length := by
          rw [length_Swap]; exact hlen
        have hinv' : SiftInv key (Swap data (first + root) (first + m)) first lo hi m := by
          constructor
          · intro c hc0 hc hl hpm
            rw [hK (first + c) (by omega) (by omega), hK (first + (c - 1) / 2) (by omega) (by omega)]
            have e1 : first + (c - 1) / 2 ≠ first + m := by omega
            simp only [e1, if_false]
            by_cases hpr : (c - 1) / 2 = root
            · have e2 : first + (c - 1) / 2 = first + root := by omega
              have e3 : first + c ≠ first + root := by omega
              simp only [e2, e3, if_true, if_false]
              by_cases hcm : c = m
              · subst hcm
                simp only [if_true]
                omega
              · have e4 : first + c ≠ first + m := by omega
                simp only [e4, if_false]
                exact hmax c hc0 hc hpr
            · have e2 : first + (c - 1) / 2 ≠ first + root := by omega
              have e3 : first + c ≠ first + m := by omega
              simp only [e2, e3, if_false]
              by_cases hcr : c = root
              · subst hcr
                simp only [if_true]
                exact hinv.2 m (by omega) hmhi (by omega) hc0 hl
              · have e4 : first + c ≠ first + c - c + root := by omega
                have e5 : first + c ≠ first + root := by omega
                simp only [e5, if_false]
                exact hinv.1 c hc0 hc hl hpr
          · intro c hc0 hc hpar hm0 hl
            rw [hK (first + c) (by omega) (by omega), hK (first + (m - 1) / 2) (by omega) (by omega)]
            have e0 : (m - 1) / 2 = root := by omega
            have e1 : first + (m - 1) / 2 ≠ first + m := by omega
            have e2 : first + (m - 1) / 2 = first + root := by omega
            have e3 : first + c ≠ first + m := by omega
            have e4 : first + c ≠ first + root := by omega
            have e5 : first + root ≠ first + m := by omega
            simp only [e1, e2, e3, e4, e5, if_true, if_false]
            have := hinv.1 c hc0 hc (by omega) (by omega)
            rw [hpar] at this
            exact this
        obtain ⟨r1, r2⟩ := siftDown_func_spec less key hless hi first lo fuel
          (Swap data (first + root) (first + m)) m hlen' (by omega) (by omega) hinv'
        exact ⟨Swaps.step data _ (first + root) (first + m) (by omega) (by omega) (by omega)
          (by omega) r1, r2⟩
      · have hcond : (!Less less data (first + root) (first + m)) = true := by
          rw [hL2]; simp [hk]
        rw [if_pos hcond]
        refine ⟨Swaps.refl _, ?_⟩
        intro c hc0 hc hl
        by_cases hpr : (c - 1) / 2 = root
        · rw [hpr]
          have := hmax c hc0 hc hpr
          omega
        · exact hinv.1 c hc0 hc hl hpr

theorem heapSortBuild_spec (less : α → α → Bool) (key : α → Int)
    (hless : ∀ x y, less x y = decide (key x < key y)) (hi first : Nat) :
    ∀ (n : Nat) (data : List α), first + hi ≤ data.length → HeapFrom key data first n hi →
      Swaps first (first + hi) data (heapSortBuild less hi first data n) ∧
        HeapFrom key (heapSortBuild less hi first data n) first 0 hi
  | 0, data, _, hh => by
    unfold heapSortBuild
    exact ⟨Swaps.refl _, hh⟩
  | i + 1, data, hlen, hh => by
    unfold heapSortBuild
    have hinv : SiftInv key data first i hi i :=
      ⟨fun c hc0 hc hl hne => hh c hc0 hc (by omega), fun c hc0 hc hpar hi0 hl => by omega⟩
    obtain ⟨s1, s2⟩ := siftDown_func_spec less key hless hi first i hi data i hlen (by omega)
      (le_refl i) hinv
    have hlen' : first + hi ≤ (siftDown_func less hi first data i hi).length := by
      rw [s1.length_eq]; exact hlen
    obtain ⟨r1, r2⟩ := heapSortBuild_spec less key hless hi first i _ hlen' s2
    exact ⟨s1.trans r1, r2⟩

/-- The root of a heap carries the largest key. -/
theorem HeapFrom.root_max (key : α → Int) (data : List α) (first hi : Nat)
    (hh : HeapFrom key data first 0 hi) :
    ∀ c, c < hi → keyAt key data (first + c) ≤ keyAt key data (first + 0) := by
  intro c
  induction c using Nat.strong_induction_on with
  | _ c ih =>
    intro hc
    by_cases hc0 : c = 0
    · subst hc0
      exact le_refl _
    · have h1 := hh c (by omega) hc (by omega)
      have h2 := ih ((c - 1) / 2) (by omega) (by omega)
      omega

theorem heapSortPop_spec (less : α → α → Bool) (key : α → Int)
    (hless : ∀ x y, less x y = decide (key x < key y)) (first total : Nat) :
    ∀ (n : Nat) (data : List α), n ≤ total → first + total ≤ data.length →
      HeapFrom key data first 0 n → SortedRange key data (first + n) (first + total) →
      (∀ x y, x < n → n ≤ y → y < total →
        keyAt key data (first + x) ≤ keyAt key data (first + y)) →
      Swaps first (first + total) data (heapSortPop less first data n) ∧
        SortedRange key (heapSortPop less first data n) first (first + total)
  | 0, data, _, _, _, hs, _ => by
    unfold heapSortPop
    exact ⟨Swaps.refl _, hs⟩
  | i + 1, data, hn, hlen, hh, hs, hx => by
    unfold heapSortPop
    have hK := keyAt_Swap key data first (first + i)
    have hmax := HeapFrom.root_max key data first (i + 1) hh
    have hsw : Swaps first (first + total) data (Swap data first (first + i)) :=
      Swaps.swap data first (first + i) (le_refl _) (by omega) (by omega) (by omega)
    have hlen1 : first + total ≤ (Swap data first (first + i)).length := by
      rw [length_Swap]; exact hlen
    have hinv : SiftInv key (Swap data first (first + i)) first 0 i 0 := by
      constructor
      · intro c hc0 hc _ hp
        rw [hK (first + c) (by omega) (by omega), hK (first + (c - 1) / 2) (by omega) (by omega)]
        have e1 : first + c ≠ first + i := by omega
        have e2 : first + c ≠ first := by omega
        have e3 : first + (c - 1) / 2 ≠ first + i := by omega
        have e4 : first + (c - 1) / 2 ≠ first := by omega
        simp only [e1, e2, e3, e4, if_false]
        exact hh c hc0 (by omega) (by omega)
      · intro c _ _ _ h0 _
        omega
    obtain ⟨s1, s2⟩ := siftDown_func_spec less key hless i first 0 i
      (Swap data first (first + i)) 0 (by omega) (by omega) (le_refl 0) hinv
    -- keys of the exchanged slice
    have hKi : keyAt key (Swap data first (first + i)) (first + i) = keyAt key data (first + 0) := by
      rw [hK (first + i) (by omega) (by omega)]
      simp
    have hKy : ∀ y, i < y → keyAt key (Swap data first (first + i)) (first + y)
        = keyAt key data (first + y) := by
      intro y hy
      rw [hK (first + y) (by omega) (by omega)]
      have e1 : first + y ≠ first + i := by omega
      have e2 : first + y ≠ first := by omega
      simp only [e1, e2, if_false]
    have hKx : ∀ x, x < i → ∃ x', x' < i + 1 ∧
        keyAt key (Swap data first (first + i)) (first + x) = keyAt key data (first + x') := by
      intro x hxi
      rw [hK (first + x) (by omega) (by omega)]
      have e1 : first + x ≠ first + i := by omega
      simp only [e1, if_false]
      by_cases hx0 : x = 0
      · subst hx0
        exact ⟨i, by omega, by simp⟩
      · have e2 : first + x ≠ first := by omega
        simp only [e2, if_false]
        exact ⟨x, by omega, rfl⟩
    generalize Swap data first (first + i) = d1 at hsw hlen1 hinv s1 s2 hKi hKy hKx ⊢
    generalize siftDown_func less i first d1 0 i = d2 at s1 s2 ⊢
    have hlen2 : first + total ≤ d2.length := by rw [s1.length_eq]; exact hlen1
    have hf : ∀ k, first + i ≤ k → keyAt key d2 k = keyAt key d1 k :=
      fun k hk => s1.keyAt_frame key k (Or.inr hk)
    have hs2 : SortedRange key d2 (first + i) (first + total) := by
      intro p q hp hpq hq
      rw [hf p hp, hf q (by omega)]
      have eq : q = first + (q - first) := by omega
      rw [eq, hKy (q - first) (by omega)]
      by_cases hpi : p = first + i
      · rw [hpi, hKi]
        exact hx 0 (q - first) (by omega) (by omega) (by omega)
      · have ep : p = first + (p - first) := by omega
        rw [ep, hKy (p - first) (by omega), ← ep, ← eq]
        exact hs p q (by omega) hpq hq
    have hx2 : ∀ x y, x < i → i ≤ y → y < total →
        keyAt key d2 (first + x) ≤ keyAt key d2 (first + y) := by
      intro x y hxi hiy hyt
      rw [hf (first + y) (by omega)]
      obtain ⟨x1, h1, h2, h3⟩ := s1.keyAt_content key (first + x) (by omega) (by omega)
      rw [h3]
      have ex1 : x1 = first + (x1 - first) := by omega
      obtain ⟨x', hx'1, hx'2⟩ := hKx (x1 - first) (by omega)
      rw [ex1, hx'2]
      by_cases hyi : y = i
      · rw [hyi, hKi]
        exact hmax x' hx'1
      · rw [hKy y (by omega)]
        exact hx x' y hx'1 (by omega) hyt
    obtain ⟨r1, r2⟩ := heapSortPop_spec less key hless first total i d2 (by omega) hlen2 s2 hs2 hx2
    exact ⟨(hsw.trans (s1.mono (le_refl _) (by omega))).trans r1, r2⟩

theorem heapSort_func_spec (less : α → α → Bool) (key : α → Int)
    (hless : ∀ x y, less x y = decide (key x < key y)) (data : List α) (a b : Nat)
    (hab : a ≤ b) (hb : b ≤ data.length) :
    Swaps a b data (heapSort_func less data a b) ∧
      SortedRange key (heapSort_func less data a b) a b := by
  unfold heapSort_func
  simp only
  have hh : HeapFrom key data a ((b - a - 1) / 2 + 1) (b - a) := by
    intro c hc0 hc hl
    omega
  obtain ⟨s1, s2⟩ := heapSortBuild_spec less key hless (b - a) a ((b - a - 1) / 2 + 1) data
    (by omega) hh
  generalize heapSortBuild less (b - a) a data ((b - a - 1) / 2 + 1) = d1 at s1 s2 ⊢
  have hlen1 : a + (b - a) ≤ d1.length := by rw [s1.length_eq]; omega
  obtain ⟨r1, r2⟩ := heapSortPop_spec less key hless a (b - a) (b - a) d1 (le_refl _) hlen1 s2
    (fun p q h1 h2 h3 => by omega) (fun x y h1 h2 h3 => by omega)
  have e : a + (b - a) = b := by omega
  rw [e] at s1 r1 r2
  exact ⟨s1.trans r1, r2⟩

end GoSort

/-! ### `sort.Slice` sorts: the quicksort loop -/

namespace GoSort
variable {α : Type}

/-- A range partitioned around `mid` whose two sides are sorted is sorted. -/
theorem sorted_of_parts (key : α → Int) (d₄ d₆ : List α) (a b mid : Nat)
    (hlo : ∀ k, a ≤ k → k < mid → keyAt key d₄ k < keyAt key d₄ mid)
    (hhi : ∀ k, mid < k → k < b → keyAt key d₄ mid ≤ keyAt key d₄ k)
    (hmid : keyAt key d₆ mid = keyAt key d₄ mid)
    (hL : ∀ k, a ≤ k → k < mid → ∃ k', a ≤ k' ∧ k' < mid ∧ keyAt key d₆ k = keyAt key d₄ k')
    (hR : ∀ k, mid < k → k < b → ∃ k', mid < k' ∧ k' < b ∧ keyAt key d₆ k = keyAt key d₄ k')
    (hsL : SortedRange key d₆ a mid) (hsR : SortedRange key d₆ (mid + 1) b) :
    SortedRange key d₆ a b := by
  intro p q hap hpq hqb
  by_cases hq : q < mid
  · exact hsL p q hap hpq hq
  · by_cases hp : mid < p
    · exact hsR p q (by omega) hpq hqb
    · -- p ≤ mid ≤ q
      have hpk : keyAt key d₆ p ≤ keyAt key d₄ mid := by
        by_cases hpm : p = mid
        · rw [hpm, hmid]
        · obtain ⟨k', h1, h2, h3⟩ := hL p hap (by omega)
          rw [h3]
          exact le_of_lt (hlo k' h1 h2)
      have hqk : keyAt key d₄ mid ≤ keyAt key d₆ q := by
        by_cases hqm : q = mid
        · rw [hqm, hmid]
        · obtain ⟨k', h1, h2, h3⟩ := hR q (by omega) hqb
          rw [h3]
          exact hhi k' h1 h2
      omega

theorem pdqsort_func_spec (less : α → α → Bool) (key : α → Int)
    (hless : ∀ x y, less x y = decide (key x < key y)) :
    ∀ (fuel : Nat) (data : List α) (a b limit : Nat) (wasBalanced wasPartitioned : Bool),
      a ≤ b → b ≤ data.length → b - a ≤ fuel → PrevLE key data a b →
      Swaps a b data (pdqsort_func less fuel data a b limit wasBalanced wasPartitioned) ∧
        SortedRange key (pdqsort_func less fuel data a b limit wasBalanced wasPartitioned) a b
  | 0, data, a, b, limit, wb, wp, _, hb, _, _ => by
    unfold pdqsort_func
    exact insertionSort_func_spec less key hless data a b hb
  | fuel + 1, data, a, b, limit, wb, wp, hab, hb, hfuel, hp => by
    unfold pdqsort_func
    simp only
    by_cases h12 : b - a ≤ 12
    · rw [if_pos h12]
      exact insertionSort_func_spec less key hless data a b hb
    · rw [if_neg h12]
      by_cases hlim : limit = 0
      · rw [if_pos hlim]
        exact heapSort_func_spec less key hless data a b hab hb
      · rw [if_neg hlim]
        have hd1 : Swaps a b data (if (!wb) = true then breakPatterns_func data a b else data) := by
          split
          · exact breakPatterns_func_swaps _ _ _
          · exact Swaps.refl _
        generalize (if (!wb) = true then breakPatterns_func data a b else data) = d1 at hd1 ⊢
        generalize (if (!wb) = true then limit - 1 else limit) = limit1
        have hpiv := choosePivot_func_range less d1 a b (by omega)
        generalize choosePivot_func less d1 a b = ph at hpiv ⊢
        have hd2 : Swaps a b data (if decide (ph.2 = sortedHint.decreasingHint) = true then
            reverseRange_func d1 a b else d1) := by
          split
          · exact hd1.trans (reverseRange_func_swaps _ _ _)
          · exact hd1
        generalize (if decide (ph.2 = sortedHint.decreasingHint) = true then
            reverseRange_func d1 a b else d1) = d2 at hd2 ⊢
        have hpivot : a ≤ (if decide (ph.2 = sortedHint.decreasingHint) = true then
            b - 1 - (ph.1 - a) else ph.1) ∧
            (if decide (ph.2 = sortedHint.decreasingHint) = true then
            b - 1 - (ph.1 - a) else ph.1) < b := by
          split <;> omega
        generalize (if decide (ph.2 = sortedHint.decreasingHint) = true then
            b - 1 - (ph.1 - a) else ph.1) = pivot at hpivot ⊢
        generalize (if decide (ph.2 = sortedHint.decreasingHint) = true then
            sortedHint.increasingHint else ph.2) = hint
        have hlen2 : b ≤ d2.length := by rw [hd2.length_eq]; exact hb
        have hps : Swaps a b data (if (wb && wp && decide (hint = sortedHint.increasingHint)) = true
            then partialInsertionSort_func less d2 a b else (d2, false)).1 ∧
            ((if (wb && wp && decide (hint = sortedHint.increasingHint)) = true
            then partialInsertionSort_func less d2 a b else (d2, false)).2 = true →
            SortedRange key (if (wb && wp && decide (hint = sortedHint.increasingHint)) = true
            then partialInsertionSort_func less d2 a b else (d2, false)).1 a b) := by
          split
          · have := partialInsertionSort_func_spec less key hless d2 a b (by omega) hlen2
              (hd2.prevLE key hp)
            exact ⟨hd2.trans this.1, this.2⟩
          · exact ⟨hd2, fun h => by simp at h⟩
        generalize (if (wb && wp && decide (hint = sortedHint.increasingHint)) = true
            then partialInsertionSort_func less d2 a b else (d2, false)) = ps at hps ⊢
        by_cases hdone : ps.2 = true
        · rw [if_pos hdone]
          exact ⟨hps.1, hps.2 hdone⟩
        · rw [if_neg hdone]
          obtain ⟨hd3, -⟩ := hps
          generalize ps.1 = d3 at hd3 ⊢
          have hlen3 : b ≤ d3.length := by rw [hd3.length_eq]; exact hb
          have hp3 : PrevLE key d3 a b := hd3.prevLE key hp
          by_cases heq : (decide (a > 0) && !Less less d3 (a - 1) pivot) = true
          · rw [if_pos heq]
            simp only [Bool.and_eq_true, decide_eq_true_eq, Bool.not_eq_true',
              Less_eq_keyAt less key hless d3 (a - 1) pivot (by omega) (by omega),
              decide_eq_false_iff_not] at heq
            obtain ⟨ha0, hnl⟩ := heq
            have hlow : ∀ k, a ≤ k → k < b → keyAt key d3 pivot ≤ keyAt key d3 k := by
              intro k hak hkb
              have := hp3 k ha0 hak hkb
              omega
            obtain ⟨e1, e2, e3, e4, e5⟩ :=
              partitionEqual_func_spec less key hless d3 a b pivot hlen3 hpivot.1 hpivot.2
            generalize partitionEqual_func less d3 a b pivot = pe at e1 e2 e3 e4 e5 ⊢
            have hlen4 : b ≤ pe.1.length := by rw [e1.length_eq]; exact hlen3
            have hlow4 := e1.lower key _ hlow
            have hp4 : PrevLE key pe.1 pe.2 b := by
              intro m _ hm hmb
              have h1 := e4 (pe.2 - 1) (by omega) (by omega)
              have h2 := e5 m hm hmb
              omega
            obtain ⟨r1, r2⟩ := pdqsort_func_spec less key hless fuel pe.1 pe.2 b limit1 wb wp e3
              hlen4 (by omega) hp4
            refine ⟨(hd3.trans e1).trans (r1.mono (by omega) (le_refl b)), ?_⟩
            intro p q hap hpq hqb
            by_cases hpm : p < pe.2
            · rw [r1.keyAt_frame key p (Or.inl hpm)]
              have hpk := e4 p hap hpm
              by_cases hqm : q < pe.2
              · rw [r1.keyAt_frame key q (Or.inl hqm)]
                have := hlow4 q (by omega) hqb
                omega
              · obtain ⟨q', h1, h2, h3⟩ := r1.keyAt_content key q (by omega) hqb
                rw [h3]
                have := e5 q' h1 h2
                omega
            · exact r2 p q (by omega) hpq hqb
          · rw [if_neg heq]
            obtain ⟨t1, t2, t3, t4, t5⟩ :=
              partition_func_spec less key hless d3 a b pivot hlen3 hpivot.1 hpivot.2
            generalize partition_func less d3 a b pivot = pt at t1 t2 t3 t4 t5 ⊢
            have hd4 : Swaps a b data pt.1 := hd3.trans t1
            have hlen4 : b ≤ pt.1.length := by rw [t1.length_eq]; exact hlen3
            have hp4 : PrevLE key pt.1 a b := hd4.prevLE key hp
            by_cases hlr : pt.2.1 - a < b - pt.2.1
            · rw [if_pos hlr]
              have hpL : PrevLE key pt.1 a pt.2.1 :=
                fun m h0 h1 h2 => hp4 m h0 h1 (by omega)
              obtain ⟨r1, r2⟩ := pdqsort_func_spec less key hless fuel pt.1 a pt.2.1 limit1 true
                true t2 (by omega) (by omega) hpL
              generalize pdqsort_func less fuel pt.1 a pt.2.1 limit1 true true = d5 at r1 r2 ⊢
              have hlen5 : b ≤ d5.length := by rw [r1.length_eq]; exact hlen4
              have hpR : PrevLE key d5 (pt.2.1 + 1) b := by
                intro m _ h1 h2
                rw [r1.keyAt_frame key m (Or.inr (by omega)),
                  r1.keyAt_frame key (pt.2.1 + 1 - 1) (Or.inr (by omega))]
                exact t5 m (by omega) h2
              obtain ⟨s1, s2⟩ := pdqsort_func_spec less key hless fuel d5 (pt.2.1 + 1) b limit1
                (decide (pt.2.1 - a ≥ (b - a) / 8)) pt.2.2 (by omega) hlen5 (by omega) hpR
              generalize pdqsort_func less fuel d5 (pt.2.1 + 1) b limit1
                (decide (pt.2.1 - a ≥ (b - a) / 8)) pt.2.2 = d6 at s1 s2 ⊢
              refine ⟨(hd4.trans (r1.mono (le_refl a) (by omega))).trans
                (s1.mono (by omega) (le_refl b)), ?_⟩
              apply sorted_of_parts key pt.1 d6 a b pt.2.1 t4 t5
              · rw [s1.keyAt_frame key _ (Or.inl (by omega)),
                  r1.keyAt_frame key _ (Or.inr (le_refl _))]
              · intro k hak hk
                rw [s1.keyAt_frame key k (Or.inl (by omega))]
                exact r1.keyAt_content key k hak hk
              · intro k hk hkb
                obtain ⟨k', h1, h2, h3⟩ := s1.keyAt_content key k (by omega) hkb
                exact ⟨k', by omega, h2, by rw [h3, r1.keyAt_frame key k' (Or.inr (by omega))]⟩
              · exact SortedRange.congr key r2
                  (fun k _ hk => s1.keyAt_frame key k (Or.inl (by omega)))
              · exact s2
            · rw [if_neg hlr]
              have hpR : PrevLE key pt.1 (pt.2.1 + 1) b := by
                intro m _ h1 h2
                exact t5 m (by omega) h2
              obtain ⟨r1, r2⟩ := pdqsort_func_spec less key hless fuel pt.1 (pt.2.1 + 1) b limit1
                true true (by omega) hlen4 (by omega) hpR
              generalize pdqsort_func less fuel pt.1 (pt.2.1 + 1) b limit1 true true = d5
                at r1 r2 ⊢
              have hlen5 : b ≤ d5.length := by rw [r1.length_eq]; exact hlen4
              have hd5 : Swaps a b data d5 := hd4.trans (r1.mono (by omega) (le_refl b))
              have hpL : PrevLE key d5 a pt.2.1 :=
                fun m h0 h1 h2 => (hd5.prevLE key hp) m h0 h1 (by omega)
              obtain ⟨s1, s2⟩ := pdqsort_func_spec less key hless fuel d5 a pt.2.1 limit1
                (decide (b - pt.2.1 ≥ (b - a) / 8)) pt.2.2 t2 (by omega) (by omega) hpL
              generalize pdqsort_func less fuel d5 a pt.2.1 limit1
                (decide (b - pt.2.1 ≥ (b - a) / 8)) pt.2.2 = d6 at s1 s2 ⊢
              refine ⟨hd5.trans (s1.mono (le_refl a) (by omega)), ?_⟩
              apply sorted_of_parts key pt.1 d6 a b pt.2.1 t4 t5
              · rw [s1.keyAt_frame key _ (Or.inr (le_refl _)),
                  r1.keyAt_frame key _ (Or.inl (by omega))]
              · intro k hak hk
                obtain ⟨k', h1, h2, h3⟩ := s1.keyAt_content key k hak hk
                exact ⟨k', h1, h2, by rw [h3, r1.keyAt_frame key k' (Or.inl (by omega))]⟩
              · intro k hk hkb
                rw [s1.keyAt_frame key k (Or.inr (by omega))]
                obtain ⟨k', h1, h2, h3⟩ := r1.keyAt_content key k (by omega) hkb
                exact ⟨k', by omega, h2, h3⟩
              · exact s2
              · exact SortedRange.congr key r2
                  (fun k hk _ => s1.keyAt_frame key k (Or.inr (by omega)))

end GoSort

/-! ### `sort.Slice` sorts: the entry point -/

namespace GoSort
variable {α : Type}

theorem keyAt_eq_getElem (key : α → Int) (data : List α) (k : Nat) (hk : k < data.length) :
    keyAt key data k = key data[k] := by
  unfold keyAt
  rw [List.getElem?_eq_getElem hk]

/-- For an element order that compares an integer key, `sort.Slice` returns its
input rearranged with the keys in non-decreasing order. -/
theorem Slice_sorted (less : α → α → Bool) (key : α → Int)
    (hless : ∀ x y, less x y = decide (key x < key y)) (x : List α) :
    (Slice less x).Pairwise (fun u v => key u ≤ key v) := by
  unfold Slice
  simp only
  obtain ⟨s1, s2⟩ := pdqsort_func_spec less key hless x.length x 0 x.length (bitsLen x.length)
    true true (Nat.zero_le _) (le_refl _) (by omega) (fun m h0 _ _ => absurd h0 (lt_irrefl 0))
  generalize pdqsort_func less x.length x 0 x.length (bitsLen x.length) true true = r at s1 s2 ⊢
  rw [List.pairwise_iff_getElem]
  intro i j hi hj hij
  have hlen := s1.length_eq
  have := s2 i j (Nat.zero_le _) hij (by omega)
  rw [keyAt_eq_getElem key r i hi, keyAt_eq_getElem key r j hj] at this
  exact this

end GoSort

/-! ### Sorting by version -/

theorem parseVersionLoop_eq (rest acc : List Char) :
    parseVersionLoop rest acc = acc ++ rest.takeWhile isDigit := by
  induction rest generalizing acc with
  | nil => simp [parseVersionLoop]
  | cons ch rest ih =>
    unfold parseVersionLoop
    by_cases h : isDigit ch = true
    · rw [if_pos h, ih, List.takeWhile_cons_of_pos h]
      simp
    · rw [if_neg h, List.takeWhile_cons_of_neg h]
      simp

theorem Atoi_digits (ds : List Char) (hds : ∀ c ∈ ds, isDigit c = true) :
    Atoi ds = if ds = [] ∨ (digitsValue ds : Int) > maxInt64 then none
      else some (digitsValue ds : Int) := by
  unfold Atoi
  have hd : ¬ isDigit '-' = true := by decide
  have hp : ¬ isDigit '+' = true := by decide
  have hneg : ¬ ds.head? = some '-' := fun e => hd (hds '-' (List.mem_of_mem_head? e))
  have hpos : ¬ ds.head? = some '+' := fun e => hp (hds '+' (List.mem_of_mem_head? e))
  have hall : ds.all isDigit = true := List.all_eq_true.mpr hds
  simp only [hneg, hpos, or_self, if_false, decide_False, Bool.false_eq_true, hall, or_false]
  by_cases he : ds = []
  · simp [he]
  · simp only [he, if_false, false_or]
    have h0 : ¬ ((digitsValue ds : Int) < minInt64) := by
      unfold minInt64
      omega
    simp [h0]

/-- What `parseVersion` computes: the value of the leading digit run when it
fits a 64-bit `int`, and 0 otherwise. -/
theorem parseVersion_eq (version : String) :
    parseVersion version =
      if (leadingDigitRunValue version : Int) ≤ maxInt64 then (leadingDigitRunValue version : Int)
      else 0 := by
  unfold parseVersion leadingDigitRunValue
  rw [parseVersionLoop_eq, List.nil_append,
    Atoi_digits _ (fun c hc => List.mem_takeWhile_imp hc)]
  by_cases he : version.data.takeWhile isDigit = []
  · simp [he, digitsValue, maxInt64]
  · by_cases hgt : (digitsValue (version.data.takeWhile isDigit) : Int) > maxInt64
    · have : ¬ (digitsValue (version.data.takeWhile isDigit) : Int) ≤ maxInt64 := by omega
      simp [he, hgt, this]
    · have : (digitsValue (version.data.takeWhile isDigit) : Int) ≤ maxInt64 := by omega
      simp [he, hgt, this]

theorem parseVersion_range (version : String) :
    0 ≤ parseVersion version ∧ parseVersion version ≤ maxInt64 := by
  rw [parseVersion_eq]
  split
  · constructor
    · omega
    · assumption
  · unfold maxInt64
    omega

theorem wrap64_parseVersion_sub (v w : String) :
    wrap64 (parseVersion v - parseVersion w) = parseVersion v - parseVersion w := by
  have h1 := parseVersion_range v
  have h2 := parseVersion_range w
  unfold maxInt64 at h1 h2
  exact wrap64_of_inRange _ (by omega) (by omega)

theorem artifactLess_version_asc (timeParse : String → Option Int) (x y : ArtifactEntry) :
    artifactLess timeParse "version" "asc" x y
      = decide (parseVersion x.Version < parseVersion y.Version) := by
  unfold artifactLess compareValue
  simp only [if_true, wrap64_parseVersion_sub]
  congr 1
  apply propext
  constructor <;> intro h <;> omega

theorem artifactLess_version_desc (timeParse : String → Option Int) (sortOrder : String)
    (h : sortOrder ≠ "asc") (x y : ArtifactEntry) :
    artifactLess timeParse "version" sortOrder x y
      = decide (-parseVersion x.Version < -parseVersion y.Version) := by
  unfold artifactLess compareValue
  simp only [h, if_true, if_false, wrap64_parseVersion_sub]
  congr 1
  apply propext
  constructor <;> intro h <;> omega

theorem SortArtifacts_version (timeParse : String → Option Int) (artifacts : List ArtifactEntry)
    (sortOrder : String) :
    SortArtifacts timeParse artifacts "version" sortOrder
      = GoSort.Slice (artifactLess timeParse "version" (if sortOrder = "" then "desc" else sortOrder))
          artifacts := by
  unfold SortArtifacts
  have h : ¬ ("version" : String) = "" := by decide
  simp only [h, if_false]

theorem SortArtifacts_empty_sortBy (timeParse : String → Option Int)
    (artifacts : List ArtifactEntry) (sortOrder : String) :
    SortArtifacts timeParse artifacts "" sortOrder
      = SortArtifacts timeParse artifacts "version" sortOrder := by
  unfold SortArtifacts
  have h : ¬ ("version" : String) = "" := by decide
  simp only [h, if_true, if_false]

/-- C6 (as amended): with `sortBy` equal to `version` (or empty), `SortArtifacts`
returns a permutation of its input whose versions, read by `parseVersion` (the
value of the leading digit run when it fits a 64-bit integer, 0 otherwise), are
non-decreasing when `sortOrder` is `asc` and non-increasing for every other
`sortOrder`; versions 100, 50, 200 give 200, 100, 50 descending and 50, 100,
200 ascending. -/
theorem SortArtifacts_version_sorted (timeParse : String → Option Int)
    (artifacts : List ArtifactEntry) (sortOrder : String) :
    (SortArtifacts timeParse artifacts "version" sortOrder).Perm artifacts ∧
    SortArtifacts timeParse artifacts "" sortOrder
      = SortArtifacts timeParse artifacts "version" sortOrder ∧
    (sortOrder = "asc" →
      (SortArtifacts timeParse artifacts "version" sortOrder).Pairwise
        (fun x y => parseVersion x.Version ≤ parseVersion y.Version)) ∧
    (sortOrder ≠ "asc" →
      (SortArtifacts timeParse artifacts "version" sortOrder).Pairwise
        (fun x y => parseVersion y.Version ≤ parseVersion x.Version)) ∧
    (∀ version : String, parseVersion version =
      if (leadingDigitRunValue version : Int) ≤ 9223372036854775807
      then (leadingDigitRunValue version : Int) else 0) ∧
    (SortArtifacts (fun _ => none) exampleVersions "version" "desc").map (fun e => e.Version)
      = ["200", "100", "50"] ∧
    (SortArtifacts (fun _ => none) exampleVersions "version" "").map (fun e => e.Version)
      = ["200", "100", "50"] ∧
    (SortArtifacts (fun _ => none) exampleVersions "version" "asc").map (fun e => e.Version)
      = ["50", "100", "200"] := by
  refine ⟨?_, SortArtifacts_empty_sortBy _ _ _, ?_, ?_, parseVersion_eq, by decide, by decide,
    by decide⟩
  · rw [SortArtifacts_version]
    exact GoSort.Slice_perm _ _
  · intro h
    rw [SortArtifacts_version]
    have h' : (if sortOrder = "" then "desc" else sortOrder) = "asc" := by
      subst h
      decide
    rw [h']
    have hl : ∀ x y : ArtifactEntry, artifactLess timeParse "version" "asc" x y
        = decide ((fun e : ArtifactEntry => parseVersion e.Version) x
            < (fun e : ArtifactEntry => parseVersion e.Version) y) :=
      artifactLess_version_asc timeParse
    exact GoSort.Slice_sorted (artifactLess timeParse "version" "asc")
      (fun e => parseVersion e.Version) hl artifacts
  · intro h
    rw [SortArtifacts_version]
    have h' : (if sortOrder = "" then "desc" else sortOrder) ≠ "asc" := by
      split
      · decide
      · exact h
    have hl : ∀ x y : ArtifactEntry,
        artifactLess timeParse "version" (if sortOrder = "" then "desc" else sortOrder) x y
        = decide ((fun e : ArtifactEntry => -parseVersion e.Version) x
            < (fun e : ArtifactEntry => -parseVersion e.Version) y) :=
      artifactLess_version_desc timeParse _ h'
    have hs := GoSort.Slice_sorted
      (artifactLess timeParse "version" (if sortOrder = "" then "desc" else sortOrder))
      (fun e => -parseVersion e.Version) hl artifacts
    refine List.Pairwise.imp ?_ hs
    intro x y hxy
    omega

/-- C6 (counterexample): sorting the versions `99999999999999999999` and `5`
by version, descending, puts `5` first, because `parseVersion` reads the
20-digit run as 0; the value of the leading digit run then increases along the
result. Ascending order keeps `99999999999999999999` before `5`. -/
theorem SortArtifacts_version_overflow_misordered :
    (SortArtifacts (fun _ => none) overflowEntries "version" "desc").map (fun e => e.Version)
      = ["5", "99999999999999999999"] ∧
    (SortArtifacts (fun _ => none) overflowEntries "version" "asc").map (fun e => e.Version)
      = ["99999999999999999999", "5"] ∧
    leadingDigitRunValue "5" = 5 ∧
    leadingDigitRunValue "99999999999999999999" = 99999999999999999999 ∧
    parseVersion "99999999999999999999" = 0 := by
  refine ⟨by decide, by decide, by decide, by decide, by decide⟩

/-! ### Stability of short sorts -/

namespace GoSort
variable {α : Type}

theorem Swap_cons_succ (h : α) (t : List α) (i j : Nat) :
    Swap (h :: t) (i + 1) (j + 1) = h :: Swap t i j := by
  unfold Swap
  simp only [List.getElem?_cons_succ]
  cases t[i]? with
  | none => rfl
  | some x =>
    cases t[j]? with
    | none => rfl
    | some y => simp

theorem filter_Swap_adjacent (p : α → Bool) :
    ∀ (data : List α) (j : Nat),
      (∀ x y, data[j]? = some x → data[j + 1]? = some y → ¬ (p x = true ∧ p y = true)) →
      (Swap data (j + 1) j).filter p = data.filter p
  | [], j, _ => by simp [Swap]
  | [h], 0, _ => by simp [Swap]
  | h :: y :: t, 0, hxy => by
    have := hxy h y (by simp) (by simp)
    have e : Swap (h :: y :: t) (0 + 1) 0 = y :: h :: t := by simp [Swap]
    rw [e]
    simp only [List.filter_cons]
    cases hh : p h <;> cases hy : p y <;> simp_all
  | h :: t, j + 1, hxy => by
    rw [Swap_cons_succ]
    simp only [List.filter_cons]
    rw [filter_Swap_adjacent p t j (fun x y hx hy => hxy x y (by simpa using hx) (by simpa using hy))]

theorem Less_true_elim (less : α → α → Bool) (data : List α) (i j : Nat)
    (h : Less less data i j = true) :
    ∃ x y, data[i]? = some x ∧ data[j]? = some y ∧ less x y = true := by
  unfold Less at h
  cases hi : data[i]? with
  | none => simp [hi] at h
  | some x =>
    cases hj : data[j]? with
    | none => simp [hi, hj] at h
    | some y =>
      simp only [hi, hj] at h
      exact ⟨x, y, rfl, rfl, h⟩

theorem insertionSortInner_filter (less : α → α → Bool) (hT : TiesTransitive less) (e : α)
    (a : Nat) :
    ∀ (j : Nat) (data : List α),
      (insertionSortInner less a data j).filter (fun x => !less e x && !less x e)
        = data.filter (fun x => !less e x && !less x e)
  | 0, data => by simp [insertionSortInner]
  | j + 1, data => by
    unfold insertionSortInner
    split
    · rename_i hc
      simp only [Bool.and_eq_true, decide_eq_true_eq] at hc
      obtain ⟨y, x, hy, hx, hlt⟩ := Less_true_elim less data (j + 1) j hc.2
      rw [insertionSortInner_filter less hT e a j]
      apply filter_Swap_adjacent
      intro x' y' hx' hy' hboth
      rw [hx] at hx'
      rw [hy] at hy'
      simp only [Option.some.injEq] at hx' hy'
      subst hx' hy'
      simp only [Bool.and_eq_true, Bool.not_eq_true'] at hboth
      have := hT e x y hboth.1.1 hboth.1.2 hboth.2.1 hboth.2.2
      rw [this] at hlt
      exact absurd hlt (by decide)
    · rfl

theorem insertionSortOuter_filter (less : α → α → Bool) (hT : TiesTransitive less) (e : α)
    (a : Nat) :
    ∀ (n i : Nat) (data : List α),
      (insertionSortOuter less a data i n).filter (fun x => !less e x && !less x e)
        = data.filter (fun x => !less e x && !less x e)
  | 0, i, data => by simp [insertionSortOuter]
  | n + 1, i, data => by
    unfold insertionSortOuter
    rw [insertionSortOuter_filter less hT e a n, insertionSortInner_filter less hT e a]

theorem Slice_eq_insertionSort (less : α → α → Bool) (x : List α) (h : x.length ≤ 12) :
    Slice less x = insertionSort_func less x 0 x.length := by
  unfold Slice
  simp only
  cases hn : x.length with
  | zero => unfold pdqsort_func; rfl
  | succ n =>
    unfold pdqsort_func
    simp only
    rw [if_pos (by omega)]

/-- On at most twelve elements `sort.Slice` is an insertion sort, which keeps
ties in input order. -/
theorem Slice_stable_of_short (less : α → α → Bool) (hT : TiesTransitive less) (x : List α)
    (h : x.length ≤ 12) : StableFor less x (Slice less x) := by
  intro e
  rw [Slice_eq_insertionSort less x h]
  exact insertionSortOuter_filter less hT e 0 _ _ x

theorem tiesTransitive_of_key {β : Type} [LinearOrder β] (less : α → α → Bool) (key : α → β)
    (h : (∀ x y, less x y = decide (key x < key y)) ∨ (∀ x y, less x y = decide (key y < key x))) :
    TiesTransitive less := by
  intro e x y h1 h2 h3 h4
  rcases h with h | h
  · rw [h] at h1 h2 h3 h4 ⊢
    simp only [decide_eq_false_iff_not, not_lt] at h1 h2 h3 h4 ⊢
    exact le_trans h1 h4
  · rw [h] at h1 h2 h3 h4 ⊢
    simp only [decide_eq_false_iff_not, not_lt] at h1 h2 h3 h4 ⊢
    exact le_trans h4 h1

end GoSort

theorem sign_neg_iff (a b : Int) :
    ((if a < b then (-1 : Int) else if a > b then 1 else 0) < 0) ↔ a < b := by
  split
  · simp [*]
  · split <;> simp [*]

theorem sign_pos_iff (a b : Int) :
    ((if a < b then (-1 : Int) else if a > b then 1 else 0) > 0) ↔ b < a := by
  split
  · constructor
    · intro h
      omega
    · intro h
      omega
  · split
    · simp [*]
    · constructor
      · intro h
        omega
      · intro h
        omega

theorem stringsCompare_neg_iff (a b : String) : stringsCompare a b < 0 ↔ a < b := by
  unfold stringsCompare
  by_cases hab : a = b
  · subst hab
    simp
  · by_cases hlt : a < b
    · simp [hab, hlt]
    · simp [hab, hlt]

theorem stringsCompare_pos_iff (a b : String) : stringsCompare a b > 0 ↔ b < a := by
  unfold stringsCompare
  by_cases hab : a = b
  · subst hab
    simp
  · by_cases hlt : a < b
    · simp only [hab, hlt, if_true, if_false]
      constructor
      · intro h
        omega
      · intro h
        exact absurd h (not_lt_of_gt hlt)
    · simp only [hab, hlt, if_false]
      constructor
      · intro _
        rcases lt_trichotomy a b with h | h | h
        · exact absurd h hlt
        · exact absurd h hab
        · exact h
      · intro _
        decide

/-- Every comparator of `SortArtifacts` compares a key in a linear order, so
its ties are transitive. -/
theorem artifactLess_tiesTransitive (timeParse : String → Option Int)
    (sortBy sortOrder : String) : TiesTransitive (artifactLess timeParse sortBy sortOrder) := by
  by_cases hv : sortBy = "version"
  · subst hv
    by_cases ha : sortOrder = "asc"
    · subst ha
      exact GoSort.tiesTransitive_of_key _ (fun e : ArtifactEntry => parseVersion e.Version)
        (Or.inl (artifactLess_version_asc timeParse))
    · exact GoSort.tiesTransitive_of_key _ (fun e : ArtifactEntry => -parseVersion e.Version)
        (Or.inl (artifactLess_version_desc timeParse sortOrder ha))
  · by_cases hd : sortBy = "date"
    · subst hd
      have e1 : ¬ ("date" : String) = "version" := by decide
      apply GoSort.tiesTransitive_of_key _
        (fun e : ArtifactEntry => dateInstant timeParse e.Date)
      by_cases ha : sortOrder = "asc"
      · left
        intro x y
        unfold artifactLess compareValue
        simp only [e1, ha, if_true, if_false]
        exact decide_eq_decide.mpr (sign_neg_iff _ _)
      · right
        intro x y
        unfold artifactLess compareValue
        simp only [e1, ha, if_true, if_false]
        exact decide_eq_decide.mpr (sign_pos_iff _ _)
    · by_cases hs : sortBy = "size"
      · subst hs
        have e1 : ¬ ("size" : String) = "version" := by decide
        have e2 : ¬ ("size" : String) = "date" := by decide
        apply GoSort.tiesTransitive_of_key _ (fun e : ArtifactEntry => e.Size)
        by_cases ha : sortOrder = "asc"
        · left
          intro x y
          unfold artifactLess compareValue
          simp only [e1, e2, ha, if_true, if_false]
          exact decide_eq_decide.mpr (sign_neg_iff _ _)
        · right
          intro x y
          unfold artifactLess compareValue
          simp only [e1, e2, ha, if_true, if_false]
          exact decide_eq_decide.mpr (sign_pos_iff _ _)
      · apply GoSort.tiesTransitive_of_key _ (fun e : ArtifactEntry => e.Version)
        by_cases ha : sortOrder = "asc"
        · left
          intro x y
          unfold artifactLess compareValue
          simp only [hv, hd, hs, ha, if_true, if_false]
          exact decide_eq_decide.mpr (stringsCompare_neg_iff _ _)
        · right
          intro x y
          unfold artifactLess compareValue
          simp only [hv, hd, hs, ha, if_true, if_false]
          exact decide_eq_decide.mpr (stringsCompare_pos_iff _ _)

theorem SortArtifacts_eq_Slice (timeParse : String → Option Int) (artifacts : List ArtifactEntry)
    (sortBy sortOrder : String) :
    SortArtifacts timeParse artifacts sortBy sortOrder
      = GoSort.Slice (effectiveLess timeParse sortBy sortOrder) artifacts := by
  unfold SortArtifacts effectiveLess
  rfl

/-- C5 (as amended): on a list of at most twelve entries `SortArtifacts` is
stable for every `sortBy` and `sortOrder`: the entries that the comparator
leaves unordered with a given entry keep their input order (the result is a
permutation of the input for lists of every length). -/
theorem SortArtifacts_stable_of_short (timeParse : String → Option Int)
    (artifacts : List ArtifactEntry) (sortBy sortOrder : String)
    (hlen : artifacts.length ≤ 12) :
    StableFor (effectiveLess timeParse sortBy sortOrder) artifacts
        (SortArtifacts timeParse artifacts sortBy sortOrder) ∧
      (SortArtifacts timeParse artifacts sortBy sortOrder).Perm artifacts := by
  rw [SortArtifacts_eq_Slice]
  exact ⟨GoSort.Slice_stable_of_short _ (artifactLess_tiesTransitive timeParse _ _) artifacts hlen,
    GoSort.Slice_perm _ _⟩

theorem SortArtifacts_stable_of_short_witness :
    StableFor (effectiveLess (fun _ => none) "version" "desc") (thirteenEntries.take 12)
        (SortArtifacts (fun _ => none) (thirteenEntries.take 12) "version" "desc") ∧
      (SortArtifacts (fun _ => none) (thirteenEntries.take 12) "version" "desc").Perm
        (thirteenEntries.take 12) :=
  SortArtifacts_stable_of_short (fun _ => none) (thirteenEntries.take 12) "version" "desc"
    (by decide)

/-- C5 (counterexample): sorting thirteen entries by version, descending (twelve
entries of version 100 with hashes h0 to h11, then one of version 200), returns
the entries of version 100 in the order h6, h2, h3, h4, h5, h0, h7, ..., h11, h1:
ties are not kept in input order. (Thirteen elements are above the
insertion-sort threshold: the pivot is position 6, the median of positions 3, 6
and 9; `partition_func` moves it to the front, exchanges positions 1 and 12 and
then positions 0 and 1; the two sides are finished by insertion sort.) -/
theorem SortArtifacts_not_stable :
    thirteenEntries.length = 13 ∧
    (SortArtifacts (fun _ => none) thirteenEntries "version" "desc").map (fun e => e.Hash)
      = ["h12", "h6", "h2", "h3", "h4", "h5", "h0", "h7", "h8", "h9", "h10", "h11", "h1"] ∧
    ¬ StableFor (effectiveLess (fun _ => none) "version" "desc") thirteenEntries
        (SortArtifacts (fun _ => none) thirteenEntries "version" "desc") := by
  refine ⟨by decide, by decide, ?_⟩
  intro h
  have h0 := h (sampleEntry "100" "windows" "eol")
  revert h0
  decide

/-! ### Cache: what does hold -/

theorem GoMap.get?_set_self {V : Type} (m : GoMap V) (k : String) (v : V) :
    GoMap.get? (GoMap.set m k v) k = some v := by
  induction m with
  | nil => simp [GoMap.set, GoMap.get?]
  | cons p m ih =>
    obtain ⟨k', v'⟩ := p
    unfold GoMap.set
    by_cases h : k' = k
    · simp [h, GoMap.get?]
    · simp [h, GoMap.get?, ih]

/-- Supporting fact for C4: whatever TTL is passed to `setCache`, the value is
returned while less than `cacheDuration` (3600000 ms) have passed and is absent
afterwards; so the specified behaviour holds exactly for the tag TTL. -/
theorem getCache_setCache (s : ArtifactsService) (key : String) (data : CacheData)
    (duration T t : Int) (hT : T ≤ t) (hrange : t - T ≤ 9223372036854775807) :
    (getCache (setCache s key data duration T) key t).1
      = if t - T < 3600000 then some data else none := by
  unfold getCache setCache
  simp only [GoMap.get?_set_self]
  rw [wrap64_of_inRange (t - T) (by omega) hrange]
  unfold cacheDuration
  split <;> rfl

/-- Supporting fact for C3: when the `"tags"` entry is still fresh at the time
of the failed request, `FetchGitHubTags` (without the cache short-cut) returns
the cached list and no error. -/
theorem FetchGitHubTags_fresh_entry (s : ArtifactsService) (tags : List GitHubTag)
    (timestamp now₁ now₂ : Int) (err : String)
    (hentry : s.cache.get? "tags" = some { data := CacheData.tags tags, timestamp := timestamp })
    (hfresh : wrap64 (now₂ - timestamp) < cacheDuration) :
    (FetchGitHubTags s false (Except.error err) now₁ now₂).1 = Except.ok tags := by
  unfold FetchGitHubTags getCache
  simp [hentry, hfresh]

/-! ### The fuel of the loops is immaterial -/

namespace GoSort
variable {α : Type}

/-- More fuel than `hi - root` does not change `siftDown_func`. -/
theorem siftDown_func_fuel (less : α → α → Bool) (hi first : Nat) :
    ∀ (fuel : Nat) (data : List α) (root : Nat), hi ≤ root + fuel →
      siftDown_func less hi first data root (fuel + 1) = siftDown_func less hi first data root fuel
  | 0, data, root, h => by
    unfold siftDown_func
    simp only
    rw [if_pos (by omega)]
  | fuel + 1, data, root, h => by
    conv_lhs => unfold siftDown_func
    conv_rhs => unfold siftDown_func
    simp only
    split
    · rfl
    · split
      · split
        · rfl
        · exact siftDown_func_fuel less hi first fuel _ _ (by omega)
      · split
        · rfl
        · exact siftDown_func_fuel less hi first fuel _ _ (by omega)

/-- More fuel than `j - i` does not change `reverseRangeLoop`. -/
theorem reverseRangeLoop_fuel :
    ∀ (fuel : Nat) (data : List α) (i j : Nat), j ≤ i + fuel →
      reverseRangeLoop data i j (fuel + 1) = reverseRangeLoop data i j fuel
  | 0, data, i, j, h => by
    unfold reverseRangeLoop
    rw [if_neg (by omega)]
  | fuel + 1, data, i, j, h => by
    conv_lhs => unfold reverseRangeLoop
    conv_rhs => unfold reverseRangeLoop
    split
    · exact reverseRangeLoop_fuel fuel _ _ _ (by omega)
    · rfl

/-- More fuel than `b - a` does not change `pdqsort_func`: every turn of its
loop and every recursive call works on a strictly shorter range. -/
theorem pdqsort_func_fuel (less : α → α → Bool) (key : α → Int)
    (hless : ∀ x y, less x y = decide (key x < key y)) :
    ∀ (fuel : Nat) (data : List α) (a b limit : Nat) (wasBalanced wasPartitioned : Bool),
      a ≤ b → b ≤ data.length → b - a ≤ fuel →
      pdqsort_func less (fuel + 1) data a b limit wasBalanced wasPartitioned
        = pdqsort_func less fuel data a b limit wasBalanced wasPartitioned
  | 0, data, a, b, limit, wb, wp, _, _, hf => by
    unfold pdqsort_func
    simp only
    rw [if_pos (by omega)]
  | fuel + 1, data, a, b, limit, wb, wp, hab, hb, hf => by
    conv_lhs => unfold pdqsort_func
    conv_rhs => unfold pdqsort_func
    simp only
    by_cases h12 : b - a ≤ 12
    · rw [if_pos h12, if_pos h12]
    · rw [if_neg h12, if_neg h12]
      by_cases hlim : limit = 0
      · rw [if_pos hlim, if_pos hlim]
      · rw [if_neg hlim, if_neg hlim]
        have hd1 : (if (!wb) = true then breakPatterns_func data a b else data).length
            = data.length := by
          split
          · exact (breakPatterns_func_perm _ _ _).length_eq
          · rfl
        generalize (if (!wb) = true then breakPatterns_func data a b else data) = d1 at hd1 ⊢
        generalize (if (!wb) = true then limit - 1 else limit) = limit1
        have hpiv := choosePivot_func_range less d1 a b (by omega)
        generalize choosePivot_func less d1 a b = ph at hpiv ⊢
        have hd2 : (if decide (ph.2 = sortedHint.decreasingHint) = true then
            reverseRange_func d1 a b else d1).length = data.length := by
          split
          · rw [(reverseRange_func_perm _ _ _).length_eq]
            exact hd1
          · exact hd1
        generalize (if decide (ph.2 = sortedHint.decreasingHint) = true then
            reverseRange_func d1 a b else d1) = d2 at hd2 ⊢
        have hpivot : a ≤ (if decide (ph.2 = sortedHint.decreasingHint) = true then
            b - 1 - (ph.1 - a) else ph.1) ∧
            (if decide (ph.2 = sortedHint.decreasingHint) = true then
            b - 1 - (ph.1 - a) else ph.1) < b := by
          split <;> omega
        generalize (if decide (ph.2 = sortedHint.decreasingHint) = true then
            b - 1 - (ph.1 - a) else ph.1) = pivot at hpivot ⊢
        generalize (if decide (ph.2 = sortedHint.decreasingHint) = true then
            sortedHint.increasingHint else ph.2) = hint
        have hps : (if (wb && wp && decide (hint = sortedHint.increasingHint)) = true
            then partialInsertionSort_func less d2 a b else (d2, false)).1.length
            = data.length := by
          split
          · rw [(partialInsertionSort_func_perm _ _ _ _).length_eq]
            exact hd2
          · exact hd2
        generalize (if (wb && wp && decide (hint = sortedHint.increasingHint)) = true
            then partialInsertionSort_func less d2 a b else (d2, false)) = ps at hps ⊢
        by_cases hdone : ps.2 = true
        · rw [if_pos hdone, if_pos hdone]
        · rw [if_neg hdone, if_neg hdone]
          generalize ps.1 = d3 at hps ⊢
          have hlen3 : b ≤ d3.length := by rw [hps]; exact hb
          by_cases heq : (decide (a > 0) && !Less less d3 (a - 1) pivot) = true
          · rw [if_pos heq, if_pos heq]
            obtain ⟨e1, e2, e3, -, -⟩ :=
              partitionEqual_func_spec less key hless d3 a b pivot hlen3 hpivot.1 hpivot.2
            exact pdqsort_func_fuel less key hless fuel _ _ _ _ _ _ e3
              (by rw [e1.length_eq]; exact hlen3) (by omega)
          · rw [if_neg heq, if_neg heq]
            obtain ⟨t1, t2, t3, -, -⟩ :=
              partition_func_spec less key hless d3 a b pivot hlen3 hpivot.1 hpivot.2
            generalize partition_func less d3 a b pivot = pt at t1 t2 t3 ⊢
            have hlen4 : b ≤ pt.1.length := by rw [t1.length_eq]; exact hlen3
            by_cases hlr : pt.2.1 - a < b - pt.2.1
            · rw [if_pos hlr, if_pos hlr]
              rw [pdqsort_func_fuel less key hless fuel pt.1 a pt.2.1 limit1 true true t2
                (by omega) (by omega)]
              exact pdqsort_func_fuel less key hless fuel _ _ _ _ _ _ (by omega)
                (by rw [(pdqsort_func_perm less _ _ _ _ _ _ _).length_eq]; exact hlen4) (by omega)
            · rw [if_neg hlr, if_neg hlr]
              rw [pdqsort_func_fuel less key hless fuel pt.1 (pt.2.1 + 1) b limit1 true true
                (by omega) hlen4 (by omega)]
              exact pdqsort_func_fuel less key hless fuel _ _ _ _ _ _ t2
                (by rw [(pdqsort_func_perm less _ _ _ _ _ _ _).length_eq]; omega) (by omega)

/-- The fuel `sort.Slice` starts with can be raised by any amount without
changing its result. -/
theorem Slice_fuel (less : α → α → Bool) (key : α → Int)
    (hless : ∀ x y, less x y = decide (key x < key y)) (x : List α) (extra : Nat) :
    pdqsort_func less (x.length + extra) x 0 x.length (bitsLen x.length) true true
      = Slice less x := by
  induction extra with
  | zero => rfl
  | succ n ih =>
    rw [← ih]
    exact pdqsort_func_fuel less key hless (x.length + n) x 0 x.length _ true true (Nat.zero_le _)
      (le_refl _) (by omega)

end GoSort

/-! ### The fallback and the shape of the processed data -/

theorem generateFallbackData_eq (now : String) :
    generateFallbackData now = { Windows := fallbackWindows now, Linux := fallbackLinux now } := by
  rfl

theorem Slice_nil {α : Type} (less : α → α → Bool) : GoSort.Slice less ([] : List α) = [] :=
  List.Perm.eq_nil (GoSort.Slice_perm less [])

theorem ProcessGitHubTags_of_no_match (tags : List GitHubTag) (now : String)
    (h : matchingTags tags = []) : ProcessGitHubTags tags now = generateFallbackData now := by
  unfold ProcessGitHubTags
  simp only
  rw [artifactTagsOf_eq_filter]
  unfold matchingTags at h
  rw [h, Slice_nil]
  rfl

/-- `ProcessGitHubTags` returns the fallback, or else the non-empty data built
by the loop over the sorted matching tags. -/
theorem ProcessGitHubTags_cases (tags : List GitHubTag) (now : String) :
    ProcessGitHubTags tags now = generateFallbackData now ∨
    (ProcessGitHubTags tags now =
        (GoSort.Slice tagLess (artifactTagsOf tags)).foldl (processTag now)
          { Windows := [], Linux := [] } ∧
      (ProcessGitHubTags tags now).Windows ≠ []) := by
  unfold ProcessGitHubTags
  simp only
  by_cases h : ((GoSort.Slice tagLess (artifactTagsOf tags)).foldl (processTag now)
      { Windows := [], Linux := [] }).Windows.len = 0
  · left
    simp [h]
  · right
    simp only [h, if_false, true_and]
    intro e
    apply h
    simp [GoMap.len, e]

theorem matchingTags_eq_nil (tags : List GitHubTag)
    (h : ∀ t ∈ tags, artifactVersionRegexMatch t.Name = false) : matchingTags tags = [] := by
  unfold matchingTags
  rw [List.filter_eq_nil_iff]
  intro t ht
  simp [h t ht]

/-- C11: for every tag list in which no tag name matches the version pattern,
`ProcessGitHubTags` returns the hardcoded fallback: the Windows map and the
Linux map hold exactly the keys 24769, 24574 and 24573, each entry with the
fixed hash of its version, the platform of its map, status `recommended`
(which is what `determineSupportStatus` gives for the three versions), the URL
template of the platform filled with that version and hash, and the constant
size of the platform. -/
theorem ProcessGitHubTags_fallback (tags : List GitHubTag) (now : String)
    (h : ∀ t ∈ tags, artifactVersionRegexMatch t.Name = false) :
    ProcessGitHubTags tags now = generateFallbackData now ∧
    (ProcessGitHubTags tags now).Windows.keys = ["24769", "24574", "24573"] ∧
    (ProcessGitHubTags tags now).Linux.keys = ["24769", "24574", "24573"] ∧
    (∀ p ∈ [(("24769" : String), ("ad6c90072e62cdb7ee0dcc943d7ded8a5107d542" : String)),
            ("24574", "779c1fa38ec01b33d79a5e994b7e0c1a0bbcg421"),
            ("24573", "b85db86b37fdcab942859d3ef31cc4bd43eee8f6")],
      (ProcessGitHubTags tags now).Windows.get? p.1 =
        some { Version := p.1, Hash := p.2, Platform := Windows, Date := now,
               SupportStatus := Recommended,
               URL := "https://runtime.fivem.net/artifacts/fivem/build_server_windows/master/" ++
                 p.1 ++ "-" ++ p.2 ++ "/server.zip",
               Size := 850 * 1024 * 1024 } ∧
      (ProcessGitHubTags tags now).Linux.get? p.1 =
        some { Version := p.1, Hash := p.2, Platform := Linux, Date := now,
               SupportStatus := Recommended,
               URL := "https://runtime.fivem.net/artifacts/fivem/build_proot_linux/master/" ++
                 p.1 ++ "-" ++ p.2 ++ "/fx.tar.xz",
               Size := 400 * 1024 * 1024 }) ∧
    determineSupportStatus 24769 = Recommended ∧ determineSupportStatus 24574 = Recommended ∧
    determineSupportStatus 24573 = Recommended := by
  rw [ProcessGitHubTags_of_no_match tags now (matchingTags_eq_nil tags h), generateFallbackData_eq]
  refine ⟨rfl, rfl, rfl, ?_, by decide, by decide, by decide⟩
  intro p hp
  simp only [List.mem_cons, List.mem_singleton, List.not_mem_nil, or_false] at hp
  rcases hp with rfl | rfl | rfl <;> exact ⟨rfl, rfl⟩

theorem ProcessGitHubTags_fallback_witness :
    (∀ t ∈ [(⟨"notatag", "ccc"⟩ : GitHubTag), ⟨"1.2.3.4", "ddd"⟩],
      artifactVersionRegexMatch t.Name = false) ∧
    (ProcessGitHubTags [⟨"notatag", "ccc"⟩, ⟨"1.2.3.4", "ddd"⟩] "2025-01-01T00:00:00Z").Windows.keys
      = ["24769", "24574", "24573"] ∧
    (ProcessGitHubTags [] "2025-01-01T00:00:00Z").Linux.keys = ["24769", "24574", "24573"] :=
  ⟨by decide,
   (ProcessGitHubTags_fallback [⟨"notatag", "ccc"⟩, ⟨"1.2.3.4", "ddd"⟩] "2025-01-01T00:00:00Z"
      (by decide)).2.1,
   (ProcessGitHubTags_fallback [] "2025-01-01T00:00:00Z" (by simp)).2.2.1⟩


/-! ### Derived fields of the artifacts -/

theorem itoaDigits_isDigit : ∀ (fuel n : Nat), ∀ c ∈ itoaDigits fuel n, isDigit c = true
  | 0, n, c, h => by simp [itoaDigits] at h
  | fuel + 1, n, c, h => by
    have hd : ∀ d, d < 10 → isDigit (Char.ofNat (48 + d)) = true := by
      intro d hd
      interval_cases d <;> rfl
    unfold itoaDigits at h
    split at h
    · rename_i hn
      simp only [List.mem_singleton] at h
      subst h
      exact hd n hn
    · rw [List.mem_append] at h
      rcases h with h | h
      · exact itoaDigits_isDigit fuel (n / 10) c h
      · simp only [List.mem_singleton] at h
        subst h
        exact hd (n % 10) (Nat.mod_lt _ (by decide))

theorem itoaDigits_ne_nil (fuel n : Nat) : itoaDigits (fuel + 1) n ≠ [] := by
  unfold itoaDigits
  split <;> simp

/-- `strconv.Atoi` reads back what `strconv.Itoa` wrote, for every
non-negative 64-bit value. -/
theorem Atoi_Itoa (n : Int) (h0 : 0 ≤ n) (hmax : n ≤ maxInt64) : Atoi (Itoa n).data = some n := by
  have hn : ¬ n < 0 := by omega
  unfold Itoa
  simp only [hn, if_false]
  rw [Atoi_digits _ (itoaDigits_isDigit _ _)]
  have hv : digitsValue (itoaDigits (n.toNat + 1) n.toNat) = n.toNat :=
    digitsValue_itoaDigits _ _ (lt_ten_pow_succ _)
  rw [hv]
  have hne := itoaDigits_ne_nil n.toNat n.toNat
  have hc : ((n.toNat : Nat) : Int) = n := Int.toNat_of_nonneg h0
  rw [hc]
  have hm : ¬ n > maxInt64 := by omega
  simp [hne, hm]

theorem Atoi_le_max (s : List Char) (v : Int) (h : Atoi s = some v) : v ≤ maxInt64 := by
  unfold Atoi at h
  dsimp only at h
  generalize (if s.head? = some '+' ∨ s.head? = some '-' then s.tail else s) = ds at h
  generalize (if decide (s.head? = some '-') = true then -(digitsValue ds : Int)
    else (digitsValue ds : Int)) = w at h
  split_ifs at h with a b
  simp only [Option.some.injEq] at h
  omega

theorem extractVersionNumber_le_max (tagName : String) :
    extractVersionNumber tagName ≤ maxInt64 := by
  unfold extractVersionNumber
  split
  · split
    · rename_i num hnum
      exact Atoi_le_max _ _ hnum
    · unfold maxInt64
      decide
  · unfold maxInt64
    decide

/-- A property of the values of a map survives an assignment of a value that has it. -/
theorem GoMap.forall_set {V : Type} (P : String × V → Prop) (m : GoMap V) (k : String) (v : V)
    (hm : ∀ p ∈ m, P p) (hv : P (k, v)) : ∀ p ∈ GoMap.set m k v, P p := by
  induction m with
  | nil =>
    intro p hp
    simp only [GoMap.set, List.mem_singleton] at hp
    subst hp
    exact hv
  | cons q m ih =>
    obtain ⟨k', v'⟩ := q
    intro p hp
    unfold GoMap.set at hp
    split at hp
    · rcases List.mem_cons.mp hp with h | h
      · subst h
        exact hv
      · exact hm p (List.mem_cons_of_mem _ h)
    · rcases List.mem_cons.mp hp with h | h
      · subst h
        exact hm _ (List.mem_cons_self _ _)
      · exact ih (fun p hp => hm p (List.mem_cons_of_mem _ hp)) p h

theorem processTag_derived (now : String) (data : ArtifactData) (tag : GitHubTag)
    (hw : ∀ p ∈ data.Windows, WindowsDerived p.2) (hl : ∀ p ∈ data.Linux, LinuxDerived p.2) :
    (∀ p ∈ (processTag now data tag).Windows, WindowsDerived p.2) ∧
    (∀ p ∈ (processTag now data tag).Linux, LinuxDerived p.2) := by
  have hr := Atoi_Itoa (extractVersionNumber tag.Name) (extractVersionNumber_nonneg _)
    (extractVersionNumber_le_max _)
  unfold processTag
  simp only
  constructor
  · apply GoMap.forall_set (fun p => WindowsDerived p.2) _ _ _ hw
    exact ⟨rfl, rfl, _, hr, rfl⟩
  · apply GoMap.forall_set (fun p => LinuxDerived p.2) _ _ _ hl
    exact ⟨rfl, rfl, _, hr, rfl⟩

theorem foldl_processTag_derived (now : String) (tags : List GitHubTag) (data : ArtifactData)
    (hw : ∀ p ∈ data.Windows, WindowsDerived p.2) (hl : ∀ p ∈ data.Linux, LinuxDerived p.2) :
    (∀ p ∈ (tags.foldl (processTag now) data).Windows, WindowsDerived p.2) ∧
    (∀ p ∈ (tags.foldl (processTag now) data).Linux, LinuxDerived p.2) := by
  induction tags generalizing data with
  | nil => exact ⟨hw, hl⟩
  | cons t tags ih =>
    simp only [List.foldl_cons]
    have h := processTag_derived now data t hw hl
    exact ih _ h.1 h.2

theorem fallback_derived (now : String) :
    (∀ p ∈ fallbackWindows now, WindowsDerived p.2) ∧
    (∀ p ∈ fallbackLinux now, LinuxDerived p.2) := by
  constructor
  · intro p hp
    simp only [fallbackWindows, List.mem_cons, List.mem_singleton, List.not_mem_nil, or_false] at hp
    rcases hp with rfl | rfl | rfl
    · exact ⟨rfl, rfl, 24769, show Atoi "24769".data = some 24769 from by decide, rfl⟩
    · exact ⟨rfl, rfl, 24574, show Atoi "24574".data = some 24574 from by decide, rfl⟩
    · exact ⟨rfl, rfl, 24573, show Atoi "24573".data = some 24573 from by decide, rfl⟩
  · intro p hp
    simp only [fallbackLinux, List.mem_cons, List.mem_singleton, List.not_mem_nil, or_false] at hp
    rcases hp with rfl | rfl | rfl
    · exact ⟨rfl, rfl, 24769, show Atoi "24769".data = some 24769 from by decide, rfl⟩
    · exact ⟨rfl, rfl, 24574, show Atoi "24574".data = some 24574 from by decide, rfl⟩
    · exact ⟨rfl, rfl, 24573, show Atoi "24573".data = some 24573 from by decide, rfl⟩

/-- C12: for every tag list, every artifact of the result of
`ProcessGitHubTags` (the fallback included) that is in the Windows map has
the URL `https://runtime.fivem.net/artifacts/fivem/build_server_windows/master/<Version>-<Hash>/server.zip`
and size 850*1024*1024, every artifact in the Linux map has the URL
`https://runtime.fivem.net/artifacts/fivem/build_proot_linux/master/<Version>-<Hash>/fx.tar.xz`
and size 400*1024*1024, with Version and Hash the artifact's own fields, and
in both maps the status is `determineSupportStatus` of the integer that
`strconv.Atoi` reads from the artifact's Version. -/
theorem ProcessGitHubTags_derived_fields (tags : List GitHubTag) (now : String) :
    (∀ p ∈ (ProcessGitHubTags tags now).Windows,
      p.2.URL = "https://runtime.fivem.net/artifacts/fivem/build_server_windows/master/" ++
          p.2.Version ++ "-" ++ p.2.Hash ++ "/server.zip" ∧
        p.2.Size = 850 * 1024 * 1024 ∧
        ∃ n : Int, Atoi p.2.Version.data = some n ∧
          p.2.SupportStatus = determineSupportStatus n) ∧
    (∀ p ∈ (ProcessGitHubTags tags now).Linux,
      p.2.URL = "https://runtime.fivem.net/artifacts/fivem/build_proot_linux/master/" ++
          p.2.Version ++ "-" ++ p.2.Hash ++ "/fx.tar.xz" ∧
        p.2.Size = 400 * 1024 * 1024 ∧
        ∃ n : Int, Atoi p.2.Version.data = some n ∧
          p.2.SupportStatus = determineSupportStatus n) := by
  rcases ProcessGitHubTags_cases tags now with h | ⟨h, _⟩
  · rw [h, generateFallbackData_eq]
    exact fallback_derived now
  · rw [h]
    exact foldl_processTag_derived now _ _ (by simp) (by simp)

/-! ### Well-formedness of the processed data -/

theorem GoMap.forall₂_set {V : Type} (R : String × V → String × V → Prop)
    (hR : ∀ p q, R p q → p.1 = q.1) (m₁ m₂ : GoMap V) (k : String) (v₁ v₂ : V)
    (hm : List.Forall₂ R m₁ m₂) (hv : R (k, v₁) (k, v₂)) :
    List.Forall₂ R (GoMap.set m₁ k v₁) (GoMap.set m₂ k v₂) := by
  induction hm with
  | nil => exact List.Forall₂.cons hv List.Forall₂.nil
  | cons hpq hrest ih =>
    rename_i p q l₁ l₂
    obtain ⟨k₁, w₁⟩ := p
    obtain ⟨k₂, w₂⟩ := q
    have hk : k₁ = k₂ := hR _ _ hpq
    subst hk
    unfold GoMap.set
    by_cases h : k₁ = k
    · simp only [h, if_true]
      exact List.Forall₂.cons hv hrest
    · simp only [h, if_false]
      exact List.Forall₂.cons hpq ih

theorem GoMap.forall₂_get? {V : Type} (R : String × V → String × V → Prop)
    (hR : ∀ p q, R p q → p.1 = q.1) (m₁ m₂ : GoMap V) (hm : List.Forall₂ R m₁ m₂)
    (k : String) (v₁ v₂ : V) (h₁ : GoMap.get? m₁ k = some v₁) (h₂ : GoMap.get? m₂ k = some v₂) :
    R (k, v₁) (k, v₂) := by
  induction hm with
  | nil => simp [GoMap.get?] at h₁
  | cons hpq hrest ih =>
    rename_i p q l₁ l₂
    obtain ⟨k₁, w₁⟩ := p
    obtain ⟨k₂, w₂⟩ := q
    have hk : k₁ = k₂ := hR _ _ hpq
    subst hk
    unfold GoMap.get? at h₁ h₂
    by_cases h : k₁ = k
    · simp only [h, if_true, Option.some.injEq] at h₁ h₂
      subst h h₁ h₂
      exact hpq
    · simp only [h, if_false] at h₁ h₂
      exact ih h₁ h₂

theorem GoMap.forall₂_keys {V : Type} (R : String × V → String × V → Prop)
    (hR : ∀ p q, R p q → p.1 = q.1) (m₁ m₂ : GoMap V) (hm : List.Forall₂ R m₁ m₂) :
    GoMap.keys m₁ = GoMap.keys m₂ := by
  induction hm with
  | nil => rfl
  | cons hpq _ ih =>
    simp only [GoMap.keys, List.map_cons, List.cons.injEq] at ih ⊢
    exact ⟨hR _ _ hpq, ih⟩

theorem PairOK_key (p q : String × Artifact) (h : PairOK p q) : p.1 = q.1 := h.1

theorem foldl_processTag_pairs (now : String) (tags : List GitHubTag) (data : ArtifactData)
    (h : List.Forall₂ PairOK data.Windows data.Linux) :
    List.Forall₂ PairOK (tags.foldl (processTag now) data).Windows
      (tags.foldl (processTag now) data).Linux := by
  induction tags generalizing data with
  | nil => exact h
  | cons t tags ih =>
    simp only [List.foldl_cons]
    apply ih
    unfold processTag
    simp only
    apply GoMap.forall₂_set PairOK PairOK_key _ _ _ _ _ h
    exact ⟨rfl, rfl, rfl, rfl, rfl, rfl, rfl, rfl⟩

theorem fallback_pairs (now : String) :
    List.Forall₂ PairOK (fallbackWindows now) (fallbackLinux now) := by
  unfold fallbackWindows fallbackLinux
  refine List.Forall₂.cons ?_ (List.Forall₂.cons ?_ (List.Forall₂.cons ?_ List.Forall₂.nil))
  all_goals exact ⟨rfl, rfl, rfl, rfl, rfl, rfl, rfl, rfl⟩

theorem ProcessGitHubTags_pairs (tags : List GitHubTag) (now : String) :
    List.Forall₂ PairOK (ProcessGitHubTags tags now).Windows (ProcessGitHubTags tags now).Linux ∧
    (ProcessGitHubTags tags now).Windows ≠ [] := by
  rcases ProcessGitHubTags_cases tags now with h | ⟨h, hne⟩
  · rw [h, generateFallbackData_eq]
    exact ⟨fallback_pairs now, by simp [fallbackWindows]⟩
  · refine ⟨?_, hne⟩
    rw [h]
    exact foldl_processTag_pairs now _ _ List.Forall₂.nil

theorem forall₂_left {α β : Type} (R : α → β → Prop) (P : α → Prop) (h : ∀ a b, R a b → P a)
    (l₁ : List α) (l₂ : List β) (hl : List.Forall₂ R l₁ l₂) : ∀ a ∈ l₁, P a := by
  induction hl with
  | nil => simp
  | cons hab _ ih =>
    intro a ha
    rcases List.mem_cons.mp ha with e | e
    · subst e
      exact h _ _ hab
    · exact ih a e

theorem forall₂_right {α β : Type} (R : α → β → Prop) (P : β → Prop) (h : ∀ a b, R a b → P b)
    (l₁ : List α) (l₂ : List β) (hl : List.Forall₂ R l₁ l₂) : ∀ b ∈ l₂, P b := by
  induction hl with
  | nil => simp
  | cons hab _ ih =>
    intro b hb
    rcases List.mem_cons.mp hb with e | e
    · subst e
      exact h _ _ hab
    · exact ih b e

/-- C20: for every tag list the data returned by `ProcessGitHubTags` is well
formed: the Windows map and the Linux map are non-empty and have the same
keys; every entry has as Version the key it is stored under; every Windows
entry has platform `windows` and every Linux entry platform `linux`; and the
Windows and the Linux entry under one key have the same Hash, Date and
SupportStatus. -/
theorem ProcessGitHubTags_well_formed (tags : List GitHubTag) (now : String) :
    (ProcessGitHubTags tags now).Windows ≠ [] ∧ (ProcessGitHubTags tags now).Linux ≠ [] ∧
    (∀ k, k ∈ (ProcessGitHubTags tags now).Windows.keys ↔
      k ∈ (ProcessGitHubTags tags now).Linux.keys) ∧
    (∀ p ∈ (ProcessGitHubTags tags now).Windows, p.2.Version = p.1 ∧ p.2.Platform = Windows) ∧
    (∀ p ∈ (ProcessGitHubTags tags now).Linux, p.2.Version = p.1 ∧ p.2.Platform = Linux) ∧
    (∀ k w l, (ProcessGitHubTags tags now).Windows.get? k = some w →
      (ProcessGitHubTags tags now).Linux.get? k = some l →
      w.Hash = l.Hash ∧ w.Date = l.Date ∧ w.SupportStatus = l.SupportStatus) := by
  obtain ⟨hp, hne⟩ := ProcessGitHubTags_pairs tags now
  refine ⟨hne, ?_, ?_, ?_, ?_, ?_⟩
  · intro e
    have hlen := hp.length_eq
    rw [e] at hlen
    exact hne (List.length_eq_zero.mp hlen)
  · intro k
    rw [GoMap.forall₂_keys PairOK PairOK_key _ _ hp]
  · exact forall₂_left PairOK (fun p => p.2.Version = p.1 ∧ p.2.Platform = Windows)
      (fun a b h => ⟨h.2.1, h.2.2.2.1⟩) _ _ hp
  · exact forall₂_right PairOK (fun p => p.2.Version = p.1 ∧ p.2.Platform = Linux)
      (fun a b h => ⟨h.2.2.1, h.2.2.2.2.1⟩) _ _ hp
  · intro k w l hw hl
    have h := GoMap.forall₂_get? PairOK PairOK_key _ _ hp k w l hw hl
    exact ⟨h.2.2.2.2.2.1, h.2.2.2.2.2.2.1, h.2.2.2.2.2.2.2⟩

/-! ### The issue fetcher -/

theorem pagesConcat_append (upstream : Nat → Except String (List GitHubIssue))
    (l₁ l₂ : List Nat) :
    pagesConcat upstream (l₁ ++ l₂) = pagesConcat upstream l₁ ++ pagesConcat upstream l₂ := by
  induction l₁ with
  | nil => rfl
  | cons p l₁ ih => simp [pagesConcat, ih]

theorem issuesLoop_error (upstream : Nat → Except String (List GitHubIssue))
    (turns page : Nat) (allIssues : List GitHubIssue) (requested : List Nat) (err : String)
    (hle : page ≤ maxPages) (hu : upstream page = Except.error err) :
    issuesLoop upstream (turns + 1) page allIssues requested =
      (if page = 1 ∧ allIssues.length = 0 then IssuesLoopEnd.failedFirst err
        else IssuesLoopEnd.finished allIssues, requested ++ [page]) := by
  unfold issuesLoop
  simp only [hle, if_true, hu]
  split <;> rfl

theorem issuesLoop_ok_stop (upstream : Nat → Except String (List GitHubIssue))
    (turns page : Nat) (allIssues : List GitHubIssue) (requested : List Nat)
    (items : List GitHubIssue) (hle : page ≤ maxPages) (hu : upstream page = Except.ok items)
    (hlt : items.length < perPage) :
    issuesLoop upstream (turns + 1) page allIssues requested =
      (IssuesLoopEnd.finished (allIssues ++ items), requested ++ [page]) := by
  unfold issuesLoop
  simp only [hle, if_true, hu, hlt]
  by_cases h0 : items.length = 0
  · have : items = [] := List.length_eq_zero.mp h0
    simp [this]
  · simp [h0]

theorem issuesLoop_ok_more (upstream : Nat → Except String (List GitHubIssue))
    (turns page : Nat) (allIssues : List GitHubIssue) (requested : List Nat)
    (items : List GitHubIssue) (hle : page ≤ maxPages) (hu : upstream page = Except.ok items)
    (hge : ¬ items.length < perPage) :
    issuesLoop upstream (turns + 1) page allIssues requested =
      issuesLoop upstream turns (page + 1) (allIssues ++ items) (requested ++ [page]) := by
  have h0 : ¬ items.length = 0 := by
    unfold perPage at hge
    omega
  rw [issuesLoop]
  simp only [hle, if_true, hu, hge, h0, if_false]

theorem pageItems_ok (upstream : Nat → Except String (List GitHubIssue)) (page : Nat)
    (items : List GitHubIssue) (hu : upstream page = Except.ok items) :
    pageItems upstream page = items := by
  simp [pageItems, hu]

theorem pageItems_error (upstream : Nat → Except String (List GitHubIssue)) (page : Nat)
    (err : String) (hu : upstream page = Except.error err) :
    pageItems upstream page = [] := by
  simp [pageItems, hu]

/-- How the request loop behaves: from `page` on it requests `m` consecutive
pages, at most as many as turns remain; every page but the last of them
succeeded with at least `perPage` items; the last one failed, or returned
fewer than `perPage` items, or used up the turns; and the loop ends with the
accumulated items of the pages requested, unless page 1 failed with nothing
accumulated. -/
theorem issuesLoop_spec (upstream : Nat → Except String (List GitHubIssue)) :
    ∀ (turns page : Nat) (allIssues : List GitHubIssue) (requested : List Nat),
      page + turns = maxPages + 1 →
      ∃ m, m ≤ turns ∧ (0 < turns → 0 < m) ∧
        (issuesLoop upstream turns page allIssues requested).2 = requested ++ List.range' page m ∧
        (∀ i, i + 1 < m → ∃ items, upstream (page + i) = Except.ok items ∧ perPage ≤ items.length) ∧
        (0 < m → m = turns ∨ (∃ err, upstream (page + m - 1) = Except.error err) ∨
          ∃ items, upstream (page + m - 1) = Except.ok items ∧ items.length < perPage) ∧
        ((∃ err, upstream page = Except.error err ∧ page = 1 ∧ allIssues.length = 0 ∧
            (issuesLoop upstream turns page allIssues requested).1 = IssuesLoopEnd.failedFirst err
            ∧ m = 1) ∨
          ((issuesLoop upstream turns page allIssues requested).1 =
              IssuesLoopEnd.finished (allIssues ++ pagesConcat upstream (List.range' page m)) ∧
            ¬ (∃ err, upstream page = Except.error err ∧ page = 1 ∧ allIssues.length = 0 ∧
                0 < turns)))
  | 0, page, allIssues, requested, _ => by
    refine ⟨0, le_refl 0, fun h => h, ?_, ?_, ?_, Or.inr ⟨?_, ?_⟩⟩
    · simp [issuesLoop]
    · intro i hi
      omega
    · intro h
      omega
    · simp [issuesLoop, pagesConcat]
    · rintro ⟨_, _, _, _, h⟩
      omega
  | turns + 1, page, allIssues, requested, hpt => by
    have hle : page ≤ maxPages := by omega
    have hcases : (∃ err, upstream page = Except.error err) ∨
        (∃ items, upstream page = Except.ok items) := by
      cases upstream page with
      | error err => exact Or.inl ⟨err, rfl⟩
      | ok items => exact Or.inr ⟨items, rfl⟩
    have hlast1 : page + 1 - 1 = page := by omega
    rcases hcases with ⟨err, hu⟩ | ⟨items, hu⟩
    · rw [issuesLoop_error upstream turns page allIssues requested err hle hu]
      by_cases h1 : page = 1 ∧ allIssues.length = 0
      · refine ⟨1, by omega, fun _ => by omega, ?_, ?_, ?_, Or.inl ⟨err, hu, h1.1, h1.2, ?_, rfl⟩⟩
        · simp
        · intro i hi
          omega
        · intro _
          right
          left
          rw [hlast1]
          exact ⟨err, hu⟩
        · simp [h1]
      · refine ⟨1, by omega, fun _ => by omega, ?_, ?_, ?_, Or.inr ⟨?_, ?_⟩⟩
        · simp
        · intro i hi
          omega
        · intro _
          right
          left
          rw [hlast1]
          exact ⟨err, hu⟩
        · rw [if_neg h1]
          simp [pagesConcat, pageItems_error upstream page err hu]
        · rintro ⟨_, _, h2, h3, _⟩
          exact h1 ⟨h2, h3⟩
    · have hnofail : ¬ (∃ err, upstream page = Except.error err ∧ page = 1 ∧
          allIssues.length = 0 ∧ 0 < turns + 1) := by
        rintro ⟨err, h, _⟩
        rw [hu] at h
        exact absurd h (by simp)
      by_cases hlt : items.length < perPage
      · rw [issuesLoop_ok_stop upstream turns page allIssues requested items hle hu hlt]
        refine ⟨1, by omega, fun _ => by omega, ?_, ?_, ?_, Or.inr ⟨?_, hnofail⟩⟩
        · simp
        · intro i hi
          omega
        · intro _
          right
          right
          rw [hlast1]
          exact ⟨items, hu, hlt⟩
        · simp [pagesConcat, pageItems_ok upstream page items hu]
      · rw [issuesLoop_ok_more upstream turns page allIssues requested items hle hu hlt]
        obtain ⟨m, hm, hpos, hreq, hfull, hlast, hend⟩ :=
          issuesLoop_spec upstream turns (page + 1) (allIssues ++ items)
            (requested ++ [page]) (by omega)
        have hne : ¬ (allIssues ++ items).length = 0 := by
          rw [List.length_append]
          unfold perPage at hlt
          omega
        refine ⟨m + 1, by omega, fun _ => by omega, ?_, ?_, ?_, Or.inr ⟨?_, hnofail⟩⟩
        · rw [hreq, List.range'_succ]
          simp
        · intro i hi
          rcases Nat.eq_zero_or_pos i with hi0 | hi0
          · subst hi0
            exact ⟨items, by simpa using hu, by omega⟩
          · obtain ⟨items', h1, h2⟩ := hfull (i - 1) (by omega)
            refine ⟨items', ?_, h2⟩
            have e : page + 1 + (i - 1) = page + i := by omega
            rw [← e]
            exact h1
        · intro _
          rcases Nat.eq_zero_or_pos m with hm0 | hm0
          · left
            subst hm0
            have : turns = 0 := by
              by_contra hc
              have := hpos (Nat.pos_of_ne_zero hc)
              omega
            omega
          · have e : page + 1 + m - 1 = page + (m + 1) - 1 := by omega
            rcases hlast hm0 with h | h | h
            · left
              omega
            · right
              left
              rw [e] at h
              exact h
            · right
              right
              rw [e] at h
              exact h
        · rcases hend with ⟨err, _, _, h3, _⟩ | ⟨h, _⟩
          · exact absurd h3 hne
          · rw [h, List.range'_succ]
            simp [pagesConcat, pageItems_ok upstream page items hu, List.append_assoc]

/-- On a cache miss `FetchGitHubIssues` runs the request loop; `s₁` is the
service after the first cache read. -/
theorem FetchGitHubIssuesRun_miss (s : ArtifactsService) (useCache : Bool)
    (upstream : Nat → Except String (List GitHubIssue)) (now₁ now₂ : Int)
    (hmiss : useCache = true →
      ∀ issues, (getCache s "issues" now₁).1 ≠ some (CacheData.issues issues)) :
    ∃ s₁, FetchGitHubIssuesRun s useCache upstream now₁ now₂ =
      match issuesLoop upstream maxPages 1 [] [] with
      | (IssuesLoopEnd.failedFirst err, requested) =>
        match getCache s₁ "issues" now₂ with
        | (some (CacheData.issues issues), s₂) => (Except.ok issues, s₂, requested)
        | (_, s₂) => (Except.error ("failed to fetch GitHub issues: " ++ err), s₂, requested)
      | (IssuesLoopEnd.finished allIssues, requested) =>
        (Except.ok allIssues,
          setCache s₁ "issues" (CacheData.issues allIssues) issuesCacheDuration now₂, requested) := by
  unfold FetchGitHubIssuesRun
  cases useCache with
  | false => exact ⟨s, rfl⟩
  | true =>
    simp only [if_true]
    have hm := hmiss rfl
    generalize getCache s "issues" now₁ = r at hm
    obtain ⟨d, s₁⟩ := r
    refine ⟨s₁, ?_⟩
    cases d with
    | none => rfl
    | some d =>
      cases d with
      | tags l => rfl
      | issues l => exact absurd rfl (hm l)

theorem mem_range'_one (m p : Nat) : p ∈ List.range' 1 m ↔ 1 ≤ p ∧ p ≤ m := by
  rw [List.mem_range'_1]
  omega

/-- C14: on a cache miss (`useCache` false, or no issue list served by the
first cache read) and for every upstream, `FetchGitHubIssues` requests the
pages 1, 2, ..., m in increasing order for some m between 1 and 10; a requested
page whose request fails or returns fewer than 100 items (zero included) is
the last page requested; and when every requested page succeeds, the returned
list is the concatenation in page order of the pages requested, with no
error, and the cache holds that same list under `"issues"`. -/
theorem FetchGitHubIssues_pages (s : ArtifactsService) (useCache : Bool)
    (upstream : Nat → Except String (List GitHubIssue)) (now₁ now₂ : Int)
    (hmiss : useCache = true →
      ∀ issues, (getCache s "issues" now₁).1 ≠ some (CacheData.issues issues)) :
    ∃ m, 1 ≤ m ∧ m ≤ 10 ∧
      (FetchGitHubIssuesRun s useCache upstream now₁ now₂).2.2 = List.range' 1 m ∧
      (∀ p ∈ (FetchGitHubIssuesRun s useCache upstream now₁ now₂).2.2,
        ((∃ err, upstream p = Except.error err) ∨
          (∃ items, upstream p = Except.ok items ∧ items.length < 100)) → p = m) ∧
      ((∀ p ∈ (FetchGitHubIssuesRun s useCache upstream now₁ now₂).2.2,
          ∃ items, upstream p = Except.ok items) →
        (FetchGitHubIssues s useCache upstream now₁ now₂).1 =
            Except.ok (pagesConcat upstream (List.range' 1 m)) ∧
          (FetchGitHubIssues s useCache upstream now₁ now₂).2.cache.get? "issues" =
            some { data := CacheData.issues (pagesConcat upstream (List.range' 1 m)),
                   timestamp := now₂ }) := by
  obtain ⟨s₁, hrun⟩ := FetchGitHubIssuesRun_miss s useCache upstream now₁ now₂ hmiss
  obtain ⟨m, hm, hpos, hreq, hfull, -, hend⟩ := issuesLoop_spec upstream maxPages 1 [] [] rfl
  have hm1 : 1 ≤ m := hpos (by decide)
  have hm10 : m ≤ 10 := hm
  unfold FetchGitHubIssues
  rw [hrun]
  generalize issuesLoop upstream maxPages 1 [] [] = r at hreq hend
  obtain ⟨e, requested⟩ := r
  simp only [List.nil_append] at hreq hend
  subst hreq
  have hshort : ∀ p ∈ List.range' 1 m,
      ((∃ err, upstream p = Except.error err) ∨
        (∃ items, upstream p = Except.ok items ∧ items.length < 100)) → p = m := by
    intro p hp hbad
    rw [mem_range'_one] at hp
    by_contra hne
    obtain ⟨items, h1, h2⟩ := hfull (p - 1) (by omega)
    have e1 : 1 + (p - 1) = p := by omega
    rw [e1] at h1
    unfold perPage at h2
    rcases hbad with ⟨err, h⟩ | ⟨items', h, hlt⟩
    · rw [h1] at h
      exact absurd h (by simp)
    · rw [h1] at h
      simp only [Except.ok.injEq] at h
      subst h
      omega
  rcases hend with ⟨err, hu, -, -, he, -⟩ | ⟨he, -⟩
  · subst he
    refine ⟨m, hm1, hm10, ?_, ?_, ?_⟩
    · simp only
      split <;> rfl
    · simp only
      split <;> exact hshort
    · intro hall
      exfalso
      have hmem : 1 ∈ List.range' 1 m := by
        rw [mem_range'_one]
        omega
      have : ∃ items, upstream 1 = Except.ok items := by
        revert hall
        simp only
        split <;> exact fun hall => hall 1 hmem
      obtain ⟨items, h⟩ := this
      rw [hu] at h
      exact absurd h (by simp)
  · subst he
    refine ⟨m, hm1, hm10, rfl, hshort, ?_⟩
    intro _
    constructor
    · simp
    · simp [setCache, GoMap.get?_set_self]

theorem FetchGitHubIssues_pages_witness :
    (true = true → ∀ issues,
      (getCache (NewArtifactsService "") "issues" 0).1 ≠ some (CacheData.issues issues)) ∧
    (FetchGitHubIssuesRun (NewArtifactsService "") true (samplePages 3) 0 5).2.2 = [1, 2, 3, 4] ∧
    ∃ m, 1 ≤ m ∧ m ≤ 10 ∧
      (FetchGitHubIssuesRun (NewArtifactsService "") true (samplePages 3) 0 5).2.2
        = List.range' 1 m ∧
      (∀ p ∈ (FetchGitHubIssuesRun (NewArtifactsService "") true (samplePages 3) 0 5).2.2,
        ((∃ err, samplePages 3 p = Except.error err) ∨
          (∃ items, samplePages 3 p = Except.ok items ∧ items.length < 100)) → p = m) ∧
      ((∀ p ∈ (FetchGitHubIssuesRun (NewArtifactsService "") true (samplePages 3) 0 5).2.2,
          ∃ items, samplePages 3 p = Except.ok items) →
        (FetchGitHubIssues (NewArtifactsService "") true (samplePages 3) 0 5).1 =
            Except.ok (pagesConcat (samplePages 3) (List.range' 1 m)) ∧
          (FetchGitHubIssues (NewArtifactsService "") true (samplePages 3) 0 5).2.cache.get? "issues" =
            some { data := CacheData.issues (pagesConcat (samplePages 3) (List.range' 1 m)),
                   timestamp := 5 }) :=
  ⟨fun _ issues => by simp [getCache, NewArtifactsService, GoMap.get?], rfl,
   FetchGitHubIssues_pages (NewArtifactsService "") true (samplePages 3) 0 5
     (fun _ issues => by simp [getCache, NewArtifactsService, GoMap.get?])⟩

/-- C13: with an `"issues"` entry written at time 0 in the cache and the
request for page 1 failing at time 3600000 (the entry is exactly one
`cacheDuration` old), `FetchGitHubIssues` returns the wrapped upstream error
for both values of `useCache`, only page 1 is requested, and the entry is gone
from the cache afterwards: the cached value that was present is not
returned. -/
theorem FetchGitHubIssues_stale_entry_not_served :
    staleIssuesService.cache.get? "issues" =
        some { data := CacheData.issues [sampleIssue 1], timestamp := 0 } ∧
      (FetchGitHubIssues staleIssuesService false (fun _ => Except.error "boom") 3600000 3600000).1 =
        Except.error "failed to fetch GitHub issues: boom" ∧
      (FetchGitHubIssues staleIssuesService true (fun _ => Except.error "boom") 3600000 3600000).1 =
        Except.error "failed to fetch GitHub issues: boom" ∧
      (FetchGitHubIssuesRun staleIssuesService false (fun _ => Except.error "boom")
          3600000 3600000).2.2 = [1] ∧
      (FetchGitHubIssues staleIssuesService false (fun _ => Except.error "boom")
          3600000 3600000).2.cache = [] := by
  refine ⟨rfl, ?_, ?_, ?_, ?_⟩ <;> rfl

/-- Supporting fact for C13, first part: when the request for page 1 fails on
a cache miss, the result is what the second cache read decides: the issue list
`getCache` returns at that time, or else the wrapped error. -/
theorem FetchGitHubIssues_first_page_fails (s : ArtifactsService)
    (upstream : Nat → Except String (List GitHubIssue)) (now₁ now₂ : Int) (err : String)
    (hu : upstream 1 = Except.error err) :
    (FetchGitHubIssues s false upstream now₁ now₂).1 =
      match (getCache s "issues" now₂).1 with
      | some (CacheData.issues issues) => Except.ok issues
      | _ => Except.error ("failed to fetch GitHub issues: " ++ err) := by
  have hloop : issuesLoop upstream maxPages 1 [] [] = (IssuesLoopEnd.failedFirst err, [1]) := by
    have h := issuesLoop_error upstream 9 1 [] [] err (by decide) hu
    simpa using h
  unfold FetchGitHubIssues FetchGitHubIssuesRun
  simp only [hloop, Bool.false_eq_true, if_false]
  generalize getCache s "issues" now₂ = r
  obtain ⟨d, s₂⟩ := r
  cases d with
  | none => rfl
  | some d =>
    cases d with
    | tags l => rfl
    | issues l => rfl

/-- Supporting fact for C13, second part: when the pages 1 to k-1 each
succeed with exactly 100 issues and the request for page k fails, for
2 ≤ k ≤ 10, `FetchGitHubIssues` returns the concatenation of the pages 1 to
k-1 and no error. -/
theorem FetchGitHubIssues_later_page_fails (s : ArtifactsService)
    (upstream : Nat → Except String (List GitHubIssue)) (now₁ now₂ : Int) (k : Nat) (err : String)
    (hk2 : 2 ≤ k) (hk10 : k ≤ 10)
    (hfullPages : ∀ p, 1 ≤ p → p < k → ∃ items, upstream p = Except.ok items ∧ items.length = 100)
    (hu : upstream k = Except.error err) :
    (FetchGitHubIssues s false upstream now₁ now₂).1 =
      Except.ok (pagesConcat upstream (List.range' 1 (k - 1))) := by
  obtain ⟨m, hm, hpos, hreq, hfull, hlast, hend⟩ := issuesLoop_spec upstream maxPages 1 [] [] rfl
  have hm1 : 1 ≤ m := hpos (by decide)
  have hm10 : m ≤ 10 := hm
  have hmk : m = k := by
    rcases Nat.lt_trichotomy m k with hlt | heq | hgt
    · exfalso
      obtain ⟨items, h1, h2⟩ := hfullPages m hm1 hlt
      have e1 : 1 + m - 1 = m := by omega
      rcases hlast hm1 with h | ⟨err', h⟩ | ⟨items', h, hshort⟩
      · unfold maxPages at h
        omega
      · rw [e1, h1] at h
        exact absurd h (by simp)
      · rw [e1, h1] at h
        simp only [Except.ok.injEq] at h
        subst h
        unfold perPage at hshort
        omega
    · exact heq
    · exfalso
      obtain ⟨items, h1, _⟩ := hfull (k - 1) (by omega)
      have e1 : 1 + (k - 1) = k := by omega
      rw [e1, hu] at h1
      exact absurd h1 (by simp)
  subst hmk
  have hfin : (issuesLoop upstream maxPages 1 [] []).1 =
      IssuesLoopEnd.finished (pagesConcat upstream (List.range' 1 (m - 1))) := by
    rcases hend with ⟨err', h, _⟩ | ⟨h, _⟩
    · exfalso
      obtain ⟨items, h1, _⟩ := hfullPages 1 (le_refl 1) (by omega)
      rw [h1] at h
      exact absurd h (by simp)
    · rw [h]
      have e : m = (m - 1) + 1 := by omega
      have hsplit : List.range' 1 m = List.range' 1 (m - 1) ++ [m] := by
        conv_lhs => rw [e]
        rw [List.range'_concat]
        simp
        omega
      rw [hsplit, pagesConcat_append]
      simp [pagesConcat, pageItems_error upstream m err hu]
  unfold FetchGitHubIssues FetchGitHubIssuesRun
  simp only [Bool.false_eq_true, if_false]
  generalize issuesLoop upstream maxPages 1 [] [] = r at hfin
  obtain ⟨e, requested⟩ := r
  simp only at hfin
  subst hfin
  rfl

/-! ### The query entry point -/

theorem queryArtifacts_eq (timeParse : String → Option Int) (artifacts : List ArtifactEntry)
    (query : ArtifactsQuery) :
    queryArtifacts timeParse artifacts query =
      PaginateArtifacts
        (SortArtifacts timeParse (FilterArtifacts artifacts query) query.SortBy query.SortOrder)
        (effectiveLimit query) query.Offset := by
  unfold queryArtifacts effectiveLimit
  by_cases h : query.Limit = 0
  · simp [h]
  · simp [h]

theorem queryArtifacts_limit_zero (timeParse : String → Option Int)
    (artifacts : List ArtifactEntry) (query : ArtifactsQuery) (h : query.Limit = 0) :
    queryArtifacts timeParse artifacts query =
      queryArtifacts timeParse artifacts { query with Limit := 50 } := by
  rw [queryArtifacts_eq, queryArtifacts_eq]
  simp only [effectiveLimit, h, if_true]
  rfl

/-- Supporting fact for C15: a query with `Limit` 0 is answered as the same
query with `Limit` 50. -/
theorem GetArtifacts_limit_zero (timeParse : String → Option Int)
    (rangeWindows rangeLinux : GoMap Artifact → List (String × Artifact))
    (s : ArtifactsService) (upstream : Except String (List GitHubTag)) (now₁ now₂ : Int)
    (now : String) (query : ArtifactsQuery) (h : query.Limit = 0) :
    GetArtifacts timeParse rangeWindows rangeLinux s upstream now₁ now₂ now query =
      GetArtifacts timeParse rangeWindows rangeLinux s upstream now₁ now₂ now
        { query with Limit := 50 } := by
  unfold GetArtifacts
  simp only [queryArtifacts_limit_zero timeParse _ query h]

theorem PaginateArtifacts_length_le (artifacts : List ArtifactEntry) (limit offset : Int)
    (hlimit : 0 ≤ limit) (hsum : offset + limit ≤ 9223372036854775807) :
    ∃ page, PaginateArtifacts artifacts limit offset = some page ∧ (page.length : Int) ≤ limit := by
  rw [PaginateArtifacts_segment artifacts limit offset hlimit hsum]
  split
  · exact ⟨[], rfl, by simpa using hlimit⟩
  · refine ⟨_, rfl, ?_⟩
    have h1 := List.length_take_le ((min (offset + limit) (artifacts.length : Int)) - offset).toNat
      (artifacts.drop offset.toNat)
    omega

/-- Supporting fact for C15: when the tags are available and the sum of
`Offset` and the limit in force (50 for `Limit` 0) does not exceed the largest
64-bit integer, `GetArtifacts` returns, with no error, the list
`PaginateArtifacts (SortArtifacts (FilterArtifacts flattened q) ..) limit q.Offset`,
which has at most that many entries. -/
theorem GetArtifacts_paginated (timeParse : String → Option Int)
    (rangeWindows rangeLinux : GoMap Artifact → List (String × Artifact))
    (s : ArtifactsService) (upstream : Except String (List GitHubTag)) (now₁ now₂ : Int)
    (now : String) (query : ArtifactsQuery) (tags : List GitHubTag)
    (hfetch : (FetchGitHubTags s true upstream now₁ now₂).1 = Except.ok tags)
    (hlimit : 0 ≤ query.Limit)
    (hsum : query.Offset + effectiveLimit query ≤ 9223372036854775807) :
    ∃ entries,
      (GetArtifacts timeParse rangeWindows rangeLinux s upstream now₁ now₂ now query).1 =
        GetOutcome.ok entries ∧
      PaginateArtifacts
        (SortArtifacts timeParse
          (FilterArtifacts
            (flattenArtifacts (rangeWindows (ProcessGitHubTags tags now).Windows)
              (rangeLinux (ProcessGitHubTags tags now).Linux)) query)
          query.SortBy query.SortOrder)
        (effectiveLimit query) query.Offset = some entries ∧
      (entries.length : Int) ≤ effectiveLimit query := by
  have hl : 0 ≤ effectiveLimit query := by
    unfold effectiveLimit
    split <;> omega
  obtain ⟨page, hp, hlen⟩ := PaginateArtifacts_length_le
    (SortArtifacts timeParse
      (FilterArtifacts
        (flattenArtifacts (rangeWindows (ProcessGitHubTags tags now).Windows)
          (rangeLinux (ProcessGitHubTags tags now).Linux)) query)
      query.SortBy query.SortOrder) (effectiveLimit query) query.Offset hl hsum
  refine ⟨page, ?_, hp, hlen⟩
  unfold GetArtifacts
  generalize FetchGitHubTags s true upstream now₁ now₂ = r at hfetch
  obtain ⟨res, s₁⟩ := r
  simp only at hfetch
  subst hfetch
  simp only [queryArtifacts_eq, hp]

/-- C15: with the tags `v1.2.3.24769`, `v1.2.3.24574` available (four entries
after flattening, none filtered out), the query with `Limit` equal to the
largest 64-bit integer and `Offset` 1 makes `GetArtifacts` panic in
`PaginateArtifacts`: `Offset + Limit` wraps to a negative `end`. No list of at
most `Limit` entries is returned. The query with `Limit` 0 and the one with
`Limit` 50 return the same list, the three entries after the first. -/
theorem GetArtifacts_huge_limit_panics :
    (0 : Int) < (pageQuery 9223372036854775807 1).Limit ∧
    (FilterArtifacts
      (flattenArtifacts (ProcessGitHubTags exampleTags "2025-01-01T00:00:00Z").Windows
        (ProcessGitHubTags exampleTags "2025-01-01T00:00:00Z").Linux)
      (pageQuery 9223372036854775807 1)).length = 4 ∧
    (GetArtifacts parseRFC3339 id id (NewArtifactsService "") (Except.ok exampleTags) 0 0
      "2025-01-01T00:00:00Z" (pageQuery 9223372036854775807 1)).1 = GetOutcome.panic ∧
    (GetArtifacts parseRFC3339 id id (NewArtifactsService "") (Except.ok exampleTags) 0 0
      "2025-01-01T00:00:00Z" (pageQuery 0 1)).1 =
      (GetArtifacts parseRFC3339 id id (NewArtifactsService "") (Except.ok exampleTags) 0 0
        "2025-01-01T00:00:00Z" (pageQuery 50 1)).1 ∧
    (∃ entries, (GetArtifacts parseRFC3339 id id (NewArtifactsService "") (Except.ok exampleTags)
      0 0 "2025-01-01T00:00:00Z" (pageQuery 0 1)).1 = GetOutcome.ok entries ∧
      entries.length = 3) := by
  refine ⟨by decide, by rfl, by rfl, by rfl, ⟨_, rfl, rfl⟩⟩

/-- C16: on ten entries, `limit = -3` and `offset = 5` give `end = 2`, below
`offset`, and the slice expression `artifacts[5:2]` panics (`none`); so does
`limit` equal to the largest 64-bit integer with `offset = 5`, where the sum
wraps. Through `GetArtifacts`, the queries with `Limit` -3 and `Offset` 1, and
with `Limit` 9223372036854775807 and `Offset` 1, panic as well on four
entries. -/
theorem PaginateArtifacts_negative_limit_panics :
    tenEntries.length = 10 ∧
    PaginateArtifacts tenEntries (-3) 5 = none ∧
    wrap64 (5 + (-3)) = 2 ∧
    PaginateArtifacts tenEntries 9223372036854775807 5 = none ∧
    wrap64 (5 + 9223372036854775807) = -9223372036854775804 ∧
    (GetArtifacts parseRFC3339 id id (NewArtifactsService "") (Except.ok exampleTags) 0 0
      "2025-01-01T00:00:00Z" (pageQuery (-3) 1)).1 = GetOutcome.panic ∧
    (GetArtifacts parseRFC3339 id id (NewArtifactsService "") (Except.ok exampleTags) 0 0
      "2025-01-01T00:00:00Z" (pageQuery 9223372036854775807 1)).1 = GetOutcome.panic := by
  refine ⟨by rfl, by decide, by decide, by decide, by decide, by rfl, by rfl⟩

/-! ### Sorting by date -/

theorem artifactLess_date (timeParse : String → Option Int) (sortOrder : String)
    (x y : ArtifactEntry) :
    artifactLess timeParse "date" sortOrder x y =
      if sortOrder = "asc" then decide (dateInstant timeParse x.Date < dateInstant timeParse y.Date)
      else decide (dateInstant timeParse y.Date < dateInstant timeParse x.Date) := by
  have hne : ¬ ("date" : String) = "version" := by decide
  unfold artifactLess compareValue
  simp only [hne, if_false, if_true]
  split
  · exact decide_eq_decide.mpr (sign_neg_iff _ _)
  · exact decide_eq_decide.mpr (sign_pos_iff _ _)

/-- C17 (amended): in the `date` case an entry whose `Date` does not parse is
compared as Go's zero `Time` (instant 0, 0001-01-01T00:00:00Z). Two entries
whose `Date`s both fail to parse are ordered neither way, for every sort
order; against an entry whose `Date` parses to the instant `t`, the
unparseable one comes first in ascending order exactly when `0 < t` and the
parsed one exactly when `t < 0`, and the other way round in descending order
(every `sortOrder` other than `asc`, the default for the empty one included). -/
theorem artifactLess_date_unparseable (timeParse : String → Option Int) (sortOrder : String)
    (x y : ArtifactEntry) (hx : timeParse x.Date = none) :
    (timeParse y.Date = none →
      effectiveLess timeParse "date" sortOrder x y = false ∧
      effectiveLess timeParse "date" sortOrder y x = false) ∧
    (∀ t, timeParse y.Date = some t →
      effectiveLess timeParse "date" sortOrder x y =
        (if sortOrder = "asc" then decide (0 < t) else decide (t < 0)) ∧
      effectiveLess timeParse "date" sortOrder y x =
        (if sortOrder = "asc" then decide (t < 0) else decide (0 < t))) := by
  have hne : ¬ ("date" : String) = "" := by decide
  have hd : ¬ ("desc" : String) = "asc" := by decide
  have hix : dateInstant timeParse x.Date = 0 := by simp [dateInstant, hx]
  unfold effectiveLess
  simp only [hne, if_false, artifactLess_date, hix]
  constructor
  · intro hy
    have hiy : dateInstant timeParse y.Date = 0 := by simp [dateInstant, hy]
    rw [hiy]
    by_cases he : sortOrder = ""
    · simp [he]
    · simp [he]
  · intro t hy
    have hiy : dateInstant timeParse y.Date = t := by simp [dateInstant, hy]
    rw [hiy]
    by_cases he : sortOrder = ""
    · subst he
      simp
    · simp [he]

theorem artifactLess_date_unparseable_witness :
    parseRFC3339 undatedEntry.Date = none ∧
    parseRFC3339 datedEntry.Date = some 63871286400000000000 ∧
    effectiveLess parseRFC3339 "date" "asc" undatedEntry datedEntry =
      (if ("asc" : String) = "asc" then decide ((0 : Int) < 63871286400000000000)
        else decide ((63871286400000000000 : Int) < 0)) :=
  ⟨by decide, by decide,
   ((artifactLess_date_unparseable parseRFC3339 "asc" undatedEntry datedEntry (by decide)).2
      63871286400000000000 (by decide)).1⟩

/-- C17 (counterexample): the `Date` `not-a-date` does not parse and
`2025-01-01T00:00:00Z` does; the comparator orders the entry with the
unparseable date before the other in ascending order and after it in
descending order, and `SortArtifacts` by date moves it accordingly: the two
entries do not compare as equal. -/
theorem artifactLess_date_unparseable_ordered :
    parseRFC3339 undatedEntry.Date = none ∧
    parseRFC3339 datedEntry.Date = some 63871286400000000000 ∧
    artifactLess parseRFC3339 "date" "asc" undatedEntry datedEntry = true ∧
    artifactLess parseRFC3339 "date" "desc" datedEntry undatedEntry = true ∧
    SortArtifacts parseRFC3339 [datedEntry, undatedEntry] "date" "asc" =
      [undatedEntry, datedEntry] ∧
    SortArtifacts parseRFC3339 [undatedEntry, datedEntry] "date" "desc" =
      [datedEntry, undatedEntry] := by
  refine ⟨by decide, by decide, by decide, by decide, by decide, by decide⟩

/-! ### Reading a version -/

/-- C19 (amended): `parseVersion` returns the value of the longest leading run
of ASCII digits when that value is at most 9223372036854775807, and 0 when the
value is larger; it returns 0 exactly when the run denotes zero (an empty run,
for the empty string or a string that does not start with a digit, included)
or a value above 9223372036854775807; and for two versions whose runs are both
at most 9223372036854775807 the comparator's difference, computed in 64-bit
arithmetic, has the sign of the comparison of the two values. -/
theorem parseVersion_spec (a b : String) :
    ((leadingDigitRunValue a : Int) ≤ 9223372036854775807 →
      parseVersion a = (leadingDigitRunValue a : Int)) ∧
    (9223372036854775807 < (leadingDigitRunValue a : Int) → parseVersion a = 0) ∧
    (parseVersion a = 0 ↔
      leadingDigitRunValue a = 0 ∨ 9223372036854775807 < (leadingDigitRunValue a : Int)) ∧
    (a.data.takeWhile isDigit = [] → leadingDigitRunValue a = 0) ∧
    ((leadingDigitRunValue a : Int) ≤ 9223372036854775807 →
      (leadingDigitRunValue b : Int) ≤ 9223372036854775807 →
      (wrap64 (parseVersion a - parseVersion b) < 0 ↔
        leadingDigitRunValue a < leadingDigitRunValue b) ∧
      (wrap64 (parseVersion a - parseVersion b) = 0 ↔
        leadingDigitRunValue a = leadingDigitRunValue b) ∧
      (0 < wrap64 (parseVersion a - parseVersion b) ↔
        leadingDigitRunValue b < leadingDigitRunValue a)) := by
  have ha := parseVersion_eq a
  have hb := parseVersion_eq b
  unfold maxInt64 at ha hb
  refine ⟨?_, ?_, ?_, ?_, ?_⟩
  · intro h
    rw [ha, if_pos h]
  · intro h
    rw [ha, if_neg (by omega)]
  · rw [ha]
    split <;> omega
  · intro h
    simp [leadingDigitRunValue, h, digitsValue]
  · intro h1 h2
    rw [wrap64_parseVersion_sub, ha, hb, if_pos h1, if_pos h2]
    omega

/-- C19 (counterexample): the version `99999999999999999999` starts with a run
of twenty digits whose value is not zero, and `parseVersion` returns 0 for it;
the same holds from 9223372036854775808 on, while 9223372036854775807 is read
as itself. Against version `5` the comparator's difference is negative
although the run is the larger number. -/
theorem parseVersion_long_run_zero :
    leadingDigitRunValue "99999999999999999999" = 99999999999999999999 ∧
    parseVersion "99999999999999999999" = 0 ∧
    parseVersion "9223372036854775808" = 0 ∧
    parseVersion "9223372036854775807" = 9223372036854775807 ∧
    parseVersion "5" = 5 ∧
    wrap64 (parseVersion "99999999999999999999" - parseVersion "5") = -5 := by
  refine ⟨by decide, by decide, by decide, by decide, by decide, by decide⟩

/-! ### `sort.Slice` commutes with a change of representation -/

namespace GoSort
variable {α β : Type}

theorem Less_map (g : β → α) (less : α → α → Bool) (data : List β) (i j : Nat) :
    Less less (data.map g) i j = Less (fun a b => less (g a) (g b)) data i j := by
  unfold Less
  simp only [List.getElem?_map]
  cases data[i]? <;> cases data[j]? <;> rfl

theorem Swap_map (g : β → α) (data : List β) (i j : Nat) :
    Swap (data.map g) i j = (Swap data i j).map g := by
  unfold Swap
  simp only [List.getElem?_map]
  cases data[i]? <;> cases data[j]? <;> simp [List.map_set]

theorem insertionSortInner_map (g : β → α) (less : α → α → Bool) (a : Nat) :
    ∀ (j : Nat) (data : List β),
      insertionSortInner less a (data.map g) j =
        (insertionSortInner (fun a b => less (g a) (g b)) a data j).map g
  | 0, data => rfl
  | j + 1, data => by
    unfold insertionSortInner
    rw [Less_map, Swap_map, insertionSortInner_map g less a j]
    split_ifs <;> rfl

theorem insertionSortOuter_map (g : β → α) (less : α → α → Bool) (a : Nat) :
    ∀ (n i : Nat) (data : List β),
      insertionSortOuter less a (data.map g) i n =
        (insertionSortOuter (fun a b => less (g a) (g b)) a data i n).map g
  | 0, i, data => rfl
  | n + 1, i, data => by
    unfold insertionSortOuter
    rw [insertionSortInner_map, insertionSortOuter_map g less a n]

theorem insertionSort_func_map (g : β → α) (less : α → α → Bool) (data : List β) (a b : Nat) :
    insertionSort_func less (data.map g) a b =
      (insertionSort_func (fun a b => less (g a) (g b)) data a b).map g := by
  unfold insertionSort_func
  rw [insertionSortOuter_map]

theorem siftDown_func_map (g : β → α) (less : α → α → Bool) (hi first : Nat) :
    ∀ (fuel root : Nat) (data : List β),
      siftDown_func less hi first (data.map g) root fuel =
        (siftDown_func (fun a b => less (g a) (g b)) hi first data root fuel).map g
  | 0, root, data => rfl
  | fuel + 1, root, data => by
    unfold siftDown_func
    simp only [Less_map, Swap_map, siftDown_func_map g less hi first fuel]
    split_ifs <;> rfl

theorem heapSortBuild_map (g : β → α) (less : α → α → Bool) (hi first : Nat) :
    ∀ (i : Nat) (data : List β),
      heapSortBuild less hi first (data.map g) i =
        (heapSortBuild (fun a b => less (g a) (g b)) hi first data i).map g
  | 0, data => rfl
  | i + 1, data => by
    unfold heapSortBuild
    rw [siftDown_func_map, heapSortBuild_map g less hi first i]

theorem heapSortPop_map (g : β → α) (less : α → α → Bool) (first : Nat) :
    ∀ (i : Nat) (data : List β),
      heapSortPop less first (data.map g) i =
        (heapSortPop (fun a b => less (g a) (g b)) first data i).map g
  | 0, data => rfl
  | i + 1, data => by
    unfold heapSortPop
    rw [Swap_map, siftDown_func_map, heapSortPop_map g less first i]

theorem heapSort_func_map (g : β → α) (less : α → α → Bool) (data : List β) (a b : Nat) :
    heapSort_func less (data.map g) a b =
      (heapSort_func (fun a b => less (g a) (g b)) data a b).map g := by
  unfold heapSort_func
  simp only [heapSortBuild_map, heapSortPop_map]

theorem scanLessUp_map (g : β → α) (less : α → α → Bool) (data : List β) (a : Nat) :
    ∀ (n i : Nat), scanLessUp less (data.map g) a i n =
      scanLessUp (fun a b => less (g a) (g b)) data a i n
  | 0, i => rfl
  | n + 1, i => by
    unfold scanLessUp
    rw [Less_map, scanLessUp_map g less data a n]

theorem scanNotLessDown_map (g : β → α) (less : α → α → Bool) (data : List β) (a : Nat) :
    ∀ (n j : Nat), scanNotLessDown less (data.map g) a j n =
      scanNotLessDown (fun a b => less (g a) (g b)) data a j n
  | 0, j => rfl
  | n + 1, j => by
    unfold scanNotLessDown
    rw [Less_map, scanNotLessDown_map g less data a n]

theorem partitionLoop_map (g : β → α) (less : α → α → Bool) (a : Nat) :
    ∀ (fuel i j : Nat) (data : List β),
      partitionLoop less a (data.map g) i j fuel =
        (((partitionLoop (fun a b => less (g a) (g b)) a data i j fuel).1).map g,
          (partitionLoop (fun a b => less (g a) (g b)) a data i j fuel).2)
  | 0, i, j, data => rfl
  | fuel + 1, i, j, data => by
    unfold partitionLoop
    simp only [scanLessUp_map, scanNotLessDown_map, Swap_map,
      partitionLoop_map g less a fuel]
    split_ifs <;> rfl

theorem partition_func_map (g : β → α) (less : α → α → Bool) (data : List β) (a b pivot : Nat) :
    partition_func less (data.map g) a b pivot =
      (((partition_func (fun a b => less (g a) (g b)) data a b pivot).1).map g,
        (partition_func (fun a b => less (g a) (g b)) data a b pivot).2) := by
  unfold partition_func
  simp only [Swap_map, scanLessUp_map, scanNotLessDown_map, partitionLoop_map]
  split_ifs <;> rfl

theorem scanNotGreaterUp_map (g : β → α) (less : α → α → Bool) (data : List β) (a : Nat) :
    ∀ (n i : Nat), scanNotGreaterUp less (data.map g) a i n =
      scanNotGreaterUp (fun a b => less (g a) (g b)) data a i n
  | 0, i => rfl
  | n + 1, i => by
    unfold scanNotGreaterUp
    rw [Less_map, scanNotGreaterUp_map g less data a n]

theorem scanGreaterDown_map (g : β → α) (less : α → α → Bool) (data : List β) (a : Nat) :
    ∀ (n j : Nat), scanGreaterDown less (data.map g) a j n =
      scanGreaterDown (fun a b => less (g a) (g b)) data a j n
  | 0, j => rfl
  | n + 1, j => by
    unfold scanGreaterDown
    rw [Less_map, scanGreaterDown_map g less data a n]

theorem partitionEqualLoop_map (g : β → α) (less : α → α → Bool) (a : Nat) :
    ∀ (fuel i j : Nat) (data : List β),
      partitionEqualLoop less a (data.map g) i j fuel =
        (((partitionEqualLoop (fun a b => less (g a) (g b)) a data i j fuel).1).map g,
          (partitionEqualLoop (fun a b => less (g a) (g b)) a data i j fuel).2)
  | 0, i, j, data => rfl
  | fuel + 1, i, j, data => by
    unfold partitionEqualLoop
    simp only [scanNotGreaterUp_map, scanGreaterDown_map, Swap_map,
      partitionEqualLoop_map g less a fuel]
    split_ifs <;> rfl

theorem partitionEqual_func_map (g : β → α) (less : α → α → Bool) (data : List β)
    (a b pivot : Nat) :
    partitionEqual_func less (data.map g) a b pivot =
      (((partitionEqual_func (fun a b => less (g a) (g b)) data a b pivot).1).map g,
        (partitionEqual_func (fun a b => less (g a) (g b)) data a b pivot).2) := by
  unfold partitionEqual_func
  simp only [Swap_map, partitionEqualLoop_map]

theorem scanOrdered_map (g : β → α) (less : α → α → Bool) (data : List β) :
    ∀ (n i : Nat), scanOrdered less (data.map g) i n =
      scanOrdered (fun a b => less (g a) (g b)) data i n
  | 0, i => rfl
  | n + 1, i => by
    unfold scanOrdered
    rw [Less_map, scanOrdered_map g less data n]

theorem shiftLeft_map (g : β → α) (less : α → α → Bool) :
    ∀ (j : Nat) (data : List β),
      shiftLeft less (data.map g) j = (shiftLeft (fun a b => less (g a) (g b)) data j).map g
  | 0, data => rfl
  | j + 1, data => by
    unfold shiftLeft
    rw [Less_map, Swap_map, shiftLeft_map g less j]
    split_ifs <;> rfl

theorem shiftRight_map (g : β → α) (less : α → α → Bool) :
    ∀ (n j : Nat) (data : List β),
      shiftRight less (data.map g) j n =
        (shiftRight (fun a b => less (g a) (g b)) data j n).map g
  | 0, j, data => rfl
  | n + 1, j, data => by
    unfold shiftRight
    rw [Less_map, Swap_map, shiftRight_map g less n]
    split_ifs <;> rfl

theorem partialInsertionSortLoop_map (g : β → α) (less : α → α → Bool) (a b : Nat) :
    ∀ (steps i : Nat) (data : List β),
      partialInsertionSortLoop less a b (data.map g) i steps =
        (((partialInsertionSortLoop (fun a b => less (g a) (g b)) a b data i steps).1).map g,
          (partialInsertionSortLoop (fun a b => less (g a) (g b)) a b data i steps).2)
  | 0, i, data => rfl
  | steps + 1, i, data => by
    unfold partialInsertionSortLoop
    simp only [scanOrdered_map, Swap_map, shiftLeft_map]
    split_ifs
    all_goals
      first
      | rfl
      | simp only [shiftRight_map, partialInsertionSortLoop_map g less a b steps]

theorem partialInsertionSort_func_map (g : β → α) (less : α → α → Bool) (data : List β)
    (a b : Nat) :
    partialInsertionSort_func less (data.map g) a b =
      (((partialInsertionSort_func (fun a b => less (g a) (g b)) data a b).1).map g,
        (partialInsertionSort_func (fun a b => less (g a) (g b)) data a b).2) := by
  unfold partialInsertionSort_func
  rw [partialInsertionSortLoop_map]

theorem breakPatternsLoop_map (g : β → α) (a length modulus idx : Nat) :
    ∀ (n random i : Nat) (data : List β),
      breakPatternsLoop a length modulus idx (data.map g) random i n =
        (breakPatternsLoop a length modulus idx data random i n).map g
  | 0, random, i, data => rfl
  | n + 1, random, i, data => by
    unfold breakPatternsLoop
    simp only [Swap_map, breakPatternsLoop_map g a length modulus idx n]

theorem breakPatterns_func_map (g : β → α) (data : List β) (a b : Nat) :
    breakPatterns_func (data.map g) a b = (breakPatterns_func data a b).map g := by
  unfold breakPatterns_func
  simp only [breakPatternsLoop_map]
  split_ifs <;> rfl

theorem order2_func_map (g : β → α) (less : α → α → Bool) (data : List β) (a b swaps : Nat) :
    order2_func less (data.map g) a b swaps =
      order2_func (fun a b => less (g a) (g b)) data a b swaps := by
  unfold order2_func
  rw [Less_map]

theorem median_func_map (g : β → α) (less : α → α → Bool) (data : List β) (a b c swaps : Nat) :
    median_func less (data.map g) a b c swaps =
      median_func (fun a b => less (g a) (g b)) data a b c swaps := by
  unfold median_func
  simp only [order2_func_map]

theorem medianAdjacent_func_map (g : β → α) (less : α → α → Bool) (data : List β)
    (a swaps : Nat) :
    medianAdjacent_func less (data.map g) a swaps =
      medianAdjacent_func (fun a b => less (g a) (g b)) data a swaps := by
  unfold medianAdjacent_func
  rw [median_func_map]

theorem choosePivot_func_map (g : β → α) (less : α → α → Bool) (data : List β) (a b : Nat) :
    choosePivot_func less (data.map g) a b =
      choosePivot_func (fun a b => less (g a) (g b)) data a b := by
  unfold choosePivot_func
  simp only [medianAdjacent_func_map, median_func_map]

theorem reverseRangeLoop_map (g : β → α) :
    ∀ (fuel i j : Nat) (data : List β),
      reverseRangeLoop (data.map g) i j fuel = (reverseRangeLoop data i j fuel).map g
  | 0, i, j, data => rfl
  | fuel + 1, i, j, data => by
    unfold reverseRangeLoop
    rw [Swap_map, reverseRangeLoop_map g fuel]
    split_ifs <;> rfl

theorem reverseRange_func_map (g : β → α) (data : List β) (a b : Nat) :
    reverseRange_func (data.map g) a b = (reverseRange_func data a b).map g := by
  unfold reverseRange_func
  rw [reverseRangeLoop_map]

theorem pdqsort_func_map (g : β → α) (less : α → α → Bool) :
    ∀ (fuel : Nat) (data : List β) (a b limit : Nat) (wasBalanced wasPartitioned : Bool),
      pdqsort_func less fuel (data.map g) a b limit wasBalanced wasPartitioned =
        (pdqsort_func (fun a b => less (g a) (g b)) fuel data a b limit wasBalanced
          wasPartitioned).map g
  | 0, data, a, b, limit, wasBalanced, wasPartitioned => by
    unfold pdqsort_func
    rw [insertionSort_func_map]
  | fuel + 1, data, a, b, limit, wasBalanced, wasPartitioned => by
    have ih := pdqsort_func_map g less fuel
    unfold pdqsort_func
    simp only
    by_cases h12 : b - a ≤ 12
    · simp only [h12, if_true]
      rw [insertionSort_func_map]
    · simp only [h12, if_false]
      by_cases hl : limit = 0
      · simp only [hl, if_true]
        rw [heapSort_func_map]
      · simp only [hl, if_false]
        have hbp : (if (!wasBalanced) = true then breakPatterns_func (data.map g) a b
            else data.map g) =
            (if (!wasBalanced) = true then breakPatterns_func data a b else data).map g := by
          split_ifs
          · rw [breakPatterns_func_map]
          · rfl
        rw [hbp]
        generalize (if (!wasBalanced) = true then breakPatterns_func data a b else data) = d₁
        generalize (if (!wasBalanced) = true then limit - 1 else limit) = limit₁
        rw [choosePivot_func_map]
        generalize choosePivot_func (fun a b => less (g a) (g b)) d₁ a b = ph
        have hrev : (if decide (ph.2 = sortedHint.decreasingHint) = true then
              reverseRange_func (d₁.map g) a b else d₁.map g) =
            (if decide (ph.2 = sortedHint.decreasingHint) = true then
              reverseRange_func d₁ a b else d₁).map g := by
          split_ifs
          · rw [reverseRange_func_map]
          · rfl
        rw [hrev]
        generalize (if decide (ph.2 = sortedHint.decreasingHint) = true then
              reverseRange_func d₁ a b else d₁) = d₂
        generalize (if decide (ph.2 = sortedHint.decreasingHint) = true then
              b - 1 - (ph.1 - a) else ph.1) = pivot
        generalize (wasBalanced && wasPartitioned &&
          decide ((if decide (ph.2 = sortedHint.decreasingHint) = true then
            sortedHint.increasingHint else ph.2) = sortedHint.increasingHint)) = tryPartial
        have hps : (if tryPartial = true then partialInsertionSort_func less (d₂.map g) a b
            else (d₂.map g, false)) =
            (((if tryPartial = true then
                partialInsertionSort_func (fun a b => less (g a) (g b)) d₂ a b
                else (d₂, false)).1).map g,
              (if tryPartial = true then
                partialInsertionSort_func (fun a b => less (g a) (g b)) d₂ a b
                else (d₂, false)).2) := by
          split_ifs
          · rw [partialInsertionSort_func_map]
          · rfl
        rw [hps]
        generalize (if tryPartial = true then
                partialInsertionSort_func (fun a b => less (g a) (g b)) d₂ a b
                else (d₂, false)) = ps
        simp only [Less_map, partitionEqual_func_map, partition_func_map, ih]
        split_ifs <;> rfl

theorem Slice_map (g : β → α) (less : α → α → Bool) (x : List β) :
    Slice less (x.map g) = (Slice (fun a b => less (g a) (g b)) x).map g := by
  unfold Slice
  simp only [List.length_map, pdqsort_func_map]

end GoSort

/-! ### `sort.Slice` sorts for every strict weak order -/

namespace GoSort
variable {α : Type}

theorem strictWeak_of_key {β : Type} [LinearOrder β] (less : α → α → Bool) (key : α → β)
    (h : (∀ x y, less x y = decide (key x < key y)) ∨ (∀ x y, less x y = decide (key y < key x))) :
    StrictWeak less := by
  rcases h with h | h
  · refine ⟨?_, ?_, ?_⟩
    · intro x
      simp [h]
    · intro x y z h1 h2
      rw [h] at h1 h2 ⊢
      simp only [decide_eq_true_eq] at h1 h2 ⊢
      exact lt_trans h1 h2
    · intro x y z h1 h2
      rw [h] at h1 h2 ⊢
      simp only [decide_eq_false_iff_not, not_lt] at h1 h2 ⊢
      exact le_trans h2 h1
  · refine ⟨?_, ?_, ?_⟩
    · intro x
      simp [h]
    · intro x y z h1 h2
      rw [h] at h1 h2 ⊢
      simp only [decide_eq_true_eq] at h1 h2 ⊢
      exact lt_trans h2 h1
    · intro x y z h1 h2
      rw [h] at h1 h2 ⊢
      simp only [decide_eq_false_iff_not, not_lt] at h1 h2 ⊢
      exact le_trans h1 h2

theorem countP_lt_countP (p q : α → Bool) :
    ∀ (l : List α), (∀ z ∈ l, p z = true → q z = true) →
      (∃ x ∈ l, q x = true ∧ p x = false) → l.countP p < l.countP q
  | [], _, hx => by
    obtain ⟨x, hx, _⟩ := hx
    simp at hx
  | a :: t, himp, hx => by
    have hmono : t.countP p ≤ t.countP q :=
      List.countP_mono_left (fun z hz => himp z (List.mem_cons_of_mem _ hz))
    rw [List.countP_cons, List.countP_cons]
    obtain ⟨x, hxm, hq, hp⟩ := hx
    rcases List.mem_cons.mp hxm with e | e
    · subst e
      rw [if_pos hq, if_neg (by simp [hp])]
      omega
    · have ih := countP_lt_countP p q t (fun z hz => himp z (List.mem_cons_of_mem _ hz))
        ⟨x, e, hq, hp⟩
      by_cases hpa : p a = true
      · have hqa := himp a (List.mem_cons_self _ _) hpa
        rw [if_pos hpa, if_pos hqa]
        omega
      · rw [if_neg hpa]
        split <;> omega

/-- On the elements of `l`, a strict weak order compares the rank in `l`. -/
theorem less_eq_rank_lt (less : α → α → Bool) (hless : StrictWeak less) (l : List α)
    (x y : α) (hx : x ∈ l) :
    less x y = decide (rankIn less l x < rankIn less l y) := by
  obtain ⟨hirr, htrans, hneg⟩ := hless
  unfold rankIn
  by_cases h : less x y = true
  · rw [h]
    symm
    rw [decide_eq_true_eq]
    have := countP_lt_countP (fun z => less z x) (fun z => less z y) l
      (fun z _ hz => htrans z x y hz h) ⟨x, hx, h, hirr x⟩
    omega
  · have hf : less x y = false := by simpa using h
    rw [hf]
    symm
    rw [decide_eq_false_iff_not]
    have : l.countP (fun z => less z y) ≤ l.countP (fun z => less z x) := by
      apply List.countP_mono_left
      intro z _ hz
      by_contra hc
      have hzx : less z x = false := by simpa using hc
      have := hneg z x y hzx hf
      rw [this] at hz
      exact absurd hz (by simp)
    omega

/-- For every strict weak order, `sort.Slice` returns its input rearranged so
that no element is ordered before one that precedes it. -/
theorem Slice_sorted_of_strictWeak (less : α → α → Bool) (hless : StrictWeak less)
    (l : List α) : (Slice less l).Pairwise (fun u v => less v u = false) := by
  have hkey : ∀ a b : {x // x ∈ l},
      (fun a b : {x // x ∈ l} => less a.val b.val) a b =
        decide ((fun a : {x // x ∈ l} => rankIn less l a.val) a <
          (fun a : {x // x ∈ l} => rankIn less l a.val) b) := by
    intro a b
    exact less_eq_rank_lt less hless l a.val b.val a.property
  have hs := Slice_sorted (fun a b : {x // x ∈ l} => less a.val b.val)
    (fun a : {x // x ∈ l} => rankIn less l a.val) hkey l.attach
  have hmap := Slice_map (Subtype.val : {x // x ∈ l} → α) less l.attach
  rw [List.attach_map_subtype_val] at hmap
  rw [hmap, List.pairwise_map]
  refine List.Pairwise.imp ?_ hs
  intro u v huv
  have := hkey v u
  simp only at this huv
  rw [this, decide_eq_false_iff_not]
  omega

/-- A list has at most one arrangement that is sorted for an order without
ties among its elements. -/
theorem eq_of_perm_of_sorted_of_no_ties (less : α → α → Bool) :
    ∀ (l₁ l₂ : List α), l₁.Perm l₂ →
      l₁.Pairwise (fun u v => less v u = false) → l₂.Pairwise (fun u v => less v u = false) →
      (∀ x ∈ l₁, ∀ y ∈ l₁, less x y = false → less y x = false → x = y) → l₁ = l₂
  | [], l₂, hp, _, _, _ => (List.Perm.nil_eq hp)
  | a :: t₁, [], hp, _, _, _ => absurd hp.symm.nil_eq (by simp)
  | a :: t₁, b :: t₂, hp, h₁, h₂, hties => by
    have hab : a = b := by
      by_contra hne
      have ha : a ∈ b :: t₂ := hp.subset (List.mem_cons_self _ _)
      have hb : b ∈ a :: t₁ := hp.symm.subset (List.mem_cons_self _ _)
      have ha' : a ∈ t₂ := by
        rcases List.mem_cons.mp ha with e | e
        · exact absurd e hne
        · exact e
      have hb' : b ∈ t₁ := by
        rcases List.mem_cons.mp hb with e | e
        · exact absurd e.symm hne
        · exact e
      have r1 : less b a = false := (List.pairwise_cons.mp h₁).1 b hb'
      have r2 : less a b = false := (List.pairwise_cons.mp h₂).1 a ha'
      exact hne (hties a (List.mem_cons_self _ _) b hb r2 r1)
    subst hab
    have ht : t₁ = t₂ :=
      eq_of_perm_of_sorted_of_no_ties less t₁ t₂ (List.Perm.cons_inv hp)
        (List.pairwise_cons.mp h₁).2 (List.pairwise_cons.mp h₂).2
        (fun x hx y hy => hties x (List.mem_cons_of_mem _ hx) y (List.mem_cons_of_mem _ hy))
    rw [ht]

end GoSort

/-! ### Independence of the enumeration order of the maps -/

/-- Every comparator of `SortArtifacts` compares a key in a linear order, so
it is a strict weak order. -/
theorem artifactLess_strictWeak (timeParse : String → Option Int)
    (sortBy sortOrder : String) : StrictWeak (artifactLess timeParse sortBy sortOrder) := by
  by_cases hv : sortBy = "version"
  · subst hv
    by_cases ha : sortOrder = "asc"
    · subst ha
      exact GoSort.strictWeak_of_key _ (fun e : ArtifactEntry => parseVersion e.Version)
        (Or.inl (artifactLess_version_asc timeParse))
    · exact GoSort.strictWeak_of_key _ (fun e : ArtifactEntry => -parseVersion e.Version)
        (Or.inl (artifactLess_version_desc timeParse sortOrder ha))
  · by_cases hd : sortBy = "date"
    · subst hd
      have e1 : ¬ ("date" : String) = "version" := by decide
      apply GoSort.strictWeak_of_key _
        (fun e : ArtifactEntry => dateInstant timeParse e.Date)
      by_cases ha : sortOrder = "asc"
      · left
        intro x y
        unfold artifactLess compareValue
        simp only [e1, ha, if_true, if_false]
        exact decide_eq_decide.mpr (sign_neg_iff _ _)
      · right
        intro x y
        unfold artifactLess compareValue
        simp only [e1, ha, if_true, if_false]
        exact decide_eq_decide.mpr (sign_pos_iff _ _)
    · by_cases hs : sortBy = "size"
      · subst hs
        have e1 : ¬ ("size" : String) = "version" := by decide
        have e2 : ¬ ("size" : String) = "date" := by decide
        apply GoSort.strictWeak_of_key _ (fun e : ArtifactEntry => e.Size)
        by_cases ha : sortOrder = "asc"
        · left
          intro x y
          unfold artifactLess compareValue
          simp only [e1, e2, ha, if_true, if_false]
          exact decide_eq_decide.mpr (sign_neg_iff _ _)
        · right
          intro x y
          unfold artifactLess compareValue
          simp only [e1, e2, ha, if_true, if_false]
          exact decide_eq_decide.mpr (sign_pos_iff _ _)
      · apply GoSort.strictWeak_of_key _ (fun e : ArtifactEntry => e.Version)
        by_cases ha : sortOrder = "asc"
        · left
          intro x y
          unfold artifactLess compareValue
          simp only [hv, hd, hs, ha, if_true, if_false]
          exact decide_eq_decide.mpr (stringsCompare_neg_iff _ _)
        · right
          intro x y
          unfold artifactLess compareValue
          simp only [hv, hd, hs, ha, if_true, if_false]
          exact decide_eq_decide.mpr (stringsCompare_pos_iff _ _)

/-- `SortArtifacts` returns its input sorted for its comparator: no entry is
ordered before one that precedes it in the result. -/
theorem SortArtifacts_sorted (timeParse : String → Option Int) (artifacts : List ArtifactEntry)
    (sortBy sortOrder : String) :
    (SortArtifacts timeParse artifacts sortBy sortOrder).Pairwise
      (fun u v => effectiveLess timeParse sortBy sortOrder v u = false) := by
  rw [SortArtifacts_eq_Slice]
  exact GoSort.Slice_sorted_of_strictWeak _ (artifactLess_strictWeak timeParse _ _) artifacts

theorem foldl_append_map {α β : Type} (f : α → β) (l : List α) (init : List β) :
    l.foldl (fun acc p => acc ++ [f p]) init = init ++ l.map f := by
  induction l generalizing init with
  | nil => simp
  | cons a l ih => simp [ih]

theorem flattenArtifacts_eq (windowsOrder linuxOrder : List (String × Artifact)) :
    flattenArtifacts windowsOrder linuxOrder =
      windowsOrder.map (fun p => windowsEntry p.1 p.2) ++
        linuxOrder.map (fun p => linuxEntry p.1 p.2) := by
  unfold flattenArtifacts
  simp only
  rw [foldl_append_map (fun p : String × Artifact => windowsEntry p.1 p.2),
    foldl_append_map (fun p : String × Artifact => linuxEntry p.1 p.2)]
  simp

theorem flattenArtifacts_perm (w₁ w₂ l₁ l₂ : List (String × Artifact)) (hw : w₁.Perm w₂)
    (hl : l₁.Perm l₂) : (flattenArtifacts w₁ l₁).Perm (flattenArtifacts w₂ l₂) := by
  rw [flattenArtifacts_eq, flattenArtifacts_eq]
  exact List.Perm.append (hw.map _) (hl.map _)

theorem FilterArtifacts_perm (a₁ a₂ : List ArtifactEntry) (query : ArtifactsQuery)
    (h : a₁.Perm a₂) : (FilterArtifacts a₁ query).Perm (FilterArtifacts a₂ query) := by
  rw [FilterArtifacts_eq_filter, FilterArtifacts_eq_filter]
  exact h.filter _

/-- Two arrangements of the same entries are sorted to the same list when the
comparator ties no two distinct entries. -/
theorem SortArtifacts_eq_of_perm (timeParse : String → Option Int) (f₁ f₂ : List ArtifactEntry)
    (sortBy sortOrder : String) (h : f₁.Perm f₂)
    (hties : ∀ x ∈ f₁, ∀ y ∈ f₁, effectiveLess timeParse sortBy sortOrder x y = false →
      effectiveLess timeParse sortBy sortOrder y x = false → x = y) :
    SortArtifacts timeParse f₁ sortBy sortOrder = SortArtifacts timeParse f₂ sortBy sortOrder := by
  have p₁ : (SortArtifacts timeParse f₁ sortBy sortOrder).Perm f₁ := by
    rw [SortArtifacts_eq_Slice]
    exact GoSort.Slice_perm _ _
  have p₂ : (SortArtifacts timeParse f₂ sortBy sortOrder).Perm f₂ := by
    rw [SortArtifacts_eq_Slice]
    exact GoSort.Slice_perm _ _
  apply GoSort.eq_of_perm_of_sorted_of_no_ties (effectiveLess timeParse sortBy sortOrder) _ _
    (p₁.trans (h.trans p₂.symm)) (SortArtifacts_sorted timeParse f₁ sortBy sortOrder)
    (SortArtifacts_sorted timeParse f₂ sortBy sortOrder)
  intro x hx y hy
  exact hties x (p₁.subset hx) y (p₁.subset hy)

/-- C18 (amended): for every `ArtifactData`, every query and any two
enumerations of the Windows map and of the Linux map, flattening by either
pair of enumerations and then filtering, sorting (by the sort field and order
of the query, or the defaults) and paginating yields the same result, provided
the comparator ties no two distinct entries that pass the filter (for any two
of them it orders one before the other). -/
theorem queryArtifacts_enumeration_independent (timeParse : String → Option Int)
    (data : ArtifactData) (query : ArtifactsQuery) (w₁ w₂ l₁ l₂ : List (String × Artifact))
    (hw₁ : w₁.Perm data.Windows) (hw₂ : w₂.Perm data.Windows)
    (hl₁ : l₁.Perm data.Linux) (hl₂ : l₂.Perm data.Linux)
    (hties : ∀ x ∈ FilterArtifacts (flattenArtifacts data.Windows data.Linux) query,
      ∀ y ∈ FilterArtifacts (flattenArtifacts data.Windows data.Linux) query,
        effectiveLess timeParse query.SortBy query.SortOrder x y = false →
        effectiveLess timeParse query.SortBy query.SortOrder y x = false → x = y) :
    queryArtifacts timeParse (flattenArtifacts w₁ l₁) query =
      queryArtifacts timeParse (flattenArtifacts w₂ l₂) query := by
  have h₁ := FilterArtifacts_perm _ _ query (flattenArtifacts_perm w₁ data.Windows l₁ data.Linux hw₁ hl₁)
  have h₂ := FilterArtifacts_perm _ _ query (flattenArtifacts_perm w₂ data.Windows l₂ data.Linux hw₂ hl₂)
  have hs := SortArtifacts_eq_of_perm timeParse _ _ query.SortBy query.SortOrder
    (h₁.trans h₂.symm)
    (fun x hx y hy => hties x (h₁.subset hx) y (h₁.subset hy))
  rw [queryArtifacts_eq, queryArtifacts_eq, hs]

theorem queryArtifacts_enumeration_independent_witness :
    ((generateFallbackData "2025-01-01T00:00:00Z").Windows.reverse.Perm
      (generateFallbackData "2025-01-01T00:00:00Z").Windows) ∧
    (∀ x ∈ FilterArtifacts (flattenArtifacts (generateFallbackData "2025-01-01T00:00:00Z").Windows
        (generateFallbackData "2025-01-01T00:00:00Z").Linux) windowsQuery,
      ∀ y ∈ FilterArtifacts (flattenArtifacts (generateFallbackData "2025-01-01T00:00:00Z").Windows
          (generateFallbackData "2025-01-01T00:00:00Z").Linux) windowsQuery,
        effectiveLess parseRFC3339 windowsQuery.SortBy windowsQuery.SortOrder x y = false →
        effectiveLess parseRFC3339 windowsQuery.SortBy windowsQuery.SortOrder y x = false →
        x = y) ∧
    queryArtifacts parseRFC3339
      (flattenArtifacts (generateFallbackData "2025-01-01T00:00:00Z").Windows
        (generateFallbackData "2025-01-01T00:00:00Z").Linux) windowsQuery =
    queryArtifacts parseRFC3339
      (flattenArtifacts (generateFallbackData "2025-01-01T00:00:00Z").Windows.reverse
        (generateFallbackData "2025-01-01T00:00:00Z").Linux.reverse) windowsQuery :=
  ⟨List.reverse_perm _, by decide,
   queryArtifacts_enumeration_independent parseRFC3339
     (generateFallbackData "2025-01-01T00:00:00Z") windowsQuery _ _ _ _
     (List.Perm.refl _) (List.reverse_perm _) (List.Perm.refl _) (List.reverse_perm _)
     (by decide)⟩

/-- C18 (counterexample): on the fallback data, whose six entries all carry
the same timestamp, the query that sorts by date returns the Windows entries
in the order in which the Windows map was enumerated: enumerating it in the
opposite order gives a different list, for the pipeline after flattening and
for `GetArtifacts` as a whole. The two results hold the same entries. -/
theorem queryArtifacts_depends_on_enumeration :
    ((generateFallbackData "2025-01-01T00:00:00Z").Windows.reverse.Perm
      (generateFallbackData "2025-01-01T00:00:00Z").Windows) ∧
    queryArtifacts parseRFC3339
      (flattenArtifacts (generateFallbackData "2025-01-01T00:00:00Z").Windows
        (generateFallbackData "2025-01-01T00:00:00Z").Linux) dateQuery ≠
    queryArtifacts parseRFC3339
      (flattenArtifacts (generateFallbackData "2025-01-01T00:00:00Z").Windows.reverse
        (generateFallbackData "2025-01-01T00:00:00Z").Linux) dateQuery ∧
    (queryArtifacts parseRFC3339
      (flattenArtifacts (generateFallbackData "2025-01-01T00:00:00Z").Windows
        (generateFallbackData "2025-01-01T00:00:00Z").Linux) dateQuery).map
        (fun r => r.map (fun e => (e.Version, e.Platform))) =
      some [("24769", "windows"), ("24574", "windows"), ("24573", "windows"),
            ("24769", "linux"), ("24574", "linux"), ("24573", "linux")] ∧
    (queryArtifacts parseRFC3339
      (flattenArtifacts (generateFallbackData "2025-01-01T00:00:00Z").Windows.reverse
        (generateFallbackData "2025-01-01T00:00:00Z").Linux) dateQuery).map
        (fun r => r.map (fun e => (e.Version, e.Platform))) =
      some [("24573", "windows"), ("24574", "windows"), ("24769", "windows"),
            ("24769", "linux"), ("24574", "linux"), ("24573", "linux")] ∧
    (GetArtifacts parseRFC3339 id id (NewArtifactsService "") (Except.ok []) 0 0
      "2025-01-01T00:00:00Z" dateQuery).1 ≠
    (GetArtifacts parseRFC3339 List.reverse id (NewArtifactsService "") (Except.ok []) 0 0
      "2025-01-01T00:00:00Z" dateQuery).1 := by
  refine ⟨List.reverse_perm _, by decide, by decide, by decide, by decide⟩

end Artifacts
